import Mathlib

/-!
Verification development for the wimlib core sources:
`decompress_common.c` (canonical prefix-code decode tables),
`compress_common.c` (canonical Huffman code construction),
`lzms-common.c` (LZMS shared state and the x86 filter),
`dentry.c` (WIM directory-entry codec and path lookup), and
`xml_windows.c` (Windows metadata harvesting).

Each C function that a claim depends on is embedded as an executable Lean
definition operating on `Nat`/`Int` values and `List`-based buffers.
Machine-integer wraparound is written out explicitly (`% 2 ^ 32` etc.)
at the places where the C types make it observable.
-/

set_option maxRecDepth 10000

namespace Wimlib

/-- Round a byte count up to the next multiple of 8.  C source:
`(len + 7) & ~7`, which for nonnegative values equals the expression used
here. -/
def align8 (n : Nat) : Nat := (n + 7) / 8 * 8

end Wimlib

namespace CompressCommon

/-! Embedding of `compress_common.c`.  Array entries pack a symbol in the
low `NUM_SYMBOL_BITS = 10` bits and a frequency (or, later, a parent
index) in the remaining bits. -/

/-- `NUM_SYMBOL_BITS` from compress_common.c. -/
def NUM_SYMBOL_BITS : Nat := 10

/-- `SYMBOL_MASK` from compress_common.c. -/
def SYMBOL_MASK : Nat := (1 <<< NUM_SYMBOL_BITS) - 1

/-- Weight (frequency, or non-leaf node weight) stored in an entry:
`A[x] >> NUM_SYMBOL_BITS`. -/
def weight (a : Nat) : Nat := a >>> NUM_SYMBOL_BITS

/-- State of `build_tree`'s selection: the array `A`, the index `i` of the
next unprocessed leaf, the index `b` of the next parentless non-leaf, and
the index `e` of the next entry to allocate as a non-leaf. -/
structure TreeState where
  A : Array Nat
  i : Nat
  b : Nat
  e : Nat
deriving Repr, DecidableEq

/-- One choice of the next lowest-weight item in `build_tree`.  C source
(both occurrences in the loop body are this same expression):

  if (i != sym_count && (b == e || (A[i] >> NUM_SYMBOL_BITS) <= (A[b] >> NUM_SYMBOL_BITS)))
      m = i++;
  else
      m = b++;

Returns the chosen array index together with the updated state. -/
def chooseNext (st : TreeState) (sym_count : Nat) : Nat × TreeState :=
  if st.i ≠ sym_count ∧
      (st.b = st.e ∨ weight (st.A.getD st.i 0) ≤ weight (st.A.getD st.b 0)) then
    (st.i, { st with i := st.i + 1 })
  else
    (st.b, { st with b := st.b + 1 })

/-- Loop body of `build_tree`: choose the two next lowest-weight entries,
link them to the non-leaf node allocated at index `e`, and store the sum
of their weights there. -/
def buildTreeStep (st : TreeState) (sym_count : Nat) : TreeState :=
  let c₁ := chooseNext st sym_count
  let m := c₁.1
  let st₁ := c₁.2
  let c₂ := chooseNext st₁ sym_count
  let n := c₂.1
  let st₂ := c₂.2
  let freq_shifted := (st₂.A.getD m 0 / (SYMBOL_MASK + 1) * (SYMBOL_MASK + 1))
      + (st₂.A.getD n 0 / (SYMBOL_MASK + 1) * (SYMBOL_MASK + 1))
  let A₁ := st₂.A.setD m ((st₂.A.getD m 0) % (SYMBOL_MASK + 1) + (st₂.e <<< NUM_SYMBOL_BITS))
  let A₂ := A₁.setD n ((A₁.getD n 0) % (SYMBOL_MASK + 1) + (st₂.e <<< NUM_SYMBOL_BITS))
  let A₃ := A₂.setD st₂.e ((A₂.getD st₂.e 0) % (SYMBOL_MASK + 1) + freq_shifted)
  { A := A₃, i := st₂.i, b := st₂.b, e := st₂.e + 1 }

theorem chooseNext_e (st : TreeState) (n : Nat) : (chooseNext st n).2.e = st.e := by
  unfold chooseNext
  split <;> rfl

theorem buildTreeStep_e (st : TreeState) (n : Nat) :
    (buildTreeStep st n).e = st.e + 1 := by
  simp only [buildTreeStep, chooseNext_e]

/-- `build_tree` from compress_common.c: repeat the step until
`sym_count - e` is 1.  The C loop is `do { ... } while (sym_count - e > 1)`;
the caller guarantees `sym_count ≥ 2`. -/
def buildTreeGo (st : TreeState) (sym_count : Nat) : TreeState :=
  if _h : sym_count - (buildTreeStep st sym_count).e > 1 then
    buildTreeGo (buildTreeStep st sym_count) sym_count
  else
    buildTreeStep st sym_count
termination_by sym_count - st.e
decreasing_by
  have he := buildTreeStep_e st sym_count
  omega

/-- `build_tree(A, sym_count)` from compress_common.c. -/
def build_tree (A : Array Nat) (sym_count : Nat) : Array Nat :=
  (buildTreeGo { A := A, i := 0, b := 0, e := 0 } sym_count).A

/-- `sort_symbols` from compress_common.c.  The C code uses a counting sort
on low frequencies (stable, so equal-frequency symbols stay in symbol
order) and a heapsort of the high-frequency bucket keyed on the packed
`(freq << NUM_SYMBOL_BITS) | sym` value; both orderings coincide with
sorting the nonzero-frequency symbols primarily by increasing frequency
and secondarily by increasing symbol value, which is what the function's
own documentation states.  Zero-frequency symbols get length 0 and are
excluded.  Returns the packed sorted array and the number of used
symbols; the `lens` output for zero-frequency symbols is handled in
`make_canonical_huffman_code` below. -/
def sortSymbols (num_syms : Nat) (freqs : Nat → Nat) : List Nat :=
  (((List.range num_syms).filter (fun s => freqs s ≠ 0)).mergeSort
      (fun s t => freqs s < freqs t ∨ (freqs s = freqs t ∧ s ≤ t))).map
    (fun s => s + (freqs s <<< NUM_SYMBOL_BITS))

/-- Inner loop of the length-limit adjustment in `compute_length_counts`:
`do { len--; } while (len_counts[len] == 0)`.  Returns the largest
`l < len` with a nonzero count (0 if there is none, where the C code
would keep decrementing past the array). -/
def lenDecr (counts : Nat → Nat) : Nat → Nat
  | 0 => 0
  | l + 1 => if counts l = 0 then lenDecr counts l else l

/-- Loop body of `compute_length_counts` for one non-leaf `node`. -/
def lengthCountsStep (st : Array Nat × (Nat → Nat)) (max_codeword_len node : Nat) :
    Array Nat × (Nat → Nat) :=
  let A := st.1
  let counts := st.2
  let parent := A.getD node 0 >>> NUM_SYMBOL_BITS
  let parent_depth := A.getD parent 0 >>> NUM_SYMBOL_BITS
  let depth := parent_depth + 1
  let len := if depth ≥ max_codeword_len then lenDecr counts max_codeword_len else depth
  let A' := A.setD node (A.getD node 0 % (SYMBOL_MASK + 1) + (depth <<< NUM_SYMBOL_BITS))
  (A', fun l => if l = len then counts len - 1 else if l = len + 1 then counts (len + 1) + 2 else counts l)

/-- `compute_length_counts` from compress_common.c: traverse the non-leaf
nodes from the root down (decreasing array index), overwriting parent
indices with depths and maintaining the per-length codeword counts. -/
def compute_length_counts (A : Array Nat) (root_idx max_codeword_len : Nat) :
    Array Nat × (Nat → Nat) :=
  let counts₀ : Nat → Nat := fun l => if l = 1 then 2 else 0
  let A₀ := A.setD root_idx (A.getD root_idx 0 % (SYMBOL_MASK + 1))
  ((List.range root_idx).reverse).foldl
    (fun st node => lengthCountsStep st max_codeword_len node) (A₀, counts₀)

/-- `gen_codewords` from compress_common.c: hand out lengths in decreasing
order to the sorted symbols, then assign canonical codewords by symbol
order using the `next_codewords` recurrence. -/
def gen_codewords (A : Array Nat) (len_counts : Nat → Nat)
    (max_codeword_len num_syms : Nat) (lens₀ : Array Nat) :
    Array Nat × Array Nat :=
  -- First loop: `for (i = 0, len = max; len >= 1; len--) while (count--)
  --   lens[A[i++] & SYMBOL_MASK] = len;`
  let lens := (((List.range max_codeword_len).map (fun k => max_codeword_len - k)).foldl
    (fun (st : Nat × Array Nat) len =>
      (List.range (len_counts len)).foldl
        (fun (st : Nat × Array Nat) _ =>
          (st.1 + 1, st.2.setD (A.getD st.1 0 % (SYMBOL_MASK + 1)) len)) st)
    (0, lens₀)).2
  -- `next_codewords[0] = next_codewords[1] = 0;` then the shift recurrence.
  let next₀ : Nat → Nat := fun _ => 0
  let next := (List.range (max_codeword_len - 1)).foldl
    (fun (next : Nat → Nat) k =>
      let len := k + 2
      fun l => if l = len then (next (len - 1) + len_counts (len - 1)) <<< 1 else next l)
    next₀
  -- `for (sym = 0; sym < num_syms; sym++) A[sym] = next_codewords[lens[sym]]++;`
  let cws := ((List.range num_syms).foldl
    (fun (st : Array Nat × (Nat → Nat)) sym =>
      let len := lens.getD sym 0
      (st.1.setD sym (st.2 len),
        fun l => if l = len then st.2 len + 1 else st.2 l))
    (Array.mkArray num_syms 0, next)).1
  (lens, cws)

/-- `make_canonical_huffman_code` from compress_common.c.  Returns
`(lens, codewords)`.  The codeword array `A` shares storage with the
sorted-symbol array in C; here the intermediate arrays are threaded
explicitly.  Zero-frequency symbols have length 0. -/
def make_canonical_huffman_code (num_syms max_codeword_len : Nat)
    (freqs : Nat → Nat) : Array Nat × Array Nat :=
  let sorted := sortSymbols num_syms freqs
  let num_used_syms := sorted.length
  let lens₀ : Array Nat := Array.mkArray num_syms 0
  if num_used_syms = 0 then
    (lens₀, Array.mkArray num_syms 0)
  else if num_used_syms = 1 then
    let sym := sorted.headD 0 % (SYMBOL_MASK + 1)
    let nonzero_idx := if sym ≠ 0 then sym else 1
    let lens := (lens₀.setD 0 1).setD nonzero_idx 1
    let cws := (Array.mkArray num_syms 0).setD 0 0 |>.setD nonzero_idx 1
    (lens, cws)
  else
    let A := build_tree ⟨sorted⟩ num_used_syms
    let (A', len_counts) := compute_length_counts A (num_used_syms - 2) max_codeword_len
    gen_codewords A' len_counts max_codeword_len num_syms lens₀

end CompressCommon

namespace LzmsCommon

/-! Embedding of `lzms-common.c`.  Byte buffers are `List Nat` whose
entries are below 256 (the C type is `u8`); multi-byte values are
little-endian.  The constants `LZMS_X86_MAX_TRANSLATION_OFFSET` and
`LZMS_X86_MAX_GOOD_TARGET_OFFSET` live in a header that is not part of
this repository snapshot, so every definition takes them as the
parameters `maxTrans` and `good`; the theorems below hold for all
values. -/

/-- Read a little-endian 16-bit value at byte offset `i`. -/
def le16 (data : List Nat) (i : Nat) : Nat :=
  data.getD i 0 + 256 * data.getD (i + 1) 0

/-- Read a little-endian 32-bit value at byte offset `i`. -/
def le32 (data : List Nat) (i : Nat) : Nat :=
  data.getD i 0 + 256 * data.getD (i + 1) 0 + 65536 * data.getD (i + 2) 0
    + 16777216 * data.getD (i + 3) 0

/-- Store a 32-bit value (reduced mod `2^32`) little-endian at offset `i`. -/
def write32 (data : List Nat) (i v : Nat) : List Nat :=
  (((data.set i (v % 256)).set (i + 1) (v / 256 % 256)).set
      (i + 2) (v / 65536 % 256)).set (i + 3) (v / 16777216 % 256)

/-- `lzms_may_x86_translate` from lzms-common.c: classify the byte at
`data[i]` as an x86 opcode form.  Returns the operand offset
(`num_op_bytes`) and the form's `max_translation_offset` (0 when the
position is not translatable). -/
def lzms_may_x86_translate (maxTrans : Int) (data : List Nat) (i : Nat) :
    Nat × Int :=
  let p0 := data.getD i 0
  let p1 := data.getD (i + 1) 0
  let p2 := data.getD (i + 2) 0
  if p0 = 0x48 then
    if p1 = 0x8b then
      if p2 = 0x5 ∨ p2 = 0xd then (3, maxTrans) else (1, 0)
    else if p1 = 0x8d then
      if p2 % 8 = 5 then (3, maxTrans) else (1, 0)
    else (1, 0)
  else if p0 = 0x4c then
    if p1 = 0x8d ∧ p2 % 8 = 5 then (3, maxTrans) else (1, 0)
  else if p0 = 0xe8 then (1, maxTrans / 2)
  else if p0 = 0xe9 then (5, 0)
  else if p0 = 0xf0 then
    if p1 = 0x83 ∧ p2 = 0x05 then (3, maxTrans) else (1, 0)
  else if p0 = 0xff then
    if p1 = 0x15 then (2, maxTrans) else (1, 0)
  else (1, 0)

/-- `lzms_maybe_do_x86_translation` from lzms-common.c.  Returns the
updated buffer, `closest_target_usage`, `last_target_usages`, and the
next value of the loop index `i`.  In the forward direction the 16-bit
target window `pos` is read before the operand is translated; in the
undo direction the translation is reverted first and `pos` is read from
the restored bytes. -/
def lzms_maybe_do_x86_translation (good : Int) (data : List Nat)
    (i num_op_bytes : Nat) (ctu : Int) (ltu : Nat → Int)
    (max_trans_offset : Int) (undo : Bool) :
    List Nat × Int × (Nat → Int) × Nat :=
  let p := i + num_op_bytes
  let step := fun (data₁ : List Nat) (pos : Nat) =>
    let i' := i + num_op_bytes + 3
    let ctu' := if (i' : Int) - ltu pos ≤ good then (i' : Int) else ctu
    let ltu' := fun q => if q = pos then (i' : Int) else ltu q
    (data₁, ctu', ltu', i' + 1)
  if undo then
    let data₁ := if (i : Int) - ctu ≤ max_trans_offset then
        write32 data p ((le32 data p + 4294967296 - i % 4294967296) % 4294967296)
      else data
    let pos := (i + le16 data₁ p) % 65536
    step data₁ pos
  else
    let pos := (i + le16 data p) % 65536
    let data₁ := if (i : Int) - ctu ≤ max_trans_offset then
        write32 data p ((le32 data p + i) % 4294967296)
      else data
    step data₁ pos

/-- The loop of `lzms_x86_filter`.  `fuel` is an embedding device: the C
loop index `i` strictly increases each iteration, so `size` iterations
always suffice and the caller passes `fuel = size`; the result does not
depend on any larger fuel value. -/
def filterGo (good : Int) (size : Nat) (undo : Bool) (maxTrans : Int) :
    Nat → List Nat → Nat → Int → (Nat → Int) → List Nat
  | 0, data, _, _, _ => data
  | fuel + 1, data, i, ctu, ltu =>
    if i + 11 < size then
      let c := lzms_may_x86_translate maxTrans data i
      if c.2 ≠ 0 then
        let r := lzms_maybe_do_x86_translation good data i c.1 ctu ltu c.2 undo
        filterGo good size undo maxTrans fuel r.1 r.2.2.2 r.2.1 r.2.2.1
      else
        filterGo good size undo maxTrans fuel data (i + c.1) ctu ltu
    else data

/-- `lzms_x86_filter` from lzms-common.c: translate relative x86
addresses into absolute form (`undo = false`) or revert that
translation (`undo = true`), scanning `data[0 .. size-11)` with the
initial state `closest_target_usage = -maxTrans - 1` and
`last_target_usages[*] = -good - 1`.  `size` is the buffer length. -/
def lzms_x86_filter (maxTrans good : Int) (data : List Nat) (undo : Bool) :
    List Nat :=
  filterGo good data.length undo maxTrans data.length data 0 (-maxTrans - 1)
    (fun _ => -good - 1)

/-- A concrete 24-byte buffer with three `call rel32` opcodes (0xe8);
the third is close enough to the second target use to be translated. -/
def c3Data : List Nat :=
  [0xe8, 5, 0, 0, 0, 0xe8, 0, 0, 0, 0, 0xe8, 9, 9, 9, 9,
   0, 0, 0, 0, 0, 0, 0, 0, 0]

end LzmsCommon

namespace Dentry

/-! Embedding of `dentry.c`.  UTF-16LE strings are `List Nat` of code
units; SHA-1 hashes are `List Nat` of 20 bytes. -/

/-- Stream types from the `wim_inode_stream` model.  The enumeration
lives in `wimlib/inode.h`, which is not part of this repository
snapshot; the four constants are named throughout `dentry.c`. -/
inductive StreamType where
  | UNKNOWN
  | DATA
  | REPARSE_POINT
  | EFSRPC_RAW_DATA
deriving Repr, DecidableEq

/-- One stream of an inode: the name (empty list is the `NO_STREAM_NAME`
sentinel of an unnamed stream), the 20-byte content hash, and the
assigned type. -/
structure WimStream where
  stream_name : List Nat
  stream_hash : List Nat
  stream_type : StreamType
deriving Repr, DecidableEq

/-- Modelled from the spec: `stream_is_named` (wimlib/inode.h is absent
from this snapshot): a stream is named iff its name has nonzero
length. -/
def stream_is_named (s : WimStream) : Bool := s.stream_name ≠ []

/-- The all-zeroes SHA-1 value. -/
def zero_hash : List Nat := List.replicate 20 0

/-- Modelled from the spec: `is_zero_hash` (the SHA-1 helpers are absent
from this snapshot): test whether a hash is all zeroes. -/
def is_zero_hash (h : List Nat) : Bool := h.all (· = 0)

/-- Modelled from the spec: `stream_is_named_data_stream`
(wimlib/inode.h is absent from this snapshot): a named stream whose
type is `STREAM_TYPE_DATA`. -/
def stream_is_named_data_stream (s : WimStream) : Bool :=
  stream_is_named s ∧ s.stream_type = StreamType.DATA

/-- `FILE_ATTRIBUTE_*` bits used by dentry.c (values from the Windows
API, referenced but not defined in this snapshot). -/
def FILE_ATTRIBUTE_DIRECTORY : Nat := 0x10

/-- `FILE_ATTRIBUTE_ENCRYPTED`. -/
def FILE_ATTRIBUTE_ENCRYPTED : Nat := 0x4000

/-- `FILE_ATTRIBUTE_REPARSE_POINT`. -/
def FILE_ATTRIBUTE_REPARSE_POINT : Nat := 0x400

/-- Test a bit of an attribute word: `attrib & flag`, where `flag` is a
single-bit mask. -/
def hasAttr (attributes flag : Nat) : Bool := attributes / flag % 2 = 1

/-- `assign_stream_types_encrypted` from dentry.c: retype the first
unnamed stream with a nonzero hash to `EFSRPC_RAW_DATA` and return;
all other streams are left as they are. -/
def assign_stream_types_encrypted : List WimStream → List WimStream
  | [] => []
  | s :: rest =>
    if ¬ stream_is_named s ∧ ¬ is_zero_hash s.stream_hash then
      { s with stream_type := StreamType.EFSRPC_RAW_DATA } :: rest
    else
      s :: assign_stream_types_encrypted rest

/-- Loop of `assign_stream_types_unencrypted`: walk the streams with the
`found_reparse_point_stream` and `found_unnamed_data_stream` flags,
returning the retyped list, the final `found_unnamed_data_stream`
flag, and the index (into the processed list) of the last unnamed
zero-hash stream seen (`unnamed_stream_with_zero_hash` holds a pointer
to that stream in C, overwritten on every match). -/
def auGo (rpAttr : Bool) : List WimStream → Bool → Bool →
    List WimStream × Bool × Option Nat
  | [], _, foundUD => ([], foundUD, none)
  | s :: rest, foundRP, foundUD =>
    if stream_is_named s then
      let r := auGo rpAttr rest foundRP foundUD
      ({ s with stream_type := StreamType.DATA } :: r.1, r.2.1,
        r.2.2.map (· + 1))
    else if ¬ is_zero_hash s.stream_hash then
      if rpAttr ∧ ¬ foundRP then
        let r := auGo rpAttr rest true foundUD
        ({ s with stream_type := StreamType.REPARSE_POINT } :: r.1, r.2.1,
          r.2.2.map (· + 1))
      else if ¬ foundUD then
        let r := auGo rpAttr rest foundRP true
        ({ s with stream_type := StreamType.DATA } :: r.1, r.2.1,
          r.2.2.map (· + 1))
      else
        let r := auGo rpAttr rest foundRP foundUD
        (s :: r.1, r.2.1, r.2.2.map (· + 1))
    else
      let r := auGo rpAttr rest foundRP foundUD
      (s :: r.1, r.2.1, match r.2.2 with
        | some j => some (j + 1)
        | none => some 0)

/-- `assign_stream_types_unencrypted` from dentry.c: run the loop, then,
if no unnamed data stream was found but an unnamed zero-hash stream was
remembered, retype that remembered stream to `DATA`. -/
def assign_stream_types_unencrypted (rpAttr : Bool) (streams : List WimStream) :
    List WimStream :=
  let r := auGo rpAttr streams false false
  match r.2.1, r.2.2 with
  | false, some k =>
    let s := r.1.getD k ⟨[], [], StreamType.UNKNOWN⟩
    r.1.set k { s with stream_type := StreamType.DATA }
  | _, _ => r.1

/-- The default `WimStream` used for out-of-range `getD` reads. -/
def dfltStream : WimStream := ⟨[], [], StreamType.UNKNOWN⟩

/-- An unnamed stream with a nonzero hash. -/
def unnamedNZ (s : WimStream) : Bool :=
  !stream_is_named s && !is_zero_hash s.stream_hash

/-- An unnamed stream with an all-zero hash. -/
def unnamedZ (s : WimStream) : Bool :=
  !stream_is_named s && is_zero_hash s.stream_hash

/-- Number of unnamed nonzero-hash streams strictly before index `j`. -/
def cntNZ (streams : List WimStream) (j : Nat) : Nat :=
  ((streams.take j).filter unnamedNZ).length

/-- Index of the last unnamed zero-hash stream, if any (the stream the
C loop remembers in `unnamed_stream_with_zero_hash`, overwriting the
pointer on every later match). -/
def lastZ : List WimStream → Option Nat
  | [] => none
  | s :: rest =>
    match lastZ rest with
    | some j => some (j + 1)
    | none => if unnamedZ s then some 0 else none

/-- Index of the first unnamed nonzero-hash stream, if any. -/
def firstNZ : List WimStream → Option Nat
  | [] => none
  | s :: rest => if unnamedNZ s then some 0 else (firstNZ rest).map (· + 1)

/-- Modelled from the spec: the stream type the unencrypted-assignment
loop gives the stream at index `j`, when the loop is started with
`found_reparse_point_stream = fRP` and `found_unnamed_data_stream =
fUD`.  Named streams become `DATA`; an unnamed nonzero-hash stream
becomes `REPARSE_POINT` if it is the first one and the inode is a
reparse point whose reparse stream is still unfound, `DATA` if it is
the first one not taken by the reparse slot and no unnamed data stream
was found yet; everything else keeps its type. -/
def auSpecType (rpAttr fRP fUD : Bool) (streams : List WimStream) (j : Nat) :
    StreamType :=
  let s := streams.getD j dfltStream
  if stream_is_named s then StreamType.DATA
  else if unnamedNZ s then
    if rpAttr ∧ ¬fRP ∧ cntNZ streams j = 0 then StreamType.REPARSE_POINT
    else if ¬fUD ∧ cntNZ streams j = (if rpAttr ∧ ¬fRP then 1 else 0) then
      StreamType.DATA
    else s.stream_type
  else s.stream_type

/-- Modelled from the spec: the final stream type of the stream at
index `j` of an unencrypted inode: named streams are `DATA`; the first
unnamed nonzero-hash stream of a reparse-point inode is
`REPARSE_POINT`; the first remaining unnamed nonzero-hash stream is
`DATA`; if no unnamed data stream exists but an unnamed zero-hash
stream does, the last such stream is `DATA`; all else is unchanged. -/
def specStreamType (rpAttr : Bool) (streams : List WimStream) (j : Nat) :
    StreamType :=
  let s := streams.getD j dfltStream
  if stream_is_named s then StreamType.DATA
  else if unnamedNZ s then
    if rpAttr ∧ cntNZ streams j = 0 then StreamType.REPARSE_POINT
    else if cntNZ streams j = (if rpAttr then 1 else 0) then StreamType.DATA
    else s.stream_type
  else if (streams.filter unnamedNZ).length < (if rpAttr then 2 else 1)
      ∧ lastZ streams = some j then StreamType.DATA
  else s.stream_type

/-- A concrete stream list: a named stream, an unnamed zero-hash
stream, and two unnamed nonzero-hash streams, all still untyped. -/
def c5Streams : List WimStream :=
  [⟨[97], [5], StreamType.UNKNOWN⟩,
   ⟨[], List.replicate 20 0, StreamType.UNKNOWN⟩,
   ⟨[], [7], StreamType.UNKNOWN⟩,
   ⟨[], [9], StreamType.UNKNOWN⟩]

/-- In-memory inode, as used by the reading and writing paths of
dentry.c.  `i_extra` is the tagged-items blob (`i_extra_size` is its
length); `i_streams` is the stream array. -/
structure WimInode where
  i_attributes : Nat
  i_security_id : Int
  i_creation_time : Nat
  i_last_access_time : Nat
  i_last_write_time : Nat
  i_rp_unknown_1 : Nat
  i_reparse_tag : Nat
  i_rp_unknown_2 : Nat
  i_not_rpfixed : Nat
  i_nlink : Nat
  i_ino : Nat
  i_extra : List Nat
  i_streams : List WimStream
deriving Repr, DecidableEq

/-- In-memory dentry: the long and short names (UTF-16LE code-unit
lists, empty meaning absent), the cached `subdir_offset`, and the
inode. -/
structure WimDentry where
  file_name : List Nat
  short_name : List Nat
  subdir_offset : Nat
  d_inode : WimInode
deriving Repr, DecidableEq

/-- Modelled from the spec: `utf16le_len_bytes` (the encoding helpers
are absent from this snapshot): byte length of a UTF-16LE string,
excluding any null terminator. -/
def utf16le_len_bytes (s : List Nat) : Nat := 2 * s.length

/-- `sizeof(struct wim_dentry_on_disk)`: 8 + 4 + 4 + 8 + 16 + 24 + 20 +
12 + 2 + 2 + 2 bytes of packed fields. -/
def WIM_DENTRY_DISK_SIZE : Nat := 102

/-- `sizeof(struct wim_extra_stream_entry_on_disk)`: 8 + 8 + 20 + 2
bytes of packed fields (the flexible name array contributes nothing). -/
def EXTRA_STREAM_ENTRY_DISK_SIZE : Nat := 38

/-- `dentry_min_len_with_names` from dentry.c, in terms of the two name
byte lengths. -/
def dentry_min_len_with_names (file_name_nbytes short_name_nbytes : Nat) : Nat :=
  WIM_DENTRY_DISK_SIZE
    + (if file_name_nbytes ≠ 0 then file_name_nbytes + 2 else 0)
    + (if short_name_nbytes ≠ 0 then short_name_nbytes + 2 else 0)

/-- `stream_out_total_length` from dentry.c. -/
def stream_out_total_length (s : WimStream) : Nat :=
  Wimlib.align8 (EXTRA_STREAM_ENTRY_DISK_SIZE
    + (if stream_is_named s then utf16le_len_bytes s.stream_name + 2 else 0))

/-- `dentry_out_total_length` from dentry.c.  The C loop over
`i_streams` accumulates one `stream_out_total_length` per named data
stream and computes the `have_named_data_stream` /
`have_reparse_point_stream` flags; both are written here as a fold plus
two `any` tests, which is the same computation. -/
def dentry_out_total_length (d : WimDentry) : Nat :=
  let inode := d.d_inode
  let len₀ := dentry_min_len_with_names (utf16le_len_bytes d.file_name)
    (utf16le_len_bytes d.short_name)
  let len₁ := Wimlib.align8 len₀
  let len₂ := if inode.i_extra.length ≠ 0 then Wimlib.align8 (len₁ + inode.i_extra.length)
    else len₁
  if ¬ hasAttr inode.i_attributes FILE_ATTRIBUTE_ENCRYPTED then
    let named_total := inode.i_streams.foldl
      (fun acc s => if stream_is_named_data_stream s then acc + stream_out_total_length s
        else acc) 0
    let have_named := inode.i_streams.any stream_is_named_data_stream
    let have_rp := inode.i_streams.any (fun s => s.stream_type = StreamType.REPARSE_POINT)
    len₂ + named_total +
      (if have_named ∨ have_rp then
        (if have_rp then Wimlib.align8 EXTRA_STREAM_ENTRY_DISK_SIZE else 0)
          + Wimlib.align8 EXTRA_STREAM_ENTRY_DISK_SIZE
      else 0)
  else
    len₂

/-- The union in `struct wim_dentry_on_disk` at offset 84: the reparse
view or the non-reparse (hard-link group id) view. -/
inductive DiskUnion where
  | reparse (rp_unknown_1 reparse_tag rp_unknown_2 not_rpfixed : Nat)
  | nonreparse (rp_unknown_1 : Nat) (hard_link_group_id : Nat)
deriving Repr, DecidableEq

/-- The fixed part of an on-disk dentry record as produced by
`write_dentry`, with the variable-length name fields carried
alongside.  `length` is the record's length field: the byte distance
from the start of the record to the end of the tagged-items blob
including alignment, exactly as computed by the pointer arithmetic in
`write_dentry`. -/
structure DiskDentry where
  length : Nat
  attributes : Nat
  security_id : Int
  subdir_offset : Nat
  creation_time : Nat
  last_access_time : Nat
  last_write_time : Nat
  default_hash : List Nat
  union : DiskUnion
  num_extra_streams : Nat
  short_name_nbytes : Nat
  file_name_nbytes : Nat
  file_name : List Nat
  short_name : List Nat
  extra : List Nat
deriving Repr, DecidableEq

/-- One on-disk extra stream entry as produced by
`write_extra_stream_entry`: its length field (which includes the final
padding to 8 bytes), hash, and name. -/
structure DiskStreamEntry where
  length : Nat
  hash : List Nat
  name_nbytes : Nat
  name : List Nat
deriving Repr, DecidableEq

/-- `write_extra_stream_entry` from dentry.c.  An empty `name` is the
`NO_STREAM_NAME` sentinel, for which `name_nbytes = 0` and no name
bytes are emitted. -/
def write_extra_stream_entry (name : List Nat) (hash : List Nat) : DiskStreamEntry :=
  let name_nbytes := utf16le_len_bytes name
  { length := Wimlib.align8 (EXTRA_STREAM_ENTRY_DISK_SIZE
      + (if name_nbytes ≠ 0 then name_nbytes + 2 else 0)),
    hash := hash, name_nbytes := name_nbytes, name := name }

/-- Modelled from the spec: `inode_get_unnamed_stream` (wimlib/inode.h
is absent from this snapshot): the first unnamed stream of the given
type, if any. -/
def inode_get_unnamed_stream (inode : WimInode) (t : StreamType) : Option WimStream :=
  inode.i_streams.find? (fun s => ¬ stream_is_named s ∧ s.stream_type = t)

/-- `write_dentry` from dentry.c: produce the on-disk record and the
list of extra stream entries that follow it, in emission order. -/
def write_dentry (dentry : WimDentry) : DiskDentry × List DiskStreamEntry :=
  let inode := dentry.d_inode
  let fn_nbytes := utf16le_len_bytes dentry.file_name
  let sn_nbytes := utf16le_len_bytes dentry.short_name
  -- Pointer arithmetic: fixed record, names with their null
  -- terminators, alignment, tagged items, alignment.
  let p₁ := WIM_DENTRY_DISK_SIZE + (if fn_nbytes ≠ 0 then fn_nbytes + 2 else 0)
    + (if sn_nbytes ≠ 0 then sn_nbytes + 2 else 0)
  let p₂ := Wimlib.align8 p₁
  let p₃ := if inode.i_extra.length ≠ 0 then Wimlib.align8 (p₂ + inode.i_extra.length)
    else p₂
  let union := if hasAttr inode.i_attributes FILE_ATTRIBUTE_REPARSE_POINT then
      DiskUnion.reparse inode.i_rp_unknown_1 inode.i_reparse_tag
        inode.i_rp_unknown_2 inode.i_not_rpfixed
    else
      DiskUnion.nonreparse inode.i_rp_unknown_1
        (if inode.i_nlink = 1 then 0 else inode.i_ino)
  let base : DiskDentry :=
    { length := p₃, attributes := inode.i_attributes,
      security_id := inode.i_security_id,
      subdir_offset := dentry.subdir_offset,
      creation_time := inode.i_creation_time,
      last_access_time := inode.i_last_access_time,
      last_write_time := inode.i_last_write_time,
      default_hash := zero_hash, union := union, num_extra_streams := 0,
      short_name_nbytes := sn_nbytes, file_name_nbytes := fn_nbytes,
      file_name := dentry.file_name, short_name := dentry.short_name,
      extra := inode.i_extra }
  if hasAttr inode.i_attributes FILE_ATTRIBUTE_ENCRYPTED then
    let efs_hash := match inode_get_unnamed_stream inode StreamType.EFSRPC_RAW_DATA with
      | some s => s.stream_hash
      | none => zero_hash
    ({ base with default_hash := efs_hash, num_extra_streams := 0 }, [])
  else
    -- The loop keeps the hash of the last unnamed DATA stream and of
    -- the last REPARSE_POINT stream, and the two `have_*` flags.
    let have_named := inode.i_streams.any stream_is_named_data_stream
    let have_rp := inode.i_streams.any (fun s => s.stream_type = StreamType.REPARSE_POINT)
    let unnamed_data_stream_hash :=
      match (inode.i_streams.filter
          (fun s => s.stream_type = StreamType.DATA ∧ ¬ stream_is_named s)).getLast? with
      | some s => s.stream_hash
      | none => zero_hash
    let reparse_point_hash :=
      match (inode.i_streams.filter
          (fun s => s.stream_type = StreamType.REPARSE_POINT)).getLast? with
      | some s => s.stream_hash
      | none => zero_hash
    if have_rp ∨ have_named then
      let entries :=
        (if have_rp then [write_extra_stream_entry [] reparse_point_hash] else [])
        ++ [write_extra_stream_entry [] unnamed_data_stream_hash]
        ++ (inode.i_streams.filter stream_is_named_data_stream).map
            (fun s => write_extra_stream_entry s.stream_name s.stream_hash)
      ({ base with default_hash := zero_hash, num_extra_streams := entries.length },
        entries)
    else
      ({ base with default_hash := unnamed_data_stream_hash, num_extra_streams := 0 },
        [])

/-- Total number of bytes `write_dentry` advances the output pointer:
the record part (whose size is the record's length field) plus every
emitted extra stream entry. -/
def write_dentry_out_bytes (dentry : WimDentry) : Nat :=
  (write_dentry dentry).1.length
    + ((write_dentry dentry).2.map (fun e => e.length)).sum

/-- Modelled from the spec: `dentry_is_directory` (wimlib/dentry.h is
absent from this snapshot).  Per the `get_dentry` documentation in
dentry.c, a reparse point is not considered a directory even when
`FILE_ATTRIBUTE_DIRECTORY` is set. -/
def dentry_is_directory (d : WimDentry) : Bool :=
  hasAttr d.d_inode.i_attributes FILE_ATTRIBUTE_DIRECTORY ∧
    ¬ hasAttr d.d_inode.i_attributes FILE_ATTRIBUTE_REPARSE_POINT

/-- An in-memory dentry tree: a dentry together with its children in
case-sensitive name order (the order `for_dentry_child` iterates in). -/
inductive DTree where
  | node (dentry : WimDentry) (children : List DTree)
deriving Repr

/-- The dentry at the root of a subtree. -/
def DTree.dentry : DTree → WimDentry
  | .node d _ => d

/-- The children of a subtree's root. -/
def DTree.children : DTree → List DTree
  | .node _ c => c

mutual

/-- `dentry_calculate_subdir_offset` composed over the pre-order walk of
`calculate_subdir_offsets` (dentry.c): for a directory, record the
running offset as its `subdir_offset`, advance the offset by
`dentry_out_total_length` of every child plus 8 bytes for the
end-of-directory entry, and recurse into the children; for a
non-directory, set `subdir_offset` to 0. -/
def calcSubdirOffsets : DTree → Nat → DTree × Nat
  | .node d ch, cur =>
    if dentry_is_directory d then
      let d' := { d with subdir_offset := cur }
      let cur₁ := ch.foldl (fun o c => o + dentry_out_total_length c.dentry) cur + 8
      let r := calcSubdirOffsetsList ch cur₁
      (.node d' r.1, r.2)
    else
      (.node { d with subdir_offset := 0 } ch, cur)

/-- Walk a child list in order, threading the running offset. -/
def calcSubdirOffsetsList : List DTree → Nat → List DTree × Nat
  | [], cur => ([], cur)
  | t :: ts, cur =>
    let r := calcSubdirOffsets t cur
    let rs := calcSubdirOffsetsList ts r.2
    (r.1 :: rs.1, rs.2)

end

/-- `WIM_PATH_SEPARATOR` (wimlib/paths.h is absent from this snapshot;
the value is the forward slash on non-Windows builds).  Only its
identity matters for the lookup logic. -/
def WIM_PATH_SEPARATOR : Nat := 47

/-- Case-insensitive equality of UTF-16LE strings:
`cmp_utf16le_strings(…, ignore_case=true) == 0`, which compares the
strings after mapping every code unit through the `upcase` table.  The
table lives in the absent encoding module, so it is a parameter
`upc`. -/
def ciEq (upc : Nat → Nat) (a b : List Nat) : Bool :=
  a.map upc = b.map upc

/-- `get_dentry_child_with_utf16le_name` from dentry.c.  The
case-sensitive branch looks the name up in the case-sensitive index;
the case-insensitive branch finds the case-insensitive matches and, if
several collide, prefers the exact case-sensitive match and otherwise
returns the index's representative (an arbitrary member of the
collision class; here the first in child order). -/
def get_dentry_child_with_utf16le_name (upc : Nat → Nat) (ignore_case : Bool)
    (parent : DTree) (name : List Nat) : Option DTree :=
  if ¬ ignore_case then
    parent.children.find? (fun c => c.dentry.file_name = name)
  else
    match parent.children.filter (fun c => ciEq upc c.dentry.file_name name) with
    | [] => none
    | [c] => some c
    | c :: cs =>
      match (c :: cs).find? (fun c' => c'.dentry.file_name = name) with
      | some c' => some c'
      | none => some c

/-- Result of a path lookup: the found dentry, or one of the two
`errno` sentinels `get_dentry_utf16le` sets. -/
inductive LookupResult where
  | found (d : DTree)
  | enoent
  | enotdir
deriving Repr

/-- The loop of `get_dentry_utf16le` from dentry.c, with `cur_dentry`
known to be non-null: fail with ENOTDIR when path text remains but the
current dentry is not a directory; skip separators; return the current
dentry when the path is exhausted; otherwise split off the next
component, look it up (ENOENT when absent) and continue. -/
theorem dropWhile_length_le {α} (p : α → Bool) : ∀ l : List α,
    (l.dropWhile p).length ≤ l.length
  | [] => by simp
  | a :: as => by
    by_cases h : p a
    · simpa [List.dropWhile_cons, h] using Nat.le_succ_of_le (dropWhile_length_le p as)
    · simp [List.dropWhile_cons, h]

theorem dropWhile_head_false {α} (p : α → Bool) : ∀ (l : List α) (a : α) (as : List α),
    l.dropWhile p = a :: as → p a = false
  | [], a, as => by simp
  | b :: bs, a, as => by
    intro h
    by_cases hb : p b
    · rw [List.dropWhile_cons_of_pos hb] at h
      exact dropWhile_head_false p bs a as h
    · rw [List.dropWhile_cons_of_neg hb] at h
      cases h
      simpa using hb

/-- One splitting step of the path loop strictly shortens the path. -/
theorem pathStep_lt (path : List Nat)
    (h : path.dropWhile (· = WIM_PATH_SEPARATOR) ≠ []) :
    ((path.dropWhile (· = WIM_PATH_SEPARATOR)).dropWhile
        (· ≠ WIM_PATH_SEPARATOR)).length < path.length := by
  cases hd : path.dropWhile (· = WIM_PATH_SEPARATOR) with
  | nil => exact absurd hd h
  | cons a as =>
    have h₃ := dropWhile_length_le (· = WIM_PATH_SEPARATOR) path
    have ha := dropWhile_head_false _ path a as hd
    have ha' : decide (a ≠ WIM_PATH_SEPARATOR) = true := by
      simp [ha]
    have hlen := dropWhile_length_le (fun x => decide (x ≠ WIM_PATH_SEPARATOR)) as
    rw [List.dropWhile_cons]
    simp only [ha', if_true]
    rw [hd] at h₃
    simp only [List.length_cons] at h₃
    omega

def getDentryGo (upc : Nat → Nat) (ignore_case : Bool) (cur : DTree)
    (path : List Nat) : LookupResult :=
  if path ≠ [] ∧ ¬ dentry_is_directory cur.dentry then .enotdir
  else
    let rest := path.dropWhile (· = WIM_PATH_SEPARATOR)
    if h : rest = [] then .found cur
    else
      let comp := rest.takeWhile (· ≠ WIM_PATH_SEPARATOR)
      let rest' := rest.dropWhile (· ≠ WIM_PATH_SEPARATOR)
      match get_dentry_child_with_utf16le_name upc ignore_case cur comp with
      | none => .enoent
      | some child => getDentryGo upc ignore_case child rest'
termination_by path.length
decreasing_by
  exact pathStep_lt path h

/-- `get_dentry_utf16le` from dentry.c: the root may be missing (an
image created empty has no root dentry), which yields ENOENT. -/
def get_dentry_utf16le (upc : Nat → Nat) (ignore_case : Bool)
    (root : Option DTree) (path : List Nat) : LookupResult :=
  match root with
  | none => .enoent
  | some r => getDentryGo upc ignore_case r path

/-- The component list of a path, as consumed by the lookup loop:
maximal runs of non-separator code units. -/
def pathComps (path : List Nat) : List (List Nat) :=
  let rest := path.dropWhile (· = WIM_PATH_SEPARATOR)
  if h : rest = [] then []
  else rest.takeWhile (· ≠ WIM_PATH_SEPARATOR)
    :: pathComps (rest.dropWhile (· ≠ WIM_PATH_SEPARATOR))
termination_by path.length
decreasing_by
  exact pathStep_lt path h

/-- Whether the path ends in one or more trailing separators (after a
final component or as an all-separator path). -/
def endsSep (path : List Nat) : Bool :=
  path.getLast? = some WIM_PATH_SEPARATOR

/-- Resolve a component chain by successive child lookups, ignoring
directory-ness (used to state which dentry a component "resolves
to"). -/
def chainResolve (upc : Nat → Nat) (ignore_case : Bool) :
    DTree → List (List Nat) → Option DTree
  | d, [] => some d
  | d, c :: cs =>
    match get_dentry_child_with_utf16le_name upc ignore_case d c with
    | none => none
    | some child => chainResolve upc ignore_case child cs

/-- The not-a-directory condition of the claim: some prefix of the
component chain resolves to a non-directory dentry that still has path
text after it (a further component, or trailing separators). -/
def specNotDir (upc : Nat → Nat) (ignore_case : Bool) (root : DTree)
    (path : List Nat) : Bool :=
  let comps := pathComps path
  (List.range (comps.length + 1)).any (fun i =>
    match chainResolve upc ignore_case root (comps.take i) with
    | some d => ¬ dentry_is_directory d.dentry ∧ (i < comps.length ∨ endsSep path)
    | none => false)

/-- Read `n` bytes little-endian from `buf` starting at `off` (bytes
past the end read as 0; all accesses in the parser are bounds-checked
before reading). -/
def leN : Nat → List Nat → Nat → Nat
  | 0, _, _ => 0
  | n + 1, buf, off => buf.getD off 0 + 256 * leN n buf (off + 1)

/-- Interpret a 32-bit value as the signed `sle32` of the on-disk
security id. -/
def s32 (v : Nat) : Int :=
  if v < 2147483648 then (v : Int) else (v : Int) - 4294967296

/-- Read `count` UTF-16LE code units starting at byte offset `off`. -/
def readUnits (buf : List Nat) (off count : Nat) : List Nat :=
  (List.range count).map (fun k => leN 2 buf (off + 2 * k))

/-- Read `count` raw bytes starting at `off`. -/
def readBytes (buf : List Nat) (off count : Nat) : List Nat :=
  (List.range count).map (fun k => buf.getD (off + k) 0)

/-- Errors of the metadata-resource parser.
`WIMLIB_ERR_INVALID_METADATA_RESOURCE` is `invalidMetadata`;
`outOfFuel` is an embedding device marking recursion-depth exhaustion,
which the fueled parser reports instead of recursing further (the C
code has no such result; the concrete runs below never produce it). -/
inductive ReadErr where
  | invalidMetadata
  | outOfFuel
deriving Repr, DecidableEq

/-- The extra-stream-entry loop of `setup_inode_streams` from dentry.c:
read `n` on-disk extra stream entries starting at byte offset `p`,
returning the streams (untyped) and the offset just past the last
entry. -/
def readExtraStreams (buf : List Nat) : Nat → Nat → Except ReadErr (List WimStream × Nat)
  | 0, p => .ok ([], p)
  | n + 1, p =>
    if buf.length - p < EXTRA_STREAM_ENTRY_DISK_SIZE then .error .invalidMetadata
    else
      let length := Wimlib.align8 (leN 8 buf p)
      if length < EXTRA_STREAM_ENTRY_DISK_SIZE ∨ length > buf.length - p then
        .error .invalidMetadata
      else
        let hash := readBytes buf (p + 16) 20
        let name_nbytes := leN 2 buf (p + 36)
        if name_nbytes ≠ 0 then
          if name_nbytes % 2 = 1 then .error .invalidMetadata
          else if EXTRA_STREAM_ENTRY_DISK_SIZE + name_nbytes > length then
            .error .invalidMetadata
          else
            match readExtraStreams buf n (p + length) with
            | .error e => .error e
            | .ok r =>
              .ok (⟨readUnits buf (p + EXTRA_STREAM_ENTRY_DISK_SIZE) (name_nbytes / 2),
                    hash, StreamType.UNKNOWN⟩ :: r.1, r.2)
        else
          match readExtraStreams buf n (p + length) with
          | .error e => .error e
          | .ok r => .ok (⟨[], hash, StreamType.UNKNOWN⟩ :: r.1, r.2)

/-- `setup_inode_streams` from dentry.c: stream 0 carries the record's
default hash under the empty-name sentinel, streams 1..n come from the
extra stream entries; then the types are assigned by the encrypted or
unencrypted heuristic. -/
def setup_inode_streams (buf : List Nat) (p : Nat) (num_extra_streams : Nat)
    (default_hash : List Nat) (attributes : Nat) :
    Except ReadErr (List WimStream × Nat) :=
  match readExtraStreams buf num_extra_streams p with
  | .error e => .error e
  | .ok r =>
    let streams : List WimStream := ⟨[], default_hash, StreamType.UNKNOWN⟩ :: r.1
    let typed := if hasAttr attributes FILE_ATTRIBUTE_ENCRYPTED then
        assign_stream_types_encrypted streams
      else
        assign_stream_types_unencrypted
          (hasAttr attributes FILE_ATTRIBUTE_REPARSE_POINT) streams
    .ok (typed, r.2)

/-- `read_dentry` from dentry.c: read one dentry record (and its extra
stream entries) at `offset`.  Returns `none` for an end-of-directory
entry, otherwise the parsed dentry and the offset of the next record. -/
def read_dentry (buf : List Nat) (offset : Nat) :
    Except ReadErr (Option (WimDentry × Nat)) :=
  if offset + 8 > buf.length then .error .invalidMetadata
  else
    let length := Wimlib.align8 (leN 8 buf offset)
    if length ≤ 8 then .ok none
    else if length < WIM_DENTRY_DISK_SIZE then .error .invalidMetadata
    else if offset + length > buf.length then .error .invalidMetadata
    else
      let attributes := leN 4 buf (offset + 8)
      let security_id := s32 (leN 4 buf (offset + 12))
      let subdir_offset := leN 8 buf (offset + 16)
      let creation_time := leN 8 buf (offset + 40)
      let last_access_time := leN 8 buf (offset + 48)
      let last_write_time := leN 8 buf (offset + 56)
      let default_hash := readBytes buf (offset + 64) 20
      let isRP := hasAttr attributes FILE_ATTRIBUTE_REPARSE_POINT
      let rp_unknown_1 := leN 4 buf (offset + 84)
      let reparse_tag := if isRP then leN 4 buf (offset + 88) else 0
      let rp_unknown_2 := if isRP then leN 2 buf (offset + 92) else 0
      let not_rpfixed := if isRP then leN 2 buf (offset + 94) else 0
      let i_ino := if isRP then 0 else leN 8 buf (offset + 88)
      let num_extra_streams := leN 2 buf (offset + 96)
      let short_name_nbytes := leN 2 buf (offset + 98)
      let file_name_nbytes := leN 2 buf (offset + 100)
      if short_name_nbytes % 2 = 1 ∨ file_name_nbytes % 2 = 1 then
        .error .invalidMetadata
      else
        let calculated_size := dentry_min_len_with_names file_name_nbytes
          short_name_nbytes
        if length < calculated_size then .error .invalidMetadata
        else
          let file_name := readUnits buf (offset + WIM_DENTRY_DISK_SIZE)
            (file_name_nbytes / 2)
          let short_off := offset + WIM_DENTRY_DISK_SIZE
            + (if file_name_nbytes ≠ 0 then file_name_nbytes + 2 else 0)
          let short_name := readUnits buf short_off (short_name_nbytes / 2)
          -- read_extra_data: the 8-aligned tail of the record, if any.
          let extra_start := Wimlib.align8 (offset + calculated_size)
          let i_extra := if extra_start < offset + length then
              readBytes buf extra_start (offset + length - extra_start)
            else []
          match setup_inode_streams buf (offset + length) num_extra_streams
              default_hash attributes with
          | .error e => .error e
          | .ok r =>
            .ok (some
              ({ file_name := file_name, short_name := short_name,
                 subdir_offset := subdir_offset,
                 d_inode :=
                  { i_attributes := attributes, i_security_id := security_id,
                    i_creation_time := creation_time,
                    i_last_access_time := last_access_time,
                    i_last_write_time := last_write_time,
                    i_rp_unknown_1 := rp_unknown_1,
                    i_reparse_tag := reparse_tag,
                    i_rp_unknown_2 := rp_unknown_2,
                    i_not_rpfixed := not_rpfixed,
                    i_nlink := 1, i_ino := i_ino, i_extra := i_extra,
                    i_streams := r.1 } }, r.2))

/-- `dentry_is_dot_or_dotdot` from dentry.c ('.' is code unit 46). -/
def dentry_is_dot_or_dotdot (d : WimDentry) : Bool :=
  d.file_name = [46] ∨ d.file_name = [46, 46]

mutual

/-- `read_dentry_tree_recursive` from dentry.c.  `dirSubdir` is the
current directory's `subdir_offset` (where its children start);
`chain` holds the `subdir_offset` of every strict ancestor of that
directory, excluding the root, which is exactly the set the C code's
walk `for (d = dir->d_parent; !dentry_is_root(d); d = d->d_parent)`
compares against; `isRoot` records whether the current directory is
the root.  The cycle check aborts with the invalid-metadata error when
the current offset occurs in the chain. -/
def read_dentry_tree_recursive (buf : List Nat) :
    Nat → Nat → List Nat → Bool → Except ReadErr (List DTree)
  | 0, _, _, _ => .error .outOfFuel
  | fuel + 1, dirSubdir, chain, isRoot =>
    if chain.contains dirSubdir then .error .invalidMetadata
    else readSiblings buf fuel dirSubdir dirSubdir chain isRoot []

/-- The sibling loop of `read_dentry_tree_recursive`: read children at
`cur_offset` until an end-of-directory entry, skipping unnamed
dentries, "." and ".." names, and case-sensitive duplicates, and
recursing into child directories with a nonzero `subdir_offset`. -/
def readSiblings (buf : List Nat) :
    Nat → Nat → Nat → List Nat → Bool → List DTree → Except ReadErr (List DTree)
  | 0, _, _, _, _, _ => .error .outOfFuel
  | fuel + 1, cur_offset, dirSubdir, chain, isRoot, acc =>
    match read_dentry buf cur_offset with
    | .error e => .error e
    | .ok none => .ok acc.reverse
    | .ok (some (child, next_offset)) =>
      if child.file_name = [] then
        -- WARNING: ignoring unnamed dentry
        readSiblings buf fuel next_offset dirSubdir chain isRoot acc
      else if dentry_is_dot_or_dotdot child then
        -- WARNING: ignoring file named "." or ".."
        readSiblings buf fuel next_offset dirSubdir chain isRoot acc
      else if acc.any (fun t => t.dentry.file_name = child.file_name) then
        -- WARNING: ignoring duplicate file (same case-sensitive name)
        readSiblings buf fuel next_offset dirSubdir chain isRoot acc
      else if child.subdir_offset ≠ 0 then
        if dentry_is_directory child then
          match read_dentry_tree_recursive buf fuel child.subdir_offset
              (if isRoot then chain else dirSubdir :: chain) false with
          | .error e => .error e
          | .ok kids =>
            readSiblings buf fuel next_offset dirSubdir chain isRoot
              (.node child kids :: acc)
        else
          -- WARNING: ignoring children of non-directory
          readSiblings buf fuel next_offset dirSubdir chain isRoot
            (.node child [] :: acc)
      else
        readSiblings buf fuel next_offset dirSubdir chain isRoot
          (.node child [] :: acc)

end

/-- `read_dentry_tree` from dentry.c: read the root dentry, strip any
name it carries, require it to be a directory, and read its children
when it has any. -/
def read_dentry_tree (buf : List Nat) (root_offset fuel : Nat) :
    Except ReadErr (Option DTree) :=
  match read_dentry buf root_offset with
  | .error e => .error e
  | .ok none => .ok none
  | .ok (some (root, _)) =>
    let root := if root.file_name ≠ [] ∨ root.short_name ≠ [] then
        { root with file_name := [], short_name := [] }
      else root
    if ¬ dentry_is_directory root then .error .invalidMetadata
    else if root.subdir_offset ≠ 0 then
      match read_dentry_tree_recursive buf fuel root.subdir_offset [] true with
      | .error e => .error e
      | .ok kids => .ok (some (.node root kids))
    else .ok (some (.node root []))

/-- Little-endian byte encodings used to build concrete test buffers. -/
def u16bytes (n : Nat) : List Nat := [n % 256, n / 256 % 256]

/-- 32-bit little-endian bytes. -/
def u32bytes (n : Nat) : List Nat :=
  [n % 256, n / 256 % 256, n / 65536 % 256, n / 16777216 % 256]

/-- 64-bit little-endian bytes (values below `2^32` here). -/
def u64bytes (n : Nat) : List Nat := u32bytes n ++ [0, 0, 0, 0]

/-- A concrete metadata resource with a directory cycle: the root
record at offset 0 has `subdir_offset = 104`; the single child record
at offset 104 is a directory named "a" whose `subdir_offset` is again
104, so the child's children coincide with the root's children. -/
def cyclicBuf : List Nat :=
  -- root record: length 104, attributes DIRECTORY, security -1,
  -- subdir_offset 104, no names, no extra streams, 2 bytes padding
  (u64bytes 104 ++ u32bytes 16 ++ u32bytes 4294967295 ++ u64bytes 104
    ++ List.replicate 16 0 ++ List.replicate 24 0 ++ List.replicate 20 0
    ++ List.replicate 12 0 ++ u16bytes 0 ++ u16bytes 0 ++ u16bytes 0
    ++ [0, 0])
  -- child record at 104: length 112, directory, subdir_offset 104,
  -- long name "a" (2 bytes + null terminator), 6 bytes padding
  ++ (u64bytes 112 ++ u32bytes 16 ++ u32bytes 4294967295 ++ u64bytes 104
    ++ List.replicate 16 0 ++ List.replicate 24 0 ++ List.replicate 20 0
    ++ List.replicate 12 0 ++ u16bytes 0 ++ u16bytes 0 ++ u16bytes 2
    ++ u16bytes 97 ++ u16bytes 0 ++ List.replicate 6 0)
  -- end-of-directory entry at 216
  ++ List.replicate 8 0

end Dentry

namespace XmlWindows

/-! Embedding of the systemroot-selection part of `xml_windows.c`.
The XML document, blob reads, and registry parsing are external
collaborators; the claim concerns only which directory
`set_windows_specific_info` selects. -/

open Dentry

/-- The UTF-16LE constant `windows_name`. -/
def windows_name : List Nat := "Windows".toList.map Char.toNat

/-- The UTF-16LE constant `system32_name`. -/
def system32_name : List Nat := "System32".toList.map Char.toNat

/-- The UTF-16LE constant `kernel32_name`. -/
def kernel32_name : List Nat := "kernel32.dll".toList.map Char.toNat

/-- The UTF-16LE constant `config_name`. -/
def config_name : List Nat := "config".toList.map Char.toNat

/-- The UTF-16LE constant `software_name`. -/
def software_name : List Nat := "SOFTWARE".toList.map Char.toNat

/-- The UTF-16LE constant `system_name`. -/
def system_name : List Nat := "SYSTEM".toList.map Char.toNat

/-- The `GET_CHILD` macro: a case-insensitive child lookup. -/
def getChild (upc : Nat → Nat) (parent : DTree) (name : List Nat) : Option DTree :=
  get_dentry_child_with_utf16le_name upc true parent name

/-- `is_default_systemroot` from xml_windows.c: the directory's name is
case-insensitively equal to "Windows". -/
def is_default_systemroot (upc : Nat → Nat) (d : DTree) : Bool :=
  ciEq upc d.dentry.file_name windows_name

/-- One iteration of the candidate loop of `set_windows_specific_info`:
given the running `(best_score, best_systemroot)` and the next
top-level child, return the updated pair.  Non-directories and
directories without a `System32` child are skipped (`continue`). -/
def swsiStep (upc : Nat → Nat) (best : Nat × Option DTree) (c : DTree) :
    Nat × Option DTree :=
  if ¬ dentry_is_directory c.dentry then best
  else
    match getChild upc c system32_name with
    | none => best
    | some system32 =>
      let kernel32 := getChild upc system32 kernel32_name
      let config := getChild upc system32 config_name
      let software := config.bind (fun cf => getChild upc cf software_name)
      let system := config.bind (fun cf => getChild upc cf system_name)
      let score := (if kernel32.isSome then 1 else 0)
        + (if software.isSome then 1 else 0) + (if system.isSome then 1 else 0)
      if score ≥ best.1 ∧ (score > best.1 ∨ is_default_systemroot upc c) then
        (score, some c)
      else best

/-- The systemroot selection of `set_windows_specific_info` from
xml_windows.c: fold the candidate loop over the root's children; when
the best score is 0 the function returns success without touching the
XML document (modelled as `none`), otherwise the chosen directory is
handed to `do_set_windows_specific_info`. -/
def set_windows_specific_info (upc : Nat → Nat) (root : DTree) : Option DTree :=
  let best := root.children.foldl (swsiStep upc) (0, none)
  if best.1 = 0 then none else best.2

/-- The score of one top-level directory as the claim describes it: the
number of the children `System32/kernel32.dll`, `System32/config/SOFTWARE`
and `System32/config/SYSTEM` that exist (by case-insensitive lookup). -/
def systemrootScore (upc : Nat → Nat) (c : DTree) : Nat :=
  match getChild upc c system32_name with
  | none => 0
  | some system32 =>
    (if (getChild upc system32 kernel32_name).isSome then 1 else 0)
    + (if ((getChild upc system32 config_name).bind
        (fun cf => getChild upc cf software_name)).isSome then 1 else 0)
    + (if ((getChild upc system32 config_name).bind
        (fun cf => getChild upc cf system_name)).isSome then 1 else 0)

/-- The best score over the top-level subdirectories. -/
def maxScore (upc : Nat → Nat) (root : DTree) : Nat :=
  root.children.foldl
    (fun m c => if dentry_is_directory c.dentry then max m (systemrootScore upc c) else m) 0

/-- The fold step that `maxScore` uses. -/
def mstep (upc : Nat → Nat) (m : Nat) (c : DTree) : Nat :=
  if dentry_is_directory c.dentry then max m (systemrootScore upc c) else m

/-- A plain directory dentry with the given long name, for concrete
test trees. -/
def mkDirDentry (name : List Nat) : WimDentry :=
  ⟨name, [], 0, ⟨16, -1, 0, 0, 0, 0, 0, 0, 0, 1, 0, [], []⟩⟩

/-- A plain file dentry with the given long name. -/
def mkFileDentry (name : List Nat) : WimDentry :=
  ⟨name, [], 0, ⟨0, -1, 0, 0, 0, 0, 0, 0, 0, 1, 0, [], []⟩⟩

/-- Concrete image root used as a witness: a toplevel directory named
"Windows" containing "System32" containing "kernel32.dll". -/
def c9Windows : DTree :=
  .node (mkDirDentry windows_name)
    [.node (mkDirDentry system32_name) [.node (mkFileDentry kernel32_name) []]]

/-- See `c9Windows`. -/
def c9Root : DTree := .node (mkDirDentry []) [c9Windows]

end XmlWindows

namespace DecompressCommon

/-! Embedding of `make_huffman_decode_table` from decompress_common.c.
The number of symbols is `lens.length`; `lens.getD s 0` is symbol `s`'s
codeword length. -/

/-- One 16-bit decode-table entry.  `MAKE_DECODE_TABLE_ENTRY` packs a
(symbol, length) pair — or, for a pointer from the root table into a
subtable, a (subtable start index, subtable bits) pair — into a `u16`;
the bit layout lives in the absent `decompress_common.h` and the spec
declares it an implementation choice read back by a dedicated helper,
so the entry is modelled as the pair itself. -/
structure DecodeEntry where
  sym : Nat
  len : Nat
deriving Repr, DecidableEq

/-- `len_counts[len]`: how many symbols have the given codeword
length (length 0 = unassigned is counted too, as in the C code). -/
def len_counts (lens : List Nat) (l : Nat) : Nat :=
  ((List.range lens.length).filter (fun s => lens.getD s 0 = l)).length

/-- The running remainder of the codespace-validation loop after
processing lengths `1 .. l`:
`remainder := 1; for len in 1..l: remainder := 2*remainder - len_counts[len]`. -/
def remAt (lens : List Nat) : Nat → Int
  | 0 => 1
  | l + 1 => 2 * remAt lens l - len_counts lens (l + 1)

/-- The validation loop succeeds iff no intermediate remainder is
negative (checked after each subtraction). -/
def remNonneg (lens : List Nat) (max_codeword_len : Nat) : Bool :=
  (List.range max_codeword_len).all (fun k => 0 ≤ remAt lens (k + 1))

/-- The symbols of codeword length `l`, in increasing symbol order. -/
def lenGroup (lens : List Nat) (l : Nat) : List Nat :=
  (List.range lens.length).filter (fun s => lens.getD s 0 = l)

/-- The sorted symbol array `sorted_syms` (skipping the zero-length
symbols, which `sym_idx = offsets[0]` steps over): symbols of length
1, then of length 2, …, up to `max_codeword_len`, each group in
increasing symbol order.  This is what the counting sort in the C code
produces, per its own comment ("sort the symbols primarily by
increasing codeword length and secondarily by increasing symbol
value"). -/
def sortedSyms (lens : List Nat) (max_codeword_len : Nat) : List Nat :=
  (List.range' 1 max_codeword_len).flatMap (lenGroup lens)

/-- The root-table fill: for each codeword length `l` from 1 to
`table_bits` and each symbol of that length in sorted order, write
`2^(table_bits - l)` consecutive copies of its entry.  The SSE2, word,
and 16-bit store loops of the C code all realize this same sequence of
entries (the spec notes the wide stores are not observable). -/
def rootFill (lens : List Nat) (table_bits : Nat) : List DecodeEntry :=
  (List.range' 1 table_bits).flatMap (fun l =>
    (lenGroup lens l).flatMap (fun s =>
      List.replicate (2 ^ (table_bits - l)) ⟨s, l⟩))

/-- The symbols left after the root fill: those of length
`table_bits + 1 .. max_codeword_len`, in sorted order. -/
def restSyms (lens : List Nat) (table_bits max_codeword_len : Nat) : List Nat :=
  (List.range' (table_bits + 1) (max_codeword_len - table_bits)).flatMap (lenGroup lens)

/-- The inner loop `while (len_counts[codeword_len] == 0) codeword_len++`
bounded by `hi` (the length array's extent, which the C loop does not
check; for every input that passes validation the loop provably stays
within it): the first `l` in `[lo, hi]` with a nonzero count. -/
def findFirstLen (counts : Nat → Nat) (lo hi : Nat) : Option Nat :=
  if h : lo > hi then none
  else if counts lo ≠ 0 then some lo
  else findFirstLen counts (lo + 1) hi
termination_by hi + 1 - lo
decreasing_by omega

/-- The subtable-sizing loop: starting from `subtable_bits = sb` and the
signed remainder `rem`, repeatedly subtract `len_counts[table_bits +
subtable_bits]`, stopping when the remainder drops to 0 or below;
otherwise increment `subtable_bits` and double the remainder.  Bounded
by `max_codeword_len` (again unchecked in C and provably in bounds for
complete codes). -/
def sizeLoop (counts : Nat → Nat) (table_bits max_codeword_len sb : Nat)
    (rem : Int) : Option Nat :=
  let rem' := rem - counts (table_bits + sb)
  if rem' ≤ 0 then some sb
  else if h : table_bits + sb ≥ max_codeword_len then none
  else sizeLoop counts table_bits max_codeword_len (sb + 1) (2 * rem')
termination_by max_codeword_len - (table_bits + sb)
decreasing_by omega

/-- State of the subtable loop of `make_huffman_decode_table`:
`cl` is `codeword_len`, `c` the running codeword, `counts` the
remaining `len_counts`, `spfx` the current `subtable_prefix` (`none`
models the initial `(unsigned)-1`), `sb` the current `subtable_bits`,
`root` the `2^table_bits` root entries, and `subs` the subtable
entries written past the root region (so `subtable_pos` is
`2^table_bits + subs.length`). -/
structure STState where
  cl : Nat
  c : Nat
  counts : Nat → Nat
  spfx : Option Nat
  sb : Nat
  root : List DecodeEntry
  subs : List DecodeEntry

/-- The subtable loop, one remaining sorted symbol per step. -/
def stPhase (table_bits max_codeword_len : Nat) :
    List Nat → STState → Option (List DecodeEntry × List DecodeEntry)
  | [], st => some (st.root, st.subs)
  | s :: rest, st =>
    match findFirstLen st.counts st.cl max_codeword_len with
    | none => none
    | some cl' =>
      let c' := st.c <<< (cl' - st.cl)
      let pfx := c' >>> (cl' - table_bits)
      let counts' := fun l => if l = cl' then st.counts cl' - 1 else st.counts l
      if st.spfx ≠ some pfx then
        match sizeLoop st.counts table_bits max_codeword_len (cl' - table_bits)
            (2 ^ (cl' - table_bits)) with
        | none => none
        | some sb' =>
          let root' := st.root.set pfx ⟨2 ^ table_bits + st.subs.length, sb'⟩
          let fill := List.replicate (2 ^ (sb' - (cl' - table_bits)))
            (⟨s, cl' - table_bits⟩ : DecodeEntry)
          stPhase table_bits max_codeword_len rest
            { cl := cl'
              c := c' + 1
              counts := counts'
              spfx := some pfx
              sb := sb'
              root := root'
              subs := st.subs ++ fill }
      else
        let fill := List.replicate (2 ^ (st.sb - (cl' - table_bits)))
          (⟨s, cl' - table_bits⟩ : DecodeEntry)
        stPhase table_bits max_codeword_len rest
          { st with
              cl := cl'
              c := c' + 1
              counts := counts'
              subs := st.subs ++ fill }

/-- `make_huffman_decode_table` from decompress_common.c.  The result is
`ok` with the table (root region followed by the subtables), or
`invalidCode` where the C function returns -1, or `divergent` where a
C loop would run past the bounds of `len_counts` (possible only for
executions C never completes normally; proved unreachable for
validated inputs below). -/
inductive HuffErr where
  | invalidCode
  | divergent
deriving Repr, DecidableEq

/-- See `HuffErr`.  `lens.length` plays the role of `num_syms`. -/
def make_huffman_decode_table (lens : List Nat)
    (table_bits max_codeword_len : Nat) : Except HuffErr (List DecodeEntry) :=
  if ¬ remNonneg lens max_codeword_len then .error .invalidCode
  else if remAt lens max_codeword_len ≠ 0 then
    if remAt lens max_codeword_len ≠ 2 ^ max_codeword_len then .error .invalidCode
    else
      -- Empty code: zero-fill the whole root table.
      .ok (List.replicate (2 ^ table_bits) ⟨0, 0⟩)
  else
    let root := rootFill lens table_bits
    let rest := restSyms lens table_bits max_codeword_len
    if rest = [] then .ok root
    else
      -- The entries of the root region beyond the filled prefix are
      -- uninitialized in C here; each is overwritten with a subtable
      -- pointer below, so the placeholder is never observable for a
      -- complete code.
      let rootPadded := root ++ List.replicate (2 ^ table_bits - root.length) ⟨0, 0⟩
      match stPhase table_bits max_codeword_len rest
          { cl := table_bits + 1, c := 2 * root.length,
            counts := len_counts lens, spfx := none, sb := table_bits,
            root := rootPadded, subs := [] } with
      | none => .error .divergent
      | some r => .ok (r.1 ++ r.2)

/-- The `next_codewords` recurrence of the spec (§4.A.1 step 5):
`next_codewords[1] = 0`,
`next_codewords[len] = (next_codewords[len-1] + len_counts[len-1]) << 1`. -/
def nextCW (lens : List Nat) : Nat → Nat
  | 0 => 0
  | 1 => 0
  | l + 1 => (nextCW lens l + len_counts lens l) * 2

/-- The canonical codeword of a used symbol `s`: the first codeword of
its length plus its rank among the same-length symbols. -/
def canonical_codeword (lens : List Nat) (s : Nat) : Nat :=
  nextCW lens (lens.getD s 0)
    + ((List.range s).filter (fun t => lens.getD t 0 = lens.getD s 0)).length

/-- Number of root-table entries written for codeword lengths up to
`l` (scaled by `2^(tb - l')` per codeword of length `l'`). -/
def wsum (lens : List Nat) (tb : Nat) : Nat → Nat
  | 0 => 0
  | l + 1 => wsum lens tb l + len_counts lens (l + 1) * 2 ^ (tb - (l + 1))

/-- The root fill restricted to codeword lengths `1 .. l`
(`rootFill lens tb = rootFillUpTo lens tb tb`). -/
def rootFillUpTo (lens : List Nat) (tb l : Nat) : List DecodeEntry :=
  (List.range' 1 l).flatMap (fun l' =>
    (lenGroup lens l').flatMap (fun s =>
      List.replicate (2 ^ (tb - l')) (⟨s, l'⟩ : DecodeEntry)))

/-- Codespace weight of the counts on lengths `lo .. max`:
`Σ counts l * 2 ^ (max - l)`. -/
def rsum (counts : Nat → Nat) (mx lo : Nat) : Nat :=
  ((List.range' lo (mx + 1 - lo)).map (fun l => counts l * 2 ^ (mx - l))).sum

end DecompressCommon

/-! ## Theorems -/

namespace Wimlib

theorem align8_le (n : Nat) : n ≤ align8 n := by
  unfold align8
  omega

theorem align8_mod (n : Nat) : align8 n % 8 = 0 := by
  unfold align8
  omega

theorem align8_eq_of_mod (n : Nat) (h : n % 8 = 0) : align8 n = n := by
  unfold align8
  omega

end Wimlib

namespace CompressCommon

/-- C7: In canonical Huffman code construction (`make_canonical_huffman_code`
with at least two used symbols, which runs `build_tree`), whenever the
selection step of `build_tree` chooses the next lowest-weight item and
both streams are nonempty — an unprocessed leaf at index `i` and an
already-produced internal node at index `b` — a leaf whose weight
equals the internal node's weight is picked before that internal node:
the chosen index is the leaf's. -/
theorem C7_build_tree_leaf_before_internal_on_tie (st : TreeState) (sym_count : Nat)
    (hleaf : st.i ≠ sym_count) (hint : st.b ≠ st.e)
    (htie : weight (st.A.getD st.i 0) = weight (st.A.getD st.b 0)) :
    (chooseNext st sym_count).1 = st.i ∧ (chooseNext st sym_count).2.i = st.i + 1 := by
  unfold chooseNext
  rw [if_pos ⟨hleaf, Or.inr (le_of_eq htie)⟩]
  exact ⟨rfl, rfl⟩

/-- Witness for C7 at a concrete state: array entries with equal weight
1 at the leaf index 0 and the internal index 1 (with `e = 2`, so an
internal node exists). -/
theorem C7_build_tree_leaf_before_internal_on_tie_witness :
    (chooseNext ⟨#[1024, 1024], 0, 1, 2⟩ 2).1 = 0 ∧
      (chooseNext ⟨#[1024, 1024], 0, 1, 2⟩ 2).2.i = 0 + 1 :=
  C7_build_tree_leaf_before_internal_on_tie ⟨#[1024, 1024], 0, 1, 2⟩ 2
    (by decide) (by decide) (by decide)

end CompressCommon

namespace Dentry

theorem foldl_stream_lengths (l : List WimStream) (a : Nat) :
    l.foldl (fun acc s => if stream_is_named_data_stream s then
        acc + stream_out_total_length s else acc) a
      = a + ((l.filter stream_is_named_data_stream).map stream_out_total_length).sum := by
  induction l generalizing a with
  | nil => simp
  | cons s t ih =>
    by_cases h : stream_is_named_data_stream s
    · simp only [List.foldl_cons, List.filter_cons, h, if_pos, List.map_cons,
        List.sum_cons, ih]
      omega
    · simp only [List.foldl_cons, List.filter_cons, h, List.map_cons, ih]
      simp [h]

theorem entry_length_eq_sotl (s : WimStream) (h : stream_is_named_data_stream s = true) :
    (write_extra_stream_entry s.stream_name s.stream_hash).length
      = stream_out_total_length s := by
  have hn : stream_is_named s = true := by
    simp only [stream_is_named_data_stream, Bool.and_eq_true, decide_eq_true_eq] at h
    simpa [stream_is_named] using h.1
  have hne : s.stream_name ≠ [] := by
    simpa [stream_is_named] using hn
  simp [write_extra_stream_entry, stream_out_total_length, utf16le_len_bytes, hn, hne]

theorem entries_named_sum (streams : List WimStream) :
    ((streams.filter stream_is_named_data_stream).map
      ((fun e => e.length) ∘ (fun s => write_extra_stream_entry s.stream_name s.stream_hash)))
    = (streams.filter stream_is_named_data_stream).map stream_out_total_length := by
  apply List.map_congr_left
  intro s hs
  simpa [Function.comp] using entry_length_eq_sotl s (List.of_mem_filter hs)

theorem wese_unnamed_length (h : List Nat) :
    (write_extra_stream_entry [] h).length = Wimlib.align8 EXTRA_STREAM_ENTRY_DISK_SIZE := by
  simp [write_extra_stream_entry, utf16le_len_bytes]

/-- C10: For every dentry, the bytes produced by `write_dentry` — the
fixed record, name fields, alignment padding, tagged extra data, and
all emitted extra stream entries — total exactly
`dentry_out_total_length`, the size `calculate_subdir_offsets` uses to
lay out the metadata resource, so emission never writes past the space
the layout pass reserved. -/
theorem C10_write_dentry_length_agrees (d : WimDentry) :
    write_dentry_out_bytes d = dentry_out_total_length d := by
  unfold write_dentry_out_bytes write_dentry dentry_out_total_length
  by_cases henc : hasAttr d.d_inode.i_attributes FILE_ATTRIBUTE_ENCRYPTED
  · simp [henc, dentry_min_len_with_names]
  · simp only [henc, Bool.false_eq_true, not_false_eq_true, if_true, if_false,
      Bool.not_eq_true]
    by_cases hcond : (d.d_inode.i_streams.any (fun s =>
          s.stream_type = StreamType.REPARSE_POINT) = true)
        ∨ (d.d_inode.i_streams.any stream_is_named_data_stream = true)
    · have hcond' : (d.d_inode.i_streams.any stream_is_named_data_stream = true)
          ∨ (d.d_inode.i_streams.any (fun s =>
            s.stream_type = StreamType.REPARSE_POINT) = true) := hcond.symm
      simp only [henc, hcond, hcond', if_pos, if_true]
      simp only [List.map_append, List.sum_append, foldl_stream_lengths, Nat.zero_add,
        List.map_map, entries_named_sum]
      rcases hrp : d.d_inode.i_streams.any (fun s =>
          s.stream_type = StreamType.REPARSE_POINT) with _ | _
      · have hnamed : d.d_inode.i_streams.any stream_is_named_data_stream = true := by
          rcases hcond with h | h
          · rw [hrp] at h
            exact absurd h (by simp)
          · exact h
        simp [hrp, hnamed, wese_unnamed_length, dentry_min_len_with_names]
        omega
      · simp [hrp, wese_unnamed_length, dentry_min_len_with_names]
        omega
    · push_neg at hcond
      simp only [Bool.not_eq_true] at hcond
      have hfilter : (d.d_inode.i_streams.filter stream_is_named_data_stream) = [] :=
        List.filter_eq_nil_iff.mpr (by
          intro s hs
          have := List.any_eq_false.mp (by simpa using hcond.2) s hs
          simpa using this)
      simp [hcond.1, hcond.2, foldl_stream_lengths, hfilter, dentry_min_len_with_names]
/-- C4: When `write_dentry` emits an unencrypted inode that has a
reparse-point stream or at least one named data stream, the record's
`default_hash` is all zeroes, `num_extra_streams` counts the emitted
entries, and the extra stream entries come in this order: the
reparse-point entry first (if a reparse-point stream exists), then the
unnamed data entry (even if its hash is all zeroes), then one entry per
named data stream in the inode's stream order.  When the inode has
neither, `default_hash` holds the unnamed data stream's hash and
`num_extra_streams` is 0 with no entries emitted. -/
theorem C4_write_dentry_stream_emission (d : WimDentry)
    (henc : hasAttr d.d_inode.i_attributes FILE_ATTRIBUTE_ENCRYPTED = false) :
    (((d.d_inode.i_streams.any (fun s => s.stream_type = StreamType.REPARSE_POINT)
        ∨ d.d_inode.i_streams.any stream_is_named_data_stream)) →
      (write_dentry d).1.default_hash = zero_hash
      ∧ (write_dentry d).1.num_extra_streams = (write_dentry d).2.length
      ∧ (write_dentry d).2 =
        (if d.d_inode.i_streams.any (fun s => s.stream_type = StreamType.REPARSE_POINT)
          then [write_extra_stream_entry []
            (match (d.d_inode.i_streams.filter (fun s =>
                s.stream_type = StreamType.REPARSE_POINT)).getLast? with
              | some s => s.stream_hash
              | none => zero_hash)]
          else [])
        ++ [write_extra_stream_entry []
            (match (d.d_inode.i_streams.filter (fun s =>
                s.stream_type = StreamType.DATA ∧ ¬ stream_is_named s)).getLast? with
              | some s => s.stream_hash
              | none => zero_hash)]
        ++ (d.d_inode.i_streams.filter stream_is_named_data_stream).map
            (fun s => write_extra_stream_entry s.stream_name s.stream_hash))
    ∧ (¬ (d.d_inode.i_streams.any (fun s => s.stream_type = StreamType.REPARSE_POINT)
        ∨ d.d_inode.i_streams.any stream_is_named_data_stream) →
      (write_dentry d).1.default_hash =
        (match (d.d_inode.i_streams.filter (fun s =>
            s.stream_type = StreamType.DATA ∧ ¬ stream_is_named s)).getLast? with
          | some s => s.stream_hash
          | none => zero_hash)
      ∧ (write_dentry d).1.num_extra_streams = 0
      ∧ (write_dentry d).2 = []) := by
  constructor
  · intro hcond
    unfold write_dentry
    simp only [henc, Bool.false_eq_true, if_false]
    have hcond' : (d.d_inode.i_streams.any (fun s =>
          s.stream_type = StreamType.REPARSE_POINT) = true)
        ∨ (d.d_inode.i_streams.any stream_is_named_data_stream = true) := by
      simpa using hcond
    rw [if_pos (by simpa using hcond)]
    refine ⟨rfl, rfl, rfl⟩
  · intro hcond
    unfold write_dentry
    simp only [henc, Bool.false_eq_true, if_false]
    push_neg at hcond
    rw [if_neg (by simp [hcond.1, hcond.2])]
    exact ⟨rfl, rfl, rfl⟩

/-- Witness for C4: a concrete unencrypted inode with one reparse-point
stream, one unnamed data stream with a zero hash, and one named data
stream; the emitted entries are the reparse entry, then the unnamed
data entry (hash all zeroes), then the named entry. -/
theorem C4_write_dentry_stream_emission_witness :
    (let rp : WimStream := ⟨[], List.replicate 20 7, StreamType.REPARSE_POINT⟩
     let ud : WimStream := ⟨[], List.replicate 20 0, StreamType.DATA⟩
     let nd : WimStream := ⟨[97], List.replicate 20 3, StreamType.DATA⟩
     let d : WimDentry := ⟨[98], [], 0,
        ⟨1024, -1, 0, 0, 0, 0, 0, 0, 0, 1, 0, [], [ud, rp, nd]⟩⟩
     (write_dentry d).1.default_hash = zero_hash
      ∧ (write_dentry d).1.num_extra_streams = (write_dentry d).2.length
      ∧ (write_dentry d).2 =
        [write_extra_stream_entry [] (List.replicate 20 7),
         write_extra_stream_entry [] (List.replicate 20 0),
         write_extra_stream_entry [97] (List.replicate 20 3)]) := by
  have h := (C4_write_dentry_stream_emission
    ⟨[98], [], 0, ⟨1024, -1, 0, 0, 0, 0, 0, 0, 0, 1, 0, [],
      [⟨[], List.replicate 20 0, StreamType.DATA⟩,
       ⟨[], List.replicate 20 7, StreamType.REPARSE_POINT⟩,
       ⟨[97], List.replicate 20 3, StreamType.DATA⟩]⟩⟩
    (by decide)).1 (by decide)
  refine ⟨h.1, h.2.1, ?_⟩
  have h2 := h.2.2
  rw [h2]
  decide

end Dentry

namespace XmlWindows

open Dentry

theorem maxScore_eq_fold (upc : Nat → Nat) (root : DTree) :
    maxScore upc root = root.children.foldl (mstep upc) 0 := rfl

theorem mfold_ge_init (upc : Nat → Nat) (l : List DTree) (a : Nat) :
    a ≤ l.foldl (mstep upc) a := by
  induction l generalizing a with
  | nil => simp
  | cons c t ih =>
    refine le_trans ?_ (ih (mstep upc a c))
    unfold mstep
    split <;> omega

theorem mfold_ge_mem (upc : Nat → Nat) (l : List DTree) (w : DTree)
    (hdir : dentry_is_directory w.dentry = true) :
    ∀ a : Nat, w ∈ l → systemrootScore upc w ≤ l.foldl (mstep upc) a := by
  induction l with
  | nil =>
    intro a hw
    cases hw
  | cons c t ih =>
    intro a hw
    rcases List.mem_cons.mp hw with rfl | hw'
    · refine le_trans ?_ (mfold_ge_init upc t (mstep upc a w))
      unfold mstep
      rw [if_pos hdir]
      omega
    · exact ih (mstep upc a c) hw' 

theorem swsiStep_char (upc : Nat → Nat) (best : Nat × Option DTree) (c : DTree) :
    swsiStep upc best c =
      if dentry_is_directory c.dentry ∧ (getChild upc c system32_name).isSome then
        (if systemrootScore upc c ≥ best.1
            ∧ (systemrootScore upc c > best.1 ∨ is_default_systemroot upc c)
          then (systemrootScore upc c, some c) else best)
      else best := by
  unfold swsiStep systemrootScore
  cases hdir : dentry_is_directory c.dentry
  · simp [hdir]
  · cases hs32 : getChild upc c system32_name with
    | none => simp [hdir, hs32]
    | some s32 => simp [hdir, hs32]

/-- Fold invariant for the candidate loop of
`set_windows_specific_info`. -/
theorem swsiFold_inv (upc : Nat → Nat) (l : List DTree) :
    ∀ (acc : List DTree) (best : Nat × Option DTree),
    best.1 = acc.foldl (mstep upc) 0 →
    (∀ d, best.2 = some d → d ∈ acc ∧ dentry_is_directory d.dentry = true
      ∧ systemrootScore upc d = best.1) →
    (0 < best.1 → best.2 ≠ none) →
    (∀ w ∈ acc, dentry_is_directory w.dentry = true → is_default_systemroot upc w = true →
      systemrootScore upc w = best.1 → 0 < best.1 →
      ∃ d, best.2 = some d ∧ is_default_systemroot upc d = true) →
    (let r := l.foldl (swsiStep upc) best
     r.1 = (acc ++ l).foldl (mstep upc) 0
     ∧ (∀ d, r.2 = some d → d ∈ acc ++ l ∧ dentry_is_directory d.dentry = true
        ∧ systemrootScore upc d = r.1)
     ∧ (0 < r.1 → r.2 ≠ none)
     ∧ (∀ w ∈ acc ++ l, dentry_is_directory w.dentry = true →
        is_default_systemroot upc w = true → systemrootScore upc w = r.1 → 0 < r.1 →
        ∃ d, r.2 = some d ∧ is_default_systemroot upc d = true)) := by
  induction l with
  | nil =>
    intro acc best hM hA hB hC
    simpa using ⟨hM, hA, hB, hC⟩
  | cons c t ih =>
    intro acc best hM hA hB hC
    have hstep := swsiStep_char upc best c
    have hacc : acc ++ c :: t = (acc ++ [c]) ++ t := by simp
    rw [List.foldl_cons, hacc]
    by_cases hcons : dentry_is_directory c.dentry ∧ (getChild upc c system32_name).isSome
    · rw [if_pos hcons] at hstep
      have hsc0 : (getChild upc c system32_name).isSome := hcons.2
      by_cases hupd : systemrootScore upc c ≥ best.1
          ∧ (systemrootScore upc c > best.1 ∨ is_default_systemroot upc c)
      · rw [if_pos hupd] at hstep
        rw [hstep]
        apply ih (acc ++ [c]) (systemrootScore upc c, some c)
        · simp only [List.foldl_append, List.foldl_cons, List.foldl_nil]
          rw [← hM]
          unfold mstep
          rw [if_pos hcons.1]
          omega
        · intro d hd
          cases hd
          exact ⟨by simp, hcons.1, rfl⟩
        · intro _
          simp
        · intro w hw hwdir hwwin hwsc _
          rcases List.mem_append.mp hw with hw' | hw'
          · -- an earlier Windows directory already achieved this score
            have hle : systemrootScore upc w ≤ best.1 := by
              rw [hM]
              exact mfold_ge_mem upc acc w hwdir 0 hw'
            have heq : systemrootScore upc c = best.1 := by omega
            have hwin : is_default_systemroot upc c = true := by
              rcases hupd.2 with h | h
              · omega
              · exact h
            exact ⟨c, rfl, hwin⟩
          · have : w = c := by simpa using hw'
            subst this
            have hwin : is_default_systemroot upc w = true := hwwin
            exact ⟨w, rfl, hwin⟩
      · rw [if_neg hupd] at hstep
        rw [hstep]
        apply ih (acc ++ [c]) best
        · simp only [List.foldl_append, List.foldl_cons, List.foldl_nil]
          rw [← hM]
          unfold mstep
          rw [if_pos hcons.1]
          push_neg at hupd
          rcases Nat.lt_or_ge (systemrootScore upc c) best.1 with h | h
          · omega
          · have := hupd h
            omega
        · intro d hd
          rcases hA d hd with ⟨hmem, hdir, hsc⟩
          exact ⟨by simp [hmem], hdir, hsc⟩
        · exact hB
        · intro w hw hwdir hwwin hwsc hpos
          rcases List.mem_append.mp hw with hw' | hw'
          · exact hC w hw' hwdir hwwin hwsc hpos
          · have hwc : w = c := by simpa using hw'
            subst hwc
            push_neg at hupd
            have hge : best.1 ≤ systemrootScore upc w := le_of_eq hwsc.symm
            have h2 := (hupd hge).2
            simp [hwwin] at h2
    · rw [if_neg hcons] at hstep
      rw [hstep]
      apply ih (acc ++ [c]) best
      · simp only [List.foldl_append, List.foldl_cons, List.foldl_nil]
        rw [← hM]
        unfold mstep
        by_cases hdir : dentry_is_directory c.dentry = true
        · have hs32 : getChild upc c system32_name = none := by
            rcases h : getChild upc c system32_name with _ | _
            · rfl
            · exact absurd ⟨hdir, by simp [h]⟩ hcons
          have hsc : systemrootScore upc c = 0 := by
            unfold systemrootScore
            rw [hs32]
          rw [if_pos hdir, hsc]
          omega
        · rw [if_neg hdir]
      · intro d hd
        rcases hA d hd with ⟨hmem, hdir, hsc⟩
        exact ⟨by simp [hmem], hdir, hsc⟩
      · exact hB
      · intro w hw hwdir hwwin hwsc hpos
        rcases List.mem_append.mp hw with hw' | hw'
        · exact hC w hw' hwdir hwwin hwsc hpos
        · have : w = c := by simpa using hw'
          subst this
          have hs32 : getChild upc w system32_name = none := by
            rcases h : getChild upc w system32_name with _ | _
            · rfl
            · exact absurd ⟨hwdir, by simp [h]⟩ hcons
          have hsc : systemrootScore upc w = 0 := by
            unfold systemrootScore
            rw [hs32]
          omega

end XmlWindows

namespace XmlWindows

open Dentry

/-- C9: `set_windows_specific_info` scores every top-level
subdirectory of the image root by the number (0 to 3) of the children
`kernel32.dll`, `config/SOFTWARE` and `config/SYSTEM` found under its
`System32` directory by case-insensitive lookup, and selects a
directory with the highest score, preferring on a score tie a
directory whose name is case-insensitively "Windows"; when the best
score is 0 it selects nothing (returning success without setting any
XML property). -/
theorem C9_systemroot_selection (upc : Nat → Nat) (root : DTree) :
    (set_windows_specific_info upc root = none ↔ maxScore upc root = 0)
    ∧ (∀ d, set_windows_specific_info upc root = some d →
        d ∈ root.children ∧ dentry_is_directory d.dentry = true
        ∧ systemrootScore upc d = maxScore upc root
        ∧ 0 < maxScore upc root
        ∧ ((∃ w ∈ root.children, dentry_is_directory w.dentry = true
            ∧ is_default_systemroot upc w = true
            ∧ systemrootScore upc w = maxScore upc root) →
          is_default_systemroot upc d = true)) := by
  have inv := swsiFold_inv upc root.children [] (0, none) rfl
    (by intro d hd; cases hd) (by intro h; omega)
    (by intro w hw _ _ _ hpos; omega)
  simp only [List.nil_append] at inv
  obtain ⟨hM, hA, hB, hC⟩ := inv
  have hmax : maxScore upc root
      = (root.children.foldl (swsiStep upc) (0, none)).1 := by
    rw [maxScore_eq_fold, hM]
  constructor
  · constructor
    · intro hnone
      unfold set_windows_specific_info at hnone
      by_cases hz : (root.children.foldl (swsiStep upc) (0, none)).1 = 0
      · omega
      · rw [if_neg hz] at hnone
        exact absurd hnone (hB (by omega))
    · intro hz
      unfold set_windows_specific_info
      rw [if_pos (by omega)]
  · intro d hd
    unfold set_windows_specific_info at hd
    by_cases hz : (root.children.foldl (swsiStep upc) (0, none)).1 = 0
    · rw [if_pos hz] at hd
      cases hd
    · rw [if_neg hz] at hd
      obtain ⟨hmem, hdir, hsc⟩ := hA d hd
      refine ⟨hmem, hdir, by omega, by omega, ?_⟩
      rintro ⟨w, hw, hwdir, hwwin, hwsc⟩
      obtain ⟨d', hd', hwin'⟩ := hC w hw hwdir hwwin (by omega) (by omega)
      rw [hd] at hd'
      cases hd'
      exact hwin'

/-- Witness for C9: on `c9Root` the selection picks the "Windows"
directory, whose score 1 is the maximum and positive. -/
theorem C9_systemroot_selection_witness :
    systemrootScore (fun u => u) c9Windows = maxScore (fun u => u) c9Root
      ∧ 0 < maxScore (fun u => u) c9Root
      ∧ is_default_systemroot (fun u => u) c9Windows = true := by
  have h := (C9_systemroot_selection (fun u => u) c9Root).2 c9Windows (by rfl)
  exact ⟨h.2.2.1, h.2.2.2.1, h.2.2.2.2 ⟨c9Windows, by simp [c9Root, DTree.children],
    by rfl, by rfl, h.2.2.1⟩⟩

end XmlWindows

namespace Dentry

theorem getD_set_self {α : Type} (l : List α) (k : Nat) (a d : α)
    (h : k < l.length) : (l.set k a).getD k d = a := by
  induction l generalizing k with
  | nil => simp at h
  | cons x xs ih =>
    cases k with
    | zero => rfl
    | succ k => exact ih k (by simpa using h)

theorem getD_set_ne {α : Type} (l : List α) (k j : Nat) (a d : α)
    (h : j ≠ k) : (l.set k a).getD j d = l.getD j d := by
  induction l generalizing k j with
  | nil => simp [List.getD]
  | cons x xs ih =>
    cases k with
    | zero => cases j with
      | zero => exact absurd rfl h
      | succ j => rfl
    | succ k => cases j with
      | zero => rfl
      | succ j => exact ih k j (by omega)

theorem cntNZ_cons_succ (s : WimStream) (rest : List WimStream) (j : Nat) :
    cntNZ (s :: rest) (j + 1)
      = (if unnamedNZ s then 1 else 0) + cntNZ rest j := by
  simp only [cntNZ, List.take_succ_cons, List.filter_cons]
  split <;> simp [Nat.add_comm]

theorem cntNZ_zero (streams : List WimStream) : cntNZ streams 0 = 0 := by
  simp [cntNZ]

theorem auSpecType_shiftA (rpAttr fRP fUD : Bool) (s : WimStream)
    (rest : List WimStream) (j : Nat) (h : unnamedNZ s = false) :
    auSpecType rpAttr fRP fUD (s :: rest) (j + 1)
      = auSpecType rpAttr fRP fUD rest j := by
  simp only [auSpecType, List.getD_cons_succ, cntNZ_cons_succ, h,
    if_false, Nat.zero_add, Bool.false_eq_true]

theorem auSpecType_shiftB (rpAttr fRP fUD : Bool) (s : WimStream)
    (rest : List WimStream) (j : Nat) (h : unnamedNZ s = true)
    (hc : rpAttr = true ∧ fRP = false) :
    auSpecType rpAttr fRP fUD (s :: rest) (j + 1)
      = auSpecType rpAttr true fUD rest j := by
  obtain ⟨h1, h2⟩ := hc
  subst h1; subst h2
  cases fUD <;>
    simp [auSpecType, List.getD_cons_succ, cntNZ_cons_succ, h,
      Nat.add_comm 1]

theorem auSpecType_shiftC (rpAttr fRP fUD : Bool) (s : WimStream)
    (rest : List WimStream) (j : Nat) (h : unnamedNZ s = true)
    (hc : ¬(rpAttr = true ∧ fRP = false)) (hu : fUD = false) :
    auSpecType rpAttr fRP fUD (s :: rest) (j + 1)
      = auSpecType rpAttr fRP true rest j := by
  subst hu
  cases rpAttr with
  | false =>
    cases fRP <;>
      simp [auSpecType, List.getD_cons_succ, cntNZ_cons_succ, h,
        Nat.add_comm 1]
  | true =>
    cases fRP with
    | false => exact absurd ⟨rfl, rfl⟩ hc
    | true =>
      simp [auSpecType, List.getD_cons_succ, cntNZ_cons_succ, h,
        Nat.add_comm 1]

theorem auSpecType_shiftD (rpAttr fRP fUD : Bool) (s : WimStream)
    (rest : List WimStream) (j : Nat) (h : unnamedNZ s = true)
    (hc : ¬(rpAttr = true ∧ fRP = false)) (hu : fUD = true) :
    auSpecType rpAttr fRP fUD (s :: rest) (j + 1)
      = auSpecType rpAttr fRP fUD rest j := by
  subst hu
  cases rpAttr with
  | false =>
    cases fRP <;>
      simp [auSpecType, List.getD_cons_succ, cntNZ_cons_succ, h,
        Nat.add_comm 1]
  | true =>
    cases fRP with
    | false => exact absurd ⟨rfl, rfl⟩ hc
    | true =>
      simp [auSpecType, List.getD_cons_succ, cntNZ_cons_succ, h,
        Nat.add_comm 1]

end Dentry

namespace Dentry

theorem lastZ_cons_notZ (s : WimStream) (rest : List WimStream)
    (h : unnamedZ s = false) :
    lastZ (s :: rest) = (lastZ rest).map (· + 1) := by
  cases hr : lastZ rest <;> simp [lastZ, hr, h]

theorem lastZ_none (streams : List WimStream) (h : lastZ streams = none) :
    ∀ i, i < streams.length → unnamedZ (streams.getD i dfltStream) = false := by
  induction streams with
  | nil => intro i hi; simp at hi
  | cons s rest ih =>
    intro i hi
    cases hr : lastZ rest with
    | some j => simp [lastZ, hr] at h
    | none =>
      have hs : unnamedZ s = false := by
        by_cases hz : unnamedZ s = true
        · simp [lastZ, hr, hz] at h
        · simpa using hz
      cases i with
      | zero => simpa using hs
      | succ i => exact ih (by simp [lastZ, hr, hs] at h ⊢) i (by simpa using hi)

theorem lastZ_some (streams : List WimStream) :
    ∀ k, lastZ streams = some k →
      k < streams.length ∧ unnamedZ (streams.getD k dfltStream) = true
      ∧ ∀ i, k < i → i < streams.length →
          unnamedZ (streams.getD i dfltStream) = false := by
  induction streams with
  | nil => intro k hk; simp [lastZ] at hk
  | cons s rest ih =>
    intro k hk
    cases hr : lastZ rest with
    | some j =>
      simp only [lastZ, hr] at hk
      obtain ⟨h1, h2, h3⟩ := ih j hr
      cases hk
      refine ⟨by simpa using h1, by simpa using h2, ?_⟩
      intro i hji hi
      cases i with
      | zero => omega
      | succ i => exact h3 i (by omega) (by simpa using hi)
    | none =>
      by_cases hz : unnamedZ s = true
      · simp only [lastZ, hr, hz, if_true] at hk
        cases hk
        refine ⟨by simp, by simpa using hz, ?_⟩
        intro i h0 hi
        cases i with
        | zero => omega
        | succ i => exact lastZ_none rest hr i (by simpa using hi)
      · have hs : unnamedZ s = false := by simpa using hz
        simp [lastZ, hr, hs] at hk

theorem auGo_spec (rpAttr : Bool) (streams : List WimStream) :
    ∀ fRP fUD : Bool,
      (auGo rpAttr streams fRP fUD).1.length = streams.length
      ∧ (∀ j, (auGo rpAttr streams fRP fUD).1.getD j dfltStream
          = { streams.getD j dfltStream with
                stream_type := auSpecType rpAttr fRP fUD streams j })
      ∧ ((auGo rpAttr streams fRP fUD).2.1
          = (fUD || decide ((if rpAttr ∧ ¬fRP then 2 else 1)
              ≤ (streams.filter unnamedNZ).length)))
      ∧ (auGo rpAttr streams fRP fUD).2.2 = lastZ streams := by
  induction streams with
  | nil =>
    intro fRP fUD
    refine ⟨rfl, ?_, ?_, rfl⟩
    · intro j
      simp [auGo, auSpecType, dfltStream, stream_is_named, unnamedNZ,
        is_zero_hash, List.getD]
    · have hth : decide ((if rpAttr ∧ ¬fRP then 2 else 1)
          ≤ (List.filter unnamedNZ ([] : List WimStream)).length) = false := by
        rw [decide_eq_false_iff_not]
        simp only [List.filter_nil, List.length_nil]
        split <;> omega
      rw [hth, Bool.or_false]
      rfl
  | cons s rest ih =>
    intro fRP fUD
    by_cases hnm : stream_is_named s = true
    · -- named data stream
      obtain ⟨ihl, ihb, ihc, ihd⟩ := ih fRP fUD
      have hnz : unnamedNZ s = false := by simp [unnamedNZ, hnm]
      have hzz : unnamedZ s = false := by simp [unnamedZ, hnm]
      refine ⟨?_, ?_, ?_, ?_⟩
      · simp only [auGo, if_pos hnm, List.length_cons]
        simpa using ihl
      · intro j
        cases j with
        | zero =>
          simp only [auGo, if_pos hnm, List.getD_cons_zero]
          simp [auSpecType, hnm]
        | succ j =>
          simp only [auGo, if_pos hnm, List.getD_cons_succ]
          rw [ihb j, auSpecType_shiftA _ _ _ _ _ _ hnz]
      · simp only [auGo, if_pos hnm]
        rw [ihc]
        simp [List.filter_cons, hnz]
      · simp only [auGo, if_pos hnm]
        rw [ihd, lastZ_cons_notZ _ _ hzz]
    · by_cases hzh : is_zero_hash s.stream_hash = true
      · -- unnamed stream with zero hash: remembered as fallback
        obtain ⟨ihl, ihb, ihc, ihd⟩ := ih fRP fUD
        have hnz : unnamedNZ s = false := by simp [unnamedNZ, hzh]
        have hzz : unnamedZ s = true := by simp [unnamedZ, hnm, hzh]
        refine ⟨?_, ?_, ?_, ?_⟩
        · simp only [auGo, if_neg hnm, if_neg (not_not_intro hzh),
            List.length_cons]
          simpa using ihl
        · intro j
          cases j with
          | zero =>
            simp only [auGo, if_neg hnm, if_neg (not_not_intro hzh),
              List.getD_cons_zero]
            simp [auSpecType, hnm, hnz]
          | succ j =>
            simp only [auGo, if_neg hnm, if_neg (not_not_intro hzh),
              List.getD_cons_succ]
            rw [ihb j, auSpecType_shiftA _ _ _ _ _ _ hnz]
        · simp only [auGo, if_neg hnm, if_neg (not_not_intro hzh)]
          rw [ihc]
          simp [List.filter_cons, hnz]
        · simp only [auGo, if_neg hnm, if_neg (not_not_intro hzh)]
          rw [ihd]
          cases hr : lastZ rest <;> simp [lastZ, hr, hzz]
      · -- unnamed stream with nonzero hash
        have hnz : unnamedNZ s = true := by simp [unnamedNZ, hnm, hzh]
        have hzz : unnamedZ s = false := by simp [unnamedZ, hzh]
        by_cases hc : rpAttr = true ∧ ¬(fRP = true)
        · -- becomes the reparse point stream
          obtain ⟨ihl, ihb, ihc, ihd⟩ := ih true fUD
          have hc' : rpAttr = true ∧ fRP = false := ⟨hc.1, by simpa using hc.2⟩
          refine ⟨?_, ?_, ?_, ?_⟩
          · simp only [auGo, if_neg hnm, if_pos hzh,
              if_pos hc, List.length_cons]
            simpa using ihl
          · intro j
            cases j with
            | zero =>
              simp only [auGo, if_neg hnm, if_pos hzh,
                if_pos hc, List.getD_cons_zero]
              simp [auSpecType, hnm, hnz, cntNZ_zero, hc.1, hc.2]
            | succ j =>
              simp only [auGo, if_neg hnm, if_pos hzh,
                if_pos hc, List.getD_cons_succ]
              rw [ihb j, auSpecType_shiftB _ _ _ _ _ _ hnz hc']
          · simp only [auGo, if_neg hnm, if_pos hzh,
              if_pos hc]
            rw [ihc, if_neg (fun hx : rpAttr = true ∧ ¬(true = true) => hx.2 rfl)]
            have hfl : (List.filter unnamedNZ (s :: rest)).length
                = (List.filter unnamedNZ rest).length + 1 := by
              simp [List.filter_cons, hnz]
            congr 1
            rw [decide_eq_decide]
            constructor <;> intro <;> omega
          · simp only [auGo, if_neg hnm, if_pos hzh,
              if_pos hc]
            rw [ihd, lastZ_cons_notZ _ _ hzz]
        · by_cases hfud : fUD = true
          · -- an unnamed data stream was already found: unchanged
            obtain ⟨ihl, ihb, ihc, ihd⟩ := ih fRP fUD
            have hc' : ¬(rpAttr = true ∧ fRP = false) := by
              intro hx; exact hc ⟨hx.1, by simp [hx.2]⟩
            refine ⟨?_, ?_, ?_, ?_⟩
            · simp only [auGo, if_neg hnm, if_pos hzh,
                if_neg hc, if_neg (not_not_intro hfud), List.length_cons]
              simpa using ihl
            · intro j
              cases j with
              | zero =>
                simp only [auGo, if_neg hnm, if_pos hzh,
                  if_neg hc, if_neg (not_not_intro hfud), List.getD_cons_zero]
                subst hfud
                cases rpAttr with
                | false => simp [auSpecType, hnm, hnz, cntNZ_zero]
                | true =>
                  cases fRP with
                  | false => exact absurd ⟨rfl, rfl⟩ hc'
                  | true => simp [auSpecType, hnm, hnz, cntNZ_zero]
              | succ j =>
                simp only [auGo, if_neg hnm, if_pos hzh,
                  if_neg hc, if_neg (not_not_intro hfud), List.getD_cons_succ]
                rw [ihb j, auSpecType_shiftD _ _ _ _ _ _ hnz hc' hfud]
            · simp only [auGo, if_neg hnm, if_pos hzh,
                if_neg hc, if_neg (not_not_intro hfud)]
              rw [ihc, hfud]
              simp
            · simp only [auGo, if_neg hnm, if_pos hzh,
                if_neg hc, if_neg (not_not_intro hfud)]
              rw [ihd, lastZ_cons_notZ _ _ hzz]
          · -- becomes the unnamed data stream
            obtain ⟨ihl, ihb, ihc, ihd⟩ := ih fRP true
            have hc' : ¬(rpAttr = true ∧ fRP = false) := by
              intro hx; exact hc ⟨hx.1, by simp [hx.2]⟩
            refine ⟨?_, ?_, ?_, ?_⟩
            · simp only [auGo, if_neg hnm, if_pos hzh,
                if_neg hc, if_pos hfud, List.length_cons]
              simpa using ihl
            · intro j
              cases j with
              | zero =>
                simp only [auGo, if_neg hnm, if_pos hzh,
                  if_neg hc, if_pos hfud, List.getD_cons_zero]
                have hfud' : fUD = false := by simpa using hfud
                subst hfud'
                cases rpAttr with
                | false => simp [auSpecType, hnm, hnz, cntNZ_zero]
                | true =>
                  cases fRP with
                  | false => exact absurd ⟨rfl, rfl⟩ hc'
                  | true => simp [auSpecType, hnm, hnz, cntNZ_zero]
              | succ j =>
                simp only [auGo, if_neg hnm, if_pos hzh,
                  if_neg hc, if_pos hfud, List.getD_cons_succ]
                rw [ihb j,
                  auSpecType_shiftC _ _ _ _ _ _ hnz hc' (by simpa using hfud)]
            · simp only [auGo, if_neg hnm, if_pos hzh,
                if_neg hc, if_pos hfud]
              rw [ihc]
              have hfud' : fUD = false := by simpa using hfud
              subst hfud'
              have hth : (if rpAttr ∧ ¬fRP then 2 else 1) = 1 := by
                rw [if_neg]
                intro hx; exact hc ⟨hx.1, by simpa using hx.2⟩
              simp [List.filter_cons, hnz, hth]
            · simp only [auGo, if_neg hnm, if_pos hzh,
                if_neg hc, if_pos hfud]
              rw [ihd, lastZ_cons_notZ _ _ hzz]

end Dentry

namespace Dentry

theorem unnamedZ_not_named (x : WimStream) (h : unnamedZ x = true) :
    stream_is_named x = false := by
  simp only [unnamedZ, Bool.and_eq_true, Bool.not_eq_true'] at h
  exact h.1

theorem unnamedZ_not_NZ (x : WimStream) (h : unnamedZ x = true) :
    unnamedNZ x = false := by
  simp only [unnamedZ, Bool.and_eq_true, Bool.not_eq_true'] at h
  simp [unnamedNZ, h.2]

theorem aste_some (streams : List WimStream) :
    ∀ k, firstNZ streams = some k →
      assign_stream_types_encrypted streams
        = streams.set k { streams.getD k dfltStream with
            stream_type := StreamType.EFSRPC_RAW_DATA }
      ∧ k < streams.length ∧ unnamedNZ (streams.getD k dfltStream) = true
      ∧ ∀ i, i < k → unnamedNZ (streams.getD i dfltStream) = false := by
  induction streams with
  | nil => intro k hk; simp [firstNZ] at hk
  | cons s rest ih =>
    intro k hk
    by_cases hz : unnamedNZ s = true
    · simp only [firstNZ, hz, if_true] at hk
      cases hk
      have hcond : ¬stream_is_named s = true ∧ ¬is_zero_hash s.stream_hash = true := by
        simpa [unnamedNZ, Bool.and_eq_true, Bool.not_eq_true'] using hz
      refine ⟨?_, by simp, by simpa using hz, ?_⟩
      · simp only [assign_stream_types_encrypted, if_pos hcond]
        rfl
      · intro i hi; omega
    · have hz' : unnamedNZ s = false := by simpa using hz
      simp only [firstNZ, hz', Bool.false_eq_true, if_false] at hk
      obtain ⟨j, hj, hjk⟩ := Option.map_eq_some'.mp hk
      obtain ⟨e1, e2, e3, e4⟩ := ih j hj
      have hcond : ¬(¬stream_is_named s = true ∧ ¬is_zero_hash s.stream_hash = true) := by
        intro hx
        refine absurd (show unnamedNZ s = true from ?_) hz
        simp only [unnamedNZ, Bool.and_eq_true, Bool.not_eq_true']
        exact ⟨by simpa using hx.1, by simpa using hx.2⟩
      subst hjk
      refine ⟨?_, by simpa using e2, by simpa using e3, ?_⟩
      · simp only [assign_stream_types_encrypted, if_neg hcond]
        rw [e1]
        rfl
      · intro i hi
        cases i with
        | zero => simpa using hz'
        | succ i => exact e4 i (by omega)

theorem aste_none (streams : List WimStream) (h : firstNZ streams = none) :
    assign_stream_types_encrypted streams = streams
    ∧ ∀ i, i < streams.length →
        unnamedNZ (streams.getD i dfltStream) = false := by
  induction streams with
  | nil => exact ⟨rfl, by intro i hi; simp at hi⟩
  | cons s rest ih =>
    by_cases hz : unnamedNZ s = true
    · simp [firstNZ, hz] at h
    · have hz' : unnamedNZ s = false := by simpa using hz
      simp only [firstNZ, hz', Bool.false_eq_true, if_false,
        Option.map_eq_none'] at h
      obtain ⟨e1, e2⟩ := ih h
      have hcond : ¬(¬stream_is_named s = true ∧ ¬is_zero_hash s.stream_hash = true) := by
        intro hx
        refine absurd (show unnamedNZ s = true from ?_) hz
        simp only [unnamedNZ, Bool.and_eq_true, Bool.not_eq_true']
        exact ⟨by simpa using hx.1, by simpa using hx.2⟩
      refine ⟨?_, ?_⟩
      · simp only [assign_stream_types_encrypted, if_neg hcond, e1]
      · intro i hi
        cases i with
        | zero => simpa using hz'
        | succ i => exact e2 i (by simpa using hi)

theorem astu_cases (rpAttr : Bool) (streams : List WimStream) :
    ((auGo rpAttr streams false false).2.1 = false →
      ∀ k, (auGo rpAttr streams false false).2.2 = some k →
        assign_stream_types_unencrypted rpAttr streams
          = (auGo rpAttr streams false false).1.set k
              { (auGo rpAttr streams false false).1.getD k dfltStream with
                  stream_type := StreamType.DATA })
    ∧ ((auGo rpAttr streams false false).2.1 = true →
        assign_stream_types_unencrypted rpAttr streams
          = (auGo rpAttr streams false false).1)
    ∧ ((auGo rpAttr streams false false).2.2 = none →
        assign_stream_types_unencrypted rpAttr streams
          = (auGo rpAttr streams false false).1) := by
  rcases hgo : auGo rpAttr streams false false with ⟨lst, fud, lz⟩
  refine ⟨?_, ?_, ?_⟩
  · intro h1 k h2
    unfold assign_stream_types_unencrypted
    rw [hgo]
    dsimp only at h1 h2 ⊢
    subst h1
    subst h2
    rfl
  · intro h1
    unfold assign_stream_types_unencrypted
    rw [hgo]
    dsimp only at h1 ⊢
    subst h1
    rfl
  · intro h2
    unfold assign_stream_types_unencrypted
    rw [hgo]
    dsimp only at h2 ⊢
    subst h2
    cases fud <;> rfl

theorem specStreamType_eq_au (rpAttr : Bool) (streams : List WimStream)
    (j : Nat)
    (h : unnamedZ (streams.getD j dfltStream) = true →
      ¬((streams.filter unnamedNZ).length < (if rpAttr then 2 else 1)
        ∧ lastZ streams = some j)) :
    specStreamType rpAttr streams j = auSpecType rpAttr false false streams j := by
  unfold specStreamType auSpecType
  set s := streams.getD j dfltStream with hs
  by_cases hnm : stream_is_named s = true
  · rw [if_pos hnm, if_pos hnm]
  · by_cases hnz : unnamedNZ s = true
    · cases rpAttr <;> simp [hnm, hnz]
    · have hnamed : stream_is_named s = false := by simpa using hnm
      have hzero : is_zero_hash s.stream_hash = true := by
        by_cases hzx : is_zero_hash s.stream_hash = true
        · exact hzx
        · have hz0 : is_zero_hash s.stream_hash = false := by simpa using hzx
          exact absurd (by simp [unnamedNZ, hnamed, hz0]) hnz
      have hzz : unnamedZ s = true := by simp [unnamedZ, hnamed, hzero]
      rw [if_neg hnm, if_neg hnm, if_neg hnz, if_neg hnz, if_neg (h hzz)]

end Dentry

namespace Dentry

/-- C5: stream-type assignment after reading an inode's streams.  For
an encrypted inode, `assign_stream_types_encrypted` retypes exactly
the first unnamed stream with a nonzero hash (when one exists) to
`EFSRPC_RAW_DATA`, leaving every other stream untouched, and changes
nothing when no such stream exists.  For an unencrypted inode,
`assign_stream_types_unencrypted` keeps the stream list's length and
every stream's name and hash, and gives the stream at each index `j`
the type `specStreamType`: named streams become `DATA`, the first
unnamed nonzero-hash stream of a reparse-point inode becomes
`REPARSE_POINT`, the first remaining unnamed nonzero-hash stream
becomes `DATA`, and when no unnamed data stream was found the last
unnamed zero-hash stream (the remembered fallback) becomes `DATA`;
all other streams keep their type. -/
theorem C5_stream_type_assignment (rpAttr : Bool)
    (streams : List WimStream) :
    (∀ k, firstNZ streams = some k →
        assign_stream_types_encrypted streams
          = streams.set k { streams.getD k dfltStream with
              stream_type := StreamType.EFSRPC_RAW_DATA }
        ∧ k < streams.length
        ∧ unnamedNZ (streams.getD k dfltStream) = true
        ∧ ∀ i, i < k → unnamedNZ (streams.getD i dfltStream) = false)
    ∧ (firstNZ streams = none →
        assign_stream_types_encrypted streams = streams
        ∧ ∀ i, i < streams.length →
            unnamedNZ (streams.getD i dfltStream) = false)
    ∧ (assign_stream_types_unencrypted rpAttr streams).length
        = streams.length
    ∧ ∀ j, (assign_stream_types_unencrypted rpAttr streams).getD j dfltStream
        = { streams.getD j dfltStream with
              stream_type := specStreamType rpAttr streams j } := by
  obtain ⟨hl, hb, hcc, hd⟩ := auGo_spec rpAttr streams false false
  obtain ⟨ac1, ac2, ac3⟩ := astu_cases rpAttr streams
  refine ⟨aste_some streams, aste_none streams, ?_⟩
  cases hud : (auGo rpAttr streams false false).2.1 with
  | true =>
    rw [ac2 hud]
    rw [hud] at hcc
    simp only [Bool.false_or] at hcc
    have hle := of_decide_eq_true hcc.symm
    have hle' : (if rpAttr then 2 else 1 : Nat)
        ≤ (streams.filter unnamedNZ).length := by
      cases rpAttr <;> simpa using hle
    refine ⟨hl, ?_⟩
    intro j
    rw [hb j, specStreamType_eq_au]
    rintro _ ⟨hlt, _⟩
    omega
  | false =>
    cases hlz : (auGo rpAttr streams false false).2.2 with
    | none =>
      rw [ac3 hlz]
      have hlzS : lastZ streams = none := by rw [← hd]; exact hlz
      refine ⟨hl, ?_⟩
      intro j
      rw [hb j, specStreamType_eq_au]
      rintro _ ⟨_, hsome⟩
      rw [hlzS] at hsome
      cases hsome
    | some k =>
      rw [ac1 hud k hlz]
      have hlzS : lastZ streams = some k := by rw [← hd]; exact hlz
      obtain ⟨hklen, hkz, _⟩ := lastZ_some streams k hlzS
      rw [hud] at hcc
      simp only [Bool.false_or] at hcc
      have hngt := of_decide_eq_false hcc.symm
      have hlt : (streams.filter unnamedNZ).length
          < (if rpAttr then 2 else 1 : Nat) := by
        have hx := Nat.lt_of_not_le hngt
        cases rpAttr <;> simpa using hx
      refine ⟨by rw [List.length_set, hl], ?_⟩
      intro j
      by_cases hjk : j = k
      · subst hjk
        rw [getD_set_self _ _ _ _ (by rw [hl]; exact hklen), hb j]
        have hnamed : stream_is_named (streams.getD j dfltStream) = false :=
          unnamedZ_not_named _ hkz
        have hknz : unnamedNZ (streams.getD j dfltStream) = false :=
          unnamedZ_not_NZ _ hkz
        have hnm' : ¬(stream_is_named (streams.getD j dfltStream) = true) := by
          rw [hnamed]; exact Bool.false_ne_true
        have hnz' : ¬(unnamedNZ (streams.getD j dfltStream) = true) := by
          rw [hknz]; exact Bool.false_ne_true
        have hspec : specStreamType rpAttr streams j = StreamType.DATA := by
          simp only [specStreamType]
          rw [if_neg hnm', if_neg hnz', if_pos ⟨hlt, hlzS⟩]
        rw [hspec]
      · rw [getD_set_ne _ _ _ _ _ hjk, hb j, specStreamType_eq_au]
        rintro _ ⟨_, hsome⟩
        rw [hlzS] at hsome
        exact hjk (Option.some.inj hsome).symm

/-- Witness for C5 on `c5Streams` with the reparse-point attribute:
the encrypted path retypes exactly the stream at index 2 (the first
unnamed nonzero-hash one), the unencrypted path gives index 2 the type
`specStreamType`, which evaluates to `REPARSE_POINT` there. -/
theorem C5_stream_type_assignment_witness :
    (assign_stream_types_encrypted c5Streams
      = c5Streams.set 2 { c5Streams.getD 2 dfltStream with
          stream_type := StreamType.EFSRPC_RAW_DATA })
    ∧ (assign_stream_types_unencrypted true c5Streams).getD 2 dfltStream
      = { c5Streams.getD 2 dfltStream with
            stream_type := specStreamType true c5Streams 2 }
    ∧ specStreamType true c5Streams 2 = StreamType.REPARSE_POINT := by
  have h := C5_stream_type_assignment true c5Streams
  exact ⟨(h.1 2 (by rfl)).1, h.2.2.2 2, by rfl⟩

end Dentry

namespace Dentry

/-- C6: cycle detection while reading a dentry tree.  Whenever the
`subdir_offset` of the directory about to be read already occurs in
the chain of its non-root ancestors' `subdir_offset`s,
`read_dentry_tree_recursive` aborts immediately with the
invalid-metadata error; and on the concrete metadata resource
`cyclicBuf`, whose child directory's `subdir_offset` points back at
its parent's children, `read_dentry_tree` returns the
invalid-metadata error instead of recursing forever. -/
theorem C6_cycle_detection (buf : List Nat) (fuel dirSubdir : Nat)
    (chain : List Nat) (isRoot : Bool)
    (h : chain.contains dirSubdir = true) :
    read_dentry_tree_recursive buf (fuel + 1) dirSubdir chain isRoot
      = .error .invalidMetadata
    ∧ read_dentry_tree cyclicBuf 0 5 = .error .invalidMetadata := by
  refine ⟨?_, ?_⟩
  · simp only [read_dentry_tree_recursive]
    rw [if_pos h]
  · rfl

/-- Witness for C6: the ancestor chain `[104]` already holds the
offset 104 being entered, so parsing aborts. -/
theorem C6_cycle_detection_witness :
    read_dentry_tree_recursive cyclicBuf 3 104 [104] false
      = .error .invalidMetadata
    ∧ read_dentry_tree cyclicBuf 0 5 = .error .invalidMetadata :=
  C6_cycle_detection cyclicBuf 2 104 [104] false (by decide)

end Dentry

namespace Dentry

theorem getLast?_dropWhile {α} (p : α → Bool) :
    ∀ l : List α, l.dropWhile p ≠ [] → (l.dropWhile p).getLast? = l.getLast?
  | [] => by simp
  | a :: as => by
    intro h
    by_cases ha : p a = true
    · rw [List.dropWhile_cons_of_pos ha] at h ⊢
      rw [getLast?_dropWhile p as h]
      cases as with
      | nil =>
        rw [List.dropWhile_nil] at h
        exact absurd rfl h
      | cons b bs => rw [List.getLast?_cons_cons]
    · rw [List.dropWhile_cons_of_neg ha]

theorem endsSep_of_allSep (path : List Nat) (hne : path ≠ [])
    (h : path.dropWhile (· = WIM_PATH_SEPARATOR) = []) :
    endsSep path = true := by
  have hall := List.dropWhile_eq_nil_iff.mp h
  have hlast := List.getLast?_eq_getLast path hne
  have hmem := List.getLast_mem hne
  have hsep := hall _ hmem
  simp only [decide_eq_true_eq] at hsep
  simp [endsSep, hlast, hsep]

theorem endsSep_step (path : List Nat)
    (hrest : path.dropWhile (· = WIM_PATH_SEPARATOR) ≠ []) :
    endsSep ((path.dropWhile (· = WIM_PATH_SEPARATOR)).dropWhile
        (· ≠ WIM_PATH_SEPARATOR))
      = endsSep path := by
  by_cases h2 : (path.dropWhile (· = WIM_PATH_SEPARATOR)).dropWhile
      (· ≠ WIM_PATH_SEPARATOR) = []
  · rw [h2]
    have hall := List.dropWhile_eq_nil_iff.mp h2
    have hplast := getLast?_dropWhile _ path hrest
    have hlast := List.getLast?_eq_getLast _ hrest
    have hmem := List.getLast_mem hrest
    have hns := hall _ hmem
    simp only [decide_eq_true_eq] at hns
    simp [endsSep, ← hplast, hlast, hns]
  · have e1 := getLast?_dropWhile (· ≠ WIM_PATH_SEPARATOR) _ h2
    have e2 := getLast?_dropWhile (· = WIM_PATH_SEPARATOR) path hrest
    unfold endsSep
    rw [e1, e2]

theorem range_any_congr : ∀ (n : Nat) (f g : Nat → Bool),
    (∀ i, i < n → f i = g i) →
    (List.range n).any f = (List.range n).any g
  | 0, f, g, _ => rfl
  | n + 1, f, g, h => by
    simp only [List.range_succ, List.any_append, List.any_cons, List.any_nil]
    rw [range_any_congr n f g (fun i hi => h i (by omega)), h n (by omega)]

theorem pathComps_nil (path : List Nat)
    (hrest : path.dropWhile (· = WIM_PATH_SEPARATOR) = []) :
    pathComps path = [] := by
  rw [pathComps.eq_1, dif_pos hrest]

theorem pathComps_cons (path : List Nat)
    (hrest : path.dropWhile (· = WIM_PATH_SEPARATOR) ≠ []) :
    pathComps path
      = (path.dropWhile (· = WIM_PATH_SEPARATOR)).takeWhile
          (· ≠ WIM_PATH_SEPARATOR)
        :: pathComps ((path.dropWhile (· = WIM_PATH_SEPARATOR)).dropWhile
            (· ≠ WIM_PATH_SEPARATOR)) := by
  rw [pathComps.eq_1, dif_neg hrest]

end Dentry

namespace Dentry

theorem specNotDir_top (upc : Nat → Nat) (ic : Bool) (cur : DTree)
    (path : List Nat) (hnd : ¬dentry_is_directory cur.dentry = true)
    (hne : path ≠ []) :
    specNotDir upc ic cur path = true := by
  simp only [specNotDir]
  rw [List.any_eq_true]
  refine ⟨0, by simp, ?_⟩
  simp only [List.take_zero, chainResolve]
  rw [decide_eq_true_eq]
  refine ⟨hnd, ?_⟩
  by_cases hrest : path.dropWhile (· = WIM_PATH_SEPARATOR) = []
  · exact Or.inr (endsSep_of_allSep path hne hrest)
  · left
    rw [pathComps_cons path hrest]
    simp

theorem specNotDir_nilComps (upc : Nat → Nat) (ic : Bool) (cur : DTree)
    (path : List Nat) (hcomps : pathComps path = [])
    (hok : dentry_is_directory cur.dentry = true ∨ endsSep path = false) :
    specNotDir upc ic cur path = false := by
  simp only [specNotDir, hcomps, List.length_nil, Nat.zero_add]
  rw [List.any_eq_false]
  intro i hi
  simp only [List.range_succ, List.range_zero, List.nil_append,
    List.mem_singleton] at hi
  subst hi
  simp only [List.take_nil, chainResolve]
  rcases hok with h | h <;> simp [h]

theorem specNotDir_lookupNone (upc : Nat → Nat) (ic : Bool) (cur : DTree)
    (path : List Nat)
    (hrest : path.dropWhile (· = WIM_PATH_SEPARATOR) ≠ [])
    (hdir : dentry_is_directory cur.dentry = true)
    (hlk : get_dentry_child_with_utf16le_name upc ic cur
        ((path.dropWhile (· = WIM_PATH_SEPARATOR)).takeWhile
          (· ≠ WIM_PATH_SEPARATOR)) = none) :
    specNotDir upc ic cur path = false
    ∧ chainResolve upc ic cur (pathComps path) = none := by
  have hpc := pathComps_cons path hrest
  constructor
  · simp only [specNotDir, hpc, List.length_cons]
    rw [List.any_eq_false]
    intro i hmem
    rw [List.mem_range] at hmem
    cases i with
    | zero => simp [chainResolve, hdir]
    | succ j =>
      simp only [List.take_succ_cons, chainResolve]
      rw [hlk]
      simp
  · rw [hpc]
    simp only [chainResolve]
    rw [hlk]

theorem specNotDir_step (upc : Nat → Nat) (ic : Bool) (cur child : DTree)
    (path : List Nat)
    (hrest : path.dropWhile (· = WIM_PATH_SEPARATOR) ≠ [])
    (hdir : dentry_is_directory cur.dentry = true)
    (hlk : get_dentry_child_with_utf16le_name upc ic cur
        ((path.dropWhile (· = WIM_PATH_SEPARATOR)).takeWhile
          (· ≠ WIM_PATH_SEPARATOR)) = some child) :
    specNotDir upc ic cur path
      = specNotDir upc ic child
          ((path.dropWhile (· = WIM_PATH_SEPARATOR)).dropWhile
            (· ≠ WIM_PATH_SEPARATOR)) := by
  have hpc := pathComps_cons path hrest
  have hes := endsSep_step path hrest
  set r2 := (path.dropWhile (· = WIM_PATH_SEPARATOR)).dropWhile
      (· ≠ WIM_PATH_SEPARATOR) with hr2
  simp only [specNotDir, hpc, List.length_cons]
  rw [Bool.eq_iff_iff, List.any_eq_true, List.any_eq_true]
  constructor
  · rintro ⟨i, hmem, hf⟩
    rw [List.mem_range] at hmem
    cases i with
    | zero => simp [chainResolve, hdir] at hf
    | succ j =>
      simp only [List.take_succ_cons, chainResolve, hlk] at hf
      refine ⟨j, List.mem_range.mpr (by omega), ?_⟩
      cases hcr : chainResolve upc ic child ((pathComps r2).take j) with
      | none => simp [hcr] at hf
      | some d =>
        simp only [hcr, decide_eq_true_eq] at hf
        simp only [hcr, decide_eq_true_eq]
        obtain ⟨h1, h2⟩ := hf
        refine ⟨h1, ?_⟩
        rcases h2 with h | h
        · exact Or.inl (by omega)
        · exact Or.inr (by rw [hes]; exact h)
  · rintro ⟨j, hmem, hg⟩
    rw [List.mem_range] at hmem
    refine ⟨j + 1, List.mem_range.mpr (by omega), ?_⟩
    simp only [List.take_succ_cons, chainResolve, hlk]
    cases hcr : chainResolve upc ic child ((pathComps r2).take j) with
    | none => simp [hcr] at hg
    | some d =>
      simp only [hcr, decide_eq_true_eq] at hg
      simp only [hcr, decide_eq_true_eq]
      obtain ⟨h1, h2⟩ := hg
      refine ⟨h1, ?_⟩
      rcases h2 with h | h
      · exact Or.inl (by omega)
      · exact Or.inr (by rw [← hes]; exact h)

end Dentry

namespace Dentry

theorem getDentryGo_eq (upc : Nat → Nat) (ic : Bool) :
    ∀ (n : Nat) (path : List Nat) (cur : DTree), path.length ≤ n →
      getDentryGo upc ic cur path
        = (if specNotDir upc ic cur path = true then LookupResult.enotdir
           else match chainResolve upc ic cur (pathComps path) with
                | none => LookupResult.enoent
                | some d => LookupResult.found d) := by
  intro n
  induction n with
  | zero =>
    intro path cur hlen
    have hp : path = [] := List.length_eq_zero.mp (Nat.le_zero.mp hlen)
    subst hp
    have hcomps : pathComps [] = [] := pathComps_nil [] List.dropWhile_nil
    rw [getDentryGo.eq_1, if_neg (by simp), dif_pos List.dropWhile_nil]
    rw [if_neg (by
      simp [specNotDir_nilComps upc ic cur [] hcomps (Or.inr rfl)]), hcomps]
    simp [chainResolve]
  | succ n ih =>
    intro path cur hlen
    by_cases hnd : path ≠ [] ∧ ¬dentry_is_directory cur.dentry = true
    · rw [getDentryGo.eq_1, if_pos hnd,
        if_pos (specNotDir_top upc ic cur path hnd.2 hnd.1)]
    · rw [getDentryGo.eq_1, if_neg hnd]
      by_cases hrest : path.dropWhile (· = WIM_PATH_SEPARATOR) = []
      · rw [dif_pos hrest]
        have hcomps := pathComps_nil path hrest
        have hok : dentry_is_directory cur.dentry = true
            ∨ endsSep path = false := by
          by_cases hp : path = []
          · subst hp; exact Or.inr rfl
          · by_cases hdir : dentry_is_directory cur.dentry = true
            · exact Or.inl hdir
            · exact absurd ⟨hp, hdir⟩ hnd
        rw [if_neg (by
          simp [specNotDir_nilComps upc ic cur path hcomps hok]), hcomps]
        simp [chainResolve]
      · rw [dif_neg hrest]
        have hpne : path ≠ [] := by
          intro hx
          rw [hx, List.dropWhile_nil] at hrest
          exact hrest rfl
        have hdir : dentry_is_directory cur.dentry = true := by
          by_cases hdir : dentry_is_directory cur.dentry = true
          · exact hdir
          · exact absurd ⟨hpne, hdir⟩ hnd
        have hpc := pathComps_cons path hrest
        have hlt := pathStep_lt path hrest
        cases hlk : get_dentry_child_with_utf16le_name upc ic cur
            ((path.dropWhile (· = WIM_PATH_SEPARATOR)).takeWhile
              (· ≠ WIM_PATH_SEPARATOR)) with
        | none =>
          obtain ⟨hs, hcr⟩ := specNotDir_lookupNone upc ic cur path hrest hdir hlk
          dsimp only
          rw [hlk, if_neg (by simp [hs]), hcr]
        | some child =>
          dsimp only
          rw [hlk]
          show getDentryGo upc ic child
              ((path.dropWhile (· = WIM_PATH_SEPARATOR)).dropWhile
                (· ≠ WIM_PATH_SEPARATOR)) = _
          rw [ih ((path.dropWhile (· = WIM_PATH_SEPARATOR)).dropWhile
              (· ≠ WIM_PATH_SEPARATOR)) child (by omega)]
          rw [specNotDir_step upc ic cur child path hrest hdir hlk, hpc]
          simp only [chainResolve]
          rw [hlk]

end Dentry

namespace Dentry

/-- C8: semantics of WIM path lookup.  With a root dentry present and
a directory: the empty path resolves to the root; a leading path
separator is ignored; the lookup fails with the not-a-directory
sentinel exactly when some prefix of the component chain resolves to a
non-directory dentry that still has path text after it (a further
component or trailing separators, `specNotDir`); it fails with the
not-found sentinel exactly when that condition is absent and some
component is missing from its directory (the chain does not resolve);
otherwise it returns the dentry the full chain resolves to.  A missing
root yields the not-found sentinel. -/
theorem C8_get_dentry_semantics (upc : Nat → Nat) (ic : Bool)
    (root : DTree) (path : List Nat)
    (hdir : dentry_is_directory root.dentry = true) :
    (get_dentry_utf16le upc ic (some root) [] = .found root)
    ∧ (get_dentry_utf16le upc ic (some root) (WIM_PATH_SEPARATOR :: path)
        = get_dentry_utf16le upc ic (some root) path)
    ∧ (get_dentry_utf16le upc ic (some root) path = .enotdir
        ↔ specNotDir upc ic root path = true)
    ∧ (get_dentry_utf16le upc ic (some root) path = .enoent
        ↔ specNotDir upc ic root path = false
          ∧ chainResolve upc ic root (pathComps path) = none)
    ∧ (∀ d, get_dentry_utf16le upc ic (some root) path = .found d
        ↔ specNotDir upc ic root path = false
          ∧ chainResolve upc ic root (pathComps path) = some d)
    ∧ get_dentry_utf16le upc ic none path = .enoent := by
  have hmain := getDentryGo_eq upc ic path.length path root le_rfl
  refine ⟨?_, ?_, ?_, ?_, ?_, rfl⟩
  · show getDentryGo upc ic root [] = .found root
    rw [getDentryGo.eq_1, if_neg (by simp), dif_pos List.dropWhile_nil]
  · show getDentryGo upc ic root (WIM_PATH_SEPARATOR :: path)
        = getDentryGo upc ic root path
    have hdw : (WIM_PATH_SEPARATOR :: path).dropWhile (· = WIM_PATH_SEPARATOR)
        = path.dropWhile (· = WIM_PATH_SEPARATOR) := by
      simp [List.dropWhile_cons]
    conv_lhs => rw [getDentryGo.eq_1]
    conv_rhs => rw [getDentryGo.eq_1]
    rw [if_neg (fun hx => hx.2 hdir), if_neg (fun hx => hx.2 hdir), hdw]
  · show getDentryGo upc ic root path = .enotdir ↔ _
    rw [hmain]
    by_cases hs : specNotDir upc ic root path = true
    · simp [hs]
    · rw [if_neg hs]
      cases hc : chainResolve upc ic root (pathComps path) <;> simp [hs, hc]
  · show getDentryGo upc ic root path = .enoent ↔ _
    rw [hmain]
    by_cases hs : specNotDir upc ic root path = true
    · simp [hs]
    · have hs' : specNotDir upc ic root path = false := by simpa using hs
      rw [if_neg hs]
      cases hc : chainResolve upc ic root (pathComps path) <;> simp [hs', hc]
  · intro d
    show getDentryGo upc ic root path = .found d ↔ _
    rw [hmain]
    by_cases hs : specNotDir upc ic root path = true
    · simp [hs]
    · have hs' : specNotDir upc ic root path = false := by simpa using hs
      rw [if_neg hs]
      cases hc : chainResolve upc ic root (pathComps path) <;> simp [hs', hc]

/-- Witness for C8 on the concrete tree `c9Root` (a directory root):
the empty path yields the root, a single leading separator is ignored,
and a missing root yields the not-found sentinel. -/
theorem C8_get_dentry_semantics_witness :
    (get_dentry_utf16le (fun u => u) false (some XmlWindows.c9Root) []
      = .found XmlWindows.c9Root)
    ∧ (get_dentry_utf16le (fun u => u) false (some XmlWindows.c9Root)
          (WIM_PATH_SEPARATOR :: [])
        = get_dentry_utf16le (fun u => u) false (some XmlWindows.c9Root) [])
    ∧ get_dentry_utf16le (fun u => u) false none [] = .enoent := by
  have h := C8_get_dentry_semantics (fun u => u) false XmlWindows.c9Root []
    (by rfl)
  exact ⟨h.1, h.2.1, h.2.2.2.2.2⟩

end Dentry

namespace LzmsCommon

theorem list_eq_of_getD : ∀ (l₁ l₂ : List Nat), l₁.length = l₂.length →
    (∀ j, l₁.getD j 0 = l₂.getD j 0) → l₁ = l₂
  | [], [], _, _ => rfl
  | [], b :: bs, hlen, _ => by simp at hlen
  | a :: as, [], hlen, _ => by simp at hlen
  | a :: as, b :: bs, hlen, h => by
    have h0 := h 0
    simp only [List.getD_cons_zero] at h0
    subst h0
    have := list_eq_of_getD as bs (by simpa using hlen)
      (fun j => by simpa using h (j + 1))
    rw [this]

theorem byteBound (l : List Nat) (h : ∀ b ∈ l, b < 256) :
    ∀ j, l.getD j 0 < 256 := by
  intro j
  by_cases hj : j < l.length
  · have : l.getD j 0 ∈ l := by
      rw [List.getD_eq_getElem l 0 hj]
      exact List.getElem_mem hj
    exact h _ this
  · rw [List.getD_eq_default l 0 (by omega)]
    omega

theorem write32_length (d : List Nat) (p v : Nat) :
    (write32 d p v).length = d.length := by
  simp [write32]

theorem write32_getD_out (d : List Nat) (p v j : Nat)
    (h : j < p ∨ p + 3 < j) : (write32 d p v).getD j 0 = d.getD j 0 := by
  unfold write32
  rw [Dentry.getD_set_ne _ _ _ _ _ (by omega), Dentry.getD_set_ne _ _ _ _ _ (by omega),
    Dentry.getD_set_ne _ _ _ _ _ (by omega), Dentry.getD_set_ne _ _ _ _ _ (by omega)]

theorem write32_getD_in (d : List Nat) (p v : Nat) (hlen : p + 3 < d.length) :
    (write32 d p v).getD p 0 = v % 256
    ∧ (write32 d p v).getD (p + 1) 0 = v / 256 % 256
    ∧ (write32 d p v).getD (p + 2) 0 = v / 65536 % 256
    ∧ (write32 d p v).getD (p + 3) 0 = v / 16777216 % 256 := by
  unfold write32
  refine ⟨?_, ?_, ?_, ?_⟩
  · rw [Dentry.getD_set_ne _ _ _ _ _ (by omega), Dentry.getD_set_ne _ _ _ _ _ (by omega),
      Dentry.getD_set_ne _ _ _ _ _ (by omega),
      Dentry.getD_set_self _ _ _ _ (by omega)]
  · rw [Dentry.getD_set_ne _ _ _ _ _ (by omega), Dentry.getD_set_ne _ _ _ _ _ (by omega),
      Dentry.getD_set_self _ _ _ _ (by simp; omega)]
  · rw [Dentry.getD_set_ne _ _ _ _ _ (by omega),
      Dentry.getD_set_self _ _ _ _ (by simp; omega)]
  · rw [Dentry.getD_set_self _ _ _ _ (by simp; omega)]

theorem le32_write32 (d : List Nat) (p v : Nat) (hlen : p + 3 < d.length) :
    le32 (write32 d p v) p = v % 4294967296 := by
  obtain ⟨h0, h1, h2, h3⟩ := write32_getD_in d p v hlen
  unfold le32
  rw [h0, h1, h2, h3]
  omega

theorem le16_write32 (d : List Nat) (p v : Nat) (hlen : p + 3 < d.length) :
    le16 (write32 d p v) p = v % 65536 := by
  obtain ⟨h0, h1, _, _⟩ := write32_getD_in d p v hlen
  unfold le16
  rw [h0, h1]
  omega

theorem le32_bound (d : List Nat) (p : Nat) (hb : ∀ j, d.getD j 0 < 256) :
    le32 d p < 4294967296 := by
  have b0 := hb p
  have b1 := hb (p + 1)
  have b2 := hb (p + 2)
  have b3 := hb (p + 3)
  unfold le32
  omega

theorem le16_eq_le32_mod (d : List Nat) (p : Nat)
    (hb : ∀ j, d.getD j 0 < 256) :
    le16 d p = le32 d p % 65536 := by
  have b0 := hb p
  have b1 := hb (p + 1)
  unfold le16 le32
  omega

theorem write32_restore (d f : List Nat) (p : Nat)
    (hb : ∀ j, d.getD j 0 < 256) (hlen : p + 3 < d.length)
    (hflen : f.length = d.length) :
    ∀ j, (write32 f p (le32 d p)).getD j 0
      = if p ≤ j ∧ j ≤ p + 3 then d.getD j 0 else f.getD j 0 := by
  intro j
  by_cases hj : p ≤ j ∧ j ≤ p + 3
  · rw [if_pos hj]
    obtain ⟨h0, h1, h2, h3⟩ := write32_getD_in f p (le32 d p) (by omega)
    have b0 := hb p
    have b1 := hb (p + 1)
    have b2 := hb (p + 2)
    have b3 := hb (p + 3)
    rcases (by omega : j = p ∨ j = p + 1 ∨ j = p + 2 ∨ j = p + 3) with
      h | h | h | h <;> subst h
    · rw [h0]; unfold le32; omega
    · rw [h1]; unfold le32; omega
    · rw [h2]; unfold le32; omega
    · rw [h3]; unfold le32; omega
  · rw [if_neg hj]
    exact write32_getD_out f p (le32 d p) j (by omega)

theorem write32_bound (d : List Nat) (p v : Nat)
    (hb : ∀ j, d.getD j 0 < 256) :
    ∀ j, (write32 d p v).getD j 0 < 256 := by
  intro j
  by_cases hj : p ≤ j ∧ j ≤ p + 3
  · by_cases hlen : p + 3 < d.length
    · obtain ⟨h0, h1, h2, h3⟩ := write32_getD_in d p v hlen
      rcases (by omega : j = p ∨ j = p + 1 ∨ j = p + 2 ∨ j = p + 3) with
        h | h | h | h <;> subst h
      · rw [h0]; omega
      · rw [h1]; omega
      · rw [h2]; omega
      · rw [h3]; omega
    · by_cases hj2 : j < d.length
      · -- the partial tail of an out-of-range write still stores bytes
        rcases (by omega : j = p ∨ j = p + 1 ∨ j = p + 2 ∨ j = p + 3) with
          h | h | h | h <;> subst h <;> unfold write32
        · rw [Dentry.getD_set_ne _ _ _ _ _ (by omega), Dentry.getD_set_ne _ _ _ _ _ (by omega),
            Dentry.getD_set_ne _ _ _ _ _ (by omega),
            Dentry.getD_set_self _ _ _ _ (by omega)]
          omega
        · rw [Dentry.getD_set_ne _ _ _ _ _ (by omega), Dentry.getD_set_ne _ _ _ _ _ (by omega),
            Dentry.getD_set_self _ _ _ _ (by simp; omega)]
          omega
        · rw [Dentry.getD_set_ne _ _ _ _ _ (by omega),
            Dentry.getD_set_self _ _ _ _ (by simp; omega)]
          omega
        · rw [Dentry.getD_set_self _ _ _ _ (by simp; omega)]
          omega
      · rw [List.getD_eq_default _ 0 (by rw [write32_length]; omega)]
        omega
  · rw [write32_getD_out d p v j (by omega)]
    exact hb j

end LzmsCommon

namespace LzmsCommon

theorem cls_pos (maxTrans : Int) (d : List Nat) (i : Nat) :
    1 ≤ (lzms_may_x86_translate maxTrans d i).1 := by
  simp only [lzms_may_x86_translate]
  split_ifs <;> simp

theorem cls_shape (maxTrans : Int) (d : List Nat) (i : Nat)
    (hc : (lzms_may_x86_translate maxTrans d i).2 ≠ 0) :
    ((lzms_may_x86_translate maxTrans d i).1 = 1 ∧ d.getD i 0 = 0xe8)
    ∨ ((lzms_may_x86_translate maxTrans d i).1 = 2 ∧ d.getD i 0 = 0xff)
    ∨ ((lzms_may_x86_translate maxTrans d i).1 = 3
        ∧ (d.getD i 0 = 0x48 ∨ d.getD i 0 = 0x4c ∨ d.getD i 0 = 0xf0)) := by
  simp only [lzms_may_x86_translate] at hc ⊢
  split_ifs at hc ⊢ <;> simp_all

theorem cls_cong (maxTrans : Int) (d d' : List Nat) (i : Nat)
    (h0 : d'.getD i 0 = d.getD i 0)
    (h1 : d.getD i 0 ≠ 0xe8 → d'.getD (i + 1) 0 = d.getD (i + 1) 0)
    (h2 : ((d.getD i 0 = 0x48
          ∧ (d.getD (i + 1) 0 = 0x8b ∨ d.getD (i + 1) 0 = 0x8d))
        ∨ (d.getD i 0 = 0x4c ∧ d.getD (i + 1) 0 = 0x8d)
        ∨ (d.getD i 0 = 0xf0 ∧ d.getD (i + 1) 0 = 0x83))
      → d'.getD (i + 2) 0 = d.getD (i + 2) 0) :
    lzms_may_x86_translate maxTrans d' i = lzms_may_x86_translate maxTrans d i := by
  simp only [lzms_may_x86_translate]
  set a' := d'.getD i 0 with ha'
  set b' := d'.getD (i + 1) 0 with hb'
  set c' := d'.getD (i + 2) 0 with hc'
  set a := d.getD i 0 with ha
  set b := d.getD (i + 1) 0 with hb
  set c := d.getD (i + 2) 0 with hc
  rw [h0]
  by_cases he8 : a = 232
  · simp [he8]
  · rw [h1 he8]
    by_cases hp2 : (a = 72 ∧ (b = 139 ∨ b = 141)) ∨ (a = 76 ∧ b = 141)
        ∨ (a = 240 ∧ b = 131)
    · rw [h2 hp2]
    · by_cases hA : a = 72
      · have hb1 : b ≠ 139 := fun hx => hp2 (Or.inl ⟨hA, Or.inl hx⟩)
        have hb2 : b ≠ 141 := fun hx => hp2 (Or.inl ⟨hA, Or.inr hx⟩)
        simp [hA, hb1, hb2]
      · by_cases hB : a = 76
        · have hb1 : b ≠ 141 := fun hx => hp2 (Or.inr (Or.inl ⟨hB, hx⟩))
          simp [hA, hB, hb1]
        · by_cases hC : a = 240
          · have hb1 : b ≠ 131 := fun hx => hp2 (Or.inr (Or.inr ⟨hC, hx⟩))
            simp [hA, hB, hC, hb1, he8]
          · simp [hA, hB, hC, he8]

theorem cls_nonstart (maxTrans : Int) (d : List Nat) (i : Nat)
    (hp : d.getD i 0 ≠ 0x48 ∧ d.getD i 0 ≠ 0x4c ∧ d.getD i 0 ≠ 0xe8
      ∧ d.getD i 0 ≠ 0xe9 ∧ d.getD i 0 ≠ 0xf0 ∧ d.getD i 0 ≠ 0xff) :
    lzms_may_x86_translate maxTrans d i = (1, 0) := by
  simp only [lzms_may_x86_translate]
  set a := d.getD i 0 with ha
  simp [hp.1, hp.2.1, hp.2.2.1, hp.2.2.2.1, hp.2.2.2.2.1, hp.2.2.2.2.2]

theorem mdxt_length (good : Int) (data : List Nat) (i nop : Nat) (ctu : Int)
    (ltu : Nat → Int) (mto : Int) (u : Bool) :
    (lzms_maybe_do_x86_translation good data i nop ctu ltu mto u).1.length
      = data.length := by
  simp only [lzms_maybe_do_x86_translation]
  split_ifs <;> simp [write32_length]

theorem mdxt_i (good : Int) (data : List Nat) (i nop : Nat) (ctu : Int)
    (ltu : Nat → Int) (mto : Int) (u : Bool) :
    (lzms_maybe_do_x86_translation good data i nop ctu ltu mto u).2.2.2
      = i + nop + 4 := by
  simp only [lzms_maybe_do_x86_translation]
  split_ifs <;> rfl

theorem mdxt_low (good : Int) (data : List Nat) (i nop : Nat) (ctu : Int)
    (ltu : Nat → Int) (mto : Int) (u : Bool) (j : Nat) (hj : j < i + nop) :
    (lzms_maybe_do_x86_translation good data i nop ctu ltu mto u).1.getD j 0
      = data.getD j 0 := by
  simp only [lzms_maybe_do_x86_translation]
  split_ifs <;>
    first
      | rfl
      | exact write32_getD_out data (i + nop) _ j (by omega)

theorem mdxt_bound (good : Int) (data : List Nat) (i nop : Nat) (ctu : Int)
    (ltu : Nat → Int) (mto : Int) (u : Bool)
    (hb : ∀ j, data.getD j 0 < 256) :
    ∀ j, (lzms_maybe_do_x86_translation good data i nop ctu ltu mto u).1.getD j 0
      < 256 := by
  intro j
  simp only [lzms_maybe_do_x86_translation]
  split_ifs <;>
    first
      | exact hb j
      | exact write32_bound data (i + nop) _ hb j

theorem filterGo_length (good : Int) (size : Nat) (u : Bool) (maxTrans : Int) :
    ∀ (fuel : Nat) (data : List Nat) (i : Nat) (ctu : Int) (ltu : Nat → Int),
    (filterGo good size u maxTrans fuel data i ctu ltu).length = data.length
  | 0, data, _, _, _ => rfl
  | fuel + 1, data, i, ctu, ltu => by
    simp only [filterGo]
    split_ifs
    · rw [filterGo_length good size u maxTrans fuel _ _ _ _, mdxt_length]
    · rw [filterGo_length good size u maxTrans fuel _ _ _ _]
    · rfl

theorem filterGo_frame (good : Int) (size : Nat) (u : Bool) (maxTrans : Int) :
    ∀ (fuel : Nat) (data : List Nat) (i : Nat) (ctu : Int) (ltu : Nat → Int)
      (j : Nat), j ≤ i →
    (filterGo good size u maxTrans fuel data i ctu ltu).getD j 0
      = data.getD j 0
  | 0, data, _, _, _, _, _ => rfl
  | fuel + 1, data, i, ctu, ltu, j, hj => by
    simp only [filterGo]
    split_ifs with hg hc
    · have hnop := cls_pos maxTrans data i
      rw [filterGo_frame good size u maxTrans fuel _ _ _ _ j
          (by rw [mdxt_i]; omega)]
      exact mdxt_low good data i _ ctu ltu _ u j (by omega)
    · exact filterGo_frame good size u maxTrans fuel data _ ctu ltu j (by omega)
    · rfl

theorem filterGo_bound (good : Int) (size : Nat) (u : Bool) (maxTrans : Int) :
    ∀ (fuel : Nat) (data : List Nat) (i : Nat) (ctu : Int) (ltu : Nat → Int),
    (∀ j, data.getD j 0 < 256) →
    ∀ j, (filterGo good size u maxTrans fuel data i ctu ltu).getD j 0 < 256
  | 0, _, _, _, _, hb, j => hb j
  | fuel + 1, data, i, ctu, ltu, hb, j => by
    simp only [filterGo]
    split_ifs with hg hc
    · exact filterGo_bound good size u maxTrans fuel _ _ _ _
        (mdxt_bound good data i _ ctu ltu _ u hb) j
    · exact filterGo_bound good size u maxTrans fuel data _ ctu ltu hb j
    · exact hb j

end LzmsCommon

namespace LzmsCommon

theorem set_cong (l l' : List Nat) (k a j : Nat)
    (hlen : l'.length = l.length) (hj : l'.getD j 0 = l.getD j 0) :
    (l'.set k a).getD j 0 = (l.set k a).getD j 0 := by
  by_cases hjk : j = k
  · subst hjk
    by_cases hk : j < l.length
    · rw [Dentry.getD_set_self _ _ _ _ (by omega),
        Dentry.getD_set_self _ _ _ _ hk]
    · rw [List.set_eq_of_length_le (by omega), List.set_eq_of_length_le (by omega)]
      exact hj
  · rw [Dentry.getD_set_ne _ _ _ _ _ hjk, Dentry.getD_set_ne _ _ _ _ _ hjk]
    exact hj

theorem write32_cong (d d' : List Nat) (p v j : Nat)
    (hlen : d'.length = d.length) (hj : d'.getD j 0 = d.getD j 0) :
    (write32 d' p v).getD j 0 = (write32 d p v).getD j 0 := by
  unfold write32
  apply set_cong _ _ _ _ _ (by simp [hlen])
  apply set_cong _ _ _ _ _ (by simp [hlen])
  apply set_cong _ _ _ _ _ (by simp [hlen])
  exact set_cong _ _ _ _ _ hlen hj

theorem mdxt_cong (good : Int) (data data' : List Nat) (i nop : Nat)
    (ctu : Int) (ltu : Nat → Int) (mto : Int) (u : Bool) (i₀ : Nat)
    (hi : i₀ ≤ i) (hlen : data'.length = data.length)
    (hag : ∀ j, i₀ ≤ j → data'.getD j 0 = data.getD j 0) :
    (lzms_maybe_do_x86_translation good data' i nop ctu ltu mto u).2
      = (lzms_maybe_do_x86_translation good data i nop ctu ltu mto u).2
    ∧ ∀ j, i₀ ≤ j →
      (lzms_maybe_do_x86_translation good data' i nop ctu ltu mto u).1.getD j 0
        = (lzms_maybe_do_x86_translation good data i nop ctu ltu mto u).1.getD j 0 := by
  have hle16 : le16 data' (i + nop) = le16 data (i + nop) := by
    unfold le16
    rw [hag _ (by omega), hag _ (by omega)]
  have hle32 : le32 data' (i + nop) = le32 data (i + nop) := by
    unfold le32
    rw [hag _ (by omega), hag _ (by omega), hag _ (by omega), hag _ (by omega)]
  simp only [lzms_maybe_do_x86_translation]
  cases u with
  | true =>
    simp only [if_true]
    by_cases htr : (i : Int) - ctu ≤ mto
    · simp only [if_pos htr, hle32]
      have hagg : ∀ j, i₀ ≤ j →
          (write32 data' (i + nop)
              ((le32 data (i + nop) + 4294967296 - i % 4294967296)
                % 4294967296)).getD j 0
            = (write32 data (i + nop)
              ((le32 data (i + nop) + 4294967296 - i % 4294967296)
                % 4294967296)).getD j 0 :=
        fun j hj => write32_cong data data' (i + nop) _ j hlen (hag j hj)
      have hpos : le16 (write32 data' (i + nop)
            ((le32 data (i + nop) + 4294967296 - i % 4294967296)
              % 4294967296)) (i + nop)
          = le16 (write32 data (i + nop)
            ((le32 data (i + nop) + 4294967296 - i % 4294967296)
              % 4294967296)) (i + nop) := by
        unfold le16
        rw [hagg _ (by omega), hagg _ (by omega)]
      rw [hpos]
      exact ⟨by first | rfl | trivial, hagg⟩
    · simp only [if_neg htr, hle16]
      exact ⟨by first | rfl | trivial, hag⟩
  | false =>
    simp only [Bool.false_eq_true, if_false]
    by_cases htr : (i : Int) - ctu ≤ mto
    · simp only [if_pos htr, hle32, hle16]
      exact ⟨by first | rfl | trivial, fun j hj =>
        write32_cong data data' (i + nop) _ j hlen (hag j hj)⟩
    · simp only [if_neg htr, hle16]
      exact ⟨by first | rfl | trivial, hag⟩

theorem filterGo_cong (good : Int) (size : Nat) (u : Bool) (maxTrans : Int) :
    ∀ (fuel : Nat) (i : Nat) (ctu : Int) (ltu : Nat → Int)
      (data data' : List Nat) (i₀ : Nat),
    i₀ ≤ i → data'.length = data.length →
    (∀ j, i₀ ≤ j → data'.getD j 0 = data.getD j 0) →
    ∀ j, i₀ ≤ j →
      (filterGo good size u maxTrans fuel data' i ctu ltu).getD j 0
        = (filterGo good size u maxTrans fuel data i ctu ltu).getD j 0
  | 0 => fun i ctu ltu data data' i₀ _ _ hag j hj => hag j hj
  | fuel + 1 => by
    intro i ctu ltu data data' i₀ hi hlen hag j hj
    simp only [filterGo]
    by_cases hg : i + 11 < size
    · rw [if_pos hg, if_pos hg]
      have hcls : lzms_may_x86_translate maxTrans data' i
          = lzms_may_x86_translate maxTrans data i :=
        cls_cong maxTrans data data' i (hag i (by omega))
          (fun _ => hag (i + 1) (by omega)) (fun _ => hag (i + 2) (by omega))
      rw [hcls]
      by_cases hc : (lzms_may_x86_translate maxTrans data i).2 ≠ 0
      · rw [if_pos hc, if_pos hc]
        obtain ⟨hst, hbuf⟩ := mdxt_cong good data data' i
          (lzms_may_x86_translate maxTrans data i).1 ctu ltu
          (lzms_may_x86_translate maxTrans data i).2 u i₀ hi hlen hag
        rw [hst]
        exact filterGo_cong good size u maxTrans fuel _ _ _ _ _ i₀
          (by rw [mdxt_i]; omega)
          (by rw [mdxt_length, mdxt_length, hlen]) hbuf j hj
      · rw [if_neg hc, if_neg hc]
        exact filterGo_cong good size u maxTrans fuel _ _ _ _ _ i₀
          (by omega) hlen hag j hj
    · rw [if_neg hg, if_neg hg]
      exact hag j hj

end LzmsCommon

namespace LzmsCommon

theorem mdxt_out (good : Int) (data : List Nat) (i nop : Nat) (ctu : Int)
    (ltu : Nat → Int) (mto : Int) (u : Bool) (j : Nat)
    (hj : j < i + nop ∨ i + nop + 3 < j) :
    (lzms_maybe_do_x86_translation good data i nop ctu ltu mto u).1.getD j 0
      = data.getD j 0 := by
  simp only [lzms_maybe_do_x86_translation]
  split_ifs <;>
    first
      | rfl
      | exact write32_getD_out data (i + nop) _ j hj

/-- One translation step and its inverse: if `F` agrees below
`i + nop + 4` with the forward-translated buffer, the undo step on `F`
recomputes the same window `pos`, the same state, and restores the
original operand bytes. -/
theorem mdxt_step_undo (good : Int) (data F : List Nat) (i nop : Nat)
    (ctu : Int) (ltu : Nat → Int) (mto : Int)
    (hp3 : i + nop + 3 < data.length)
    (hb : ∀ j, data.getD j 0 < 256)
    (hFlen : F.length = data.length)
    (hFagree : ∀ j, j ≤ i + nop + 4 → F.getD j 0
      = (lzms_maybe_do_x86_translation good data i nop ctu ltu mto false).1.getD j 0) :
    (lzms_maybe_do_x86_translation good F i nop ctu ltu mto true).2
      = (lzms_maybe_do_x86_translation good data i nop ctu ltu mto false).2
    ∧ (∀ j, (lzms_maybe_do_x86_translation good F i nop ctu ltu mto true).1.getD j 0
        = (if i + nop ≤ j ∧ j ≤ i + nop + 3 then data.getD j 0 else F.getD j 0))
    ∧ (lzms_maybe_do_x86_translation good F i nop ctu ltu mto true).1.length
      = F.length := by
  by_cases htr : (i : Int) - ctu ≤ mto
  · -- the translation was applied and is now reverted
    have hfwd1 : (lzms_maybe_do_x86_translation good data i nop ctu ltu mto false).1
        = write32 data (i + nop) ((le32 data (i + nop) + i) % 4294967296) := by
      simp only [lzms_maybe_do_x86_translation, Bool.false_eq_true, if_false,
        if_pos htr]
    set v := (le32 data (i + nop) + i) % 4294967296 with hv
    have he : le32 F (i + nop) = le32 (write32 data (i + nop) v) (i + nop) := by
      unfold le32
      rw [hFagree _ (by omega), hFagree _ (by omega), hFagree _ (by omega),
        hFagree _ (by omega), hfwd1]
    have hle32F : le32 F (i + nop) = v := by
      rw [he, le32_write32 data _ v hp3, hv]
      omega
    have hvb := le32_bound data (i + nop) hb
    have hundoval : (le32 F (i + nop) + 4294967296 - i % 4294967296) % 4294967296
        = le32 data (i + nop) := by
      rw [hle32F, hv]
      omega
    have hundo1 : (lzms_maybe_do_x86_translation good F i nop ctu ltu mto true).1
        = write32 F (i + nop) (le32 data (i + nop)) := by
      simp only [lzms_maybe_do_x86_translation, if_true, if_pos htr, hundoval]
    have hres := write32_restore data F (i + nop) hb hp3 hFlen
    have hle16u : le16 (write32 F (i + nop) (le32 data (i + nop))) (i + nop)
        = le16 data (i + nop) := by
      rw [le16_write32 F (i + nop) _ (by omega),
        le16_eq_le32_mod data (i + nop) hb]
    refine ⟨?_, ?_, ?_⟩
    · simp only [lzms_maybe_do_x86_translation, if_true, Bool.false_eq_true,
        if_false, if_pos htr, hundoval, hle16u]
    · intro j
      rw [hundo1, hres j]
    · rw [hundo1, write32_length]
  · -- no translation either way
    have hfwd1 : (lzms_maybe_do_x86_translation good data i nop ctu ltu mto false).1
        = data := by
      simp only [lzms_maybe_do_x86_translation, Bool.false_eq_true, if_false,
        if_neg htr]
    have hle16F : le16 F (i + nop) = le16 data (i + nop) := by
      unfold le16
      rw [hFagree _ (by omega), hFagree _ (by omega), hfwd1]
    refine ⟨?_, ?_, ?_⟩
    · simp only [lzms_maybe_do_x86_translation, if_true, Bool.false_eq_true,
        if_false, if_neg htr, hle16F]
    · intro j
      have hundo1 : (lzms_maybe_do_x86_translation good F i nop ctu ltu mto true).1
          = F := by
        simp only [lzms_maybe_do_x86_translation, if_true, if_neg htr]
      rw [hundo1]
      by_cases hj : i + nop ≤ j ∧ j ≤ i + nop + 3
      · rw [if_pos hj, hFagree j (by omega), hfwd1]
      · rw [if_neg hj]
    · have hundo1 : (lzms_maybe_do_x86_translation good F i nop ctu ltu mto true).1
          = F := by
        simp only [lzms_maybe_do_x86_translation, if_true, if_neg htr]
      rw [hundo1]

end LzmsCommon

namespace LzmsCommon

theorem filterGo_frame2 (good : Int) (size : Nat) (u : Bool) (maxTrans : Int)
    (fuel : Nat) (data : List Nat) (s : Nat) (ctu : Int) (ltu : Nat → Int)
    (hns : data.getD s 0 ≠ 0x48 ∧ data.getD s 0 ≠ 0x4c ∧ data.getD s 0 ≠ 0xe8
      ∧ data.getD s 0 ≠ 0xe9 ∧ data.getD s 0 ≠ 0xf0 ∧ data.getD s 0 ≠ 0xff) :
    (filterGo good size u maxTrans fuel data s ctu ltu).getD (s + 1) 0
      = data.getD (s + 1) 0 := by
  cases fuel with
  | zero => rfl
  | succ fuel =>
    simp only [filterGo]
    by_cases hg : s + 11 < size
    · rw [if_pos hg, cls_nonstart maxTrans data s hns,
        if_neg (by simp)]
      exact filterGo_frame good size u maxTrans fuel data (s + 1) ctu ltu
        (s + 1) le_rfl
    · rw [if_neg hg]

end LzmsCommon

namespace LzmsCommon

theorem filter_inverse (good maxTrans : Int) (size : Nat) :
    ∀ (fuel : Nat) (data : List Nat) (i : Nat) (ctu : Int) (ltu : Nat → Int),
    size ≤ data.length →
    (∀ j, data.getD j 0 < 256) →
    filterGo good size true maxTrans fuel
        (filterGo good size false maxTrans fuel data i ctu ltu) i ctu ltu
      = data
  | 0, data, i, ctu, ltu, _, _ => rfl
  | fuel + 1, data, i, ctu, ltu, hsz, hb => by
    by_cases hg : i + 11 < size
    · by_cases hc : (lzms_may_x86_translate maxTrans data i).2 ≠ 0
      · -- a translated position
        have hshape := cls_shape maxTrans data i hc
        have hnop1 := cls_pos maxTrans data i
        have hnop3 : (lzms_may_x86_translate maxTrans data i).1 ≤ 3 := by
          rcases hshape with ⟨h, _⟩ | ⟨h, _⟩ | ⟨h, _⟩ <;> omega
        have hp3 : i + (lzms_may_x86_translate maxTrans data i).1 + 3
            < data.length := by omega
        have hfwd : filterGo good size false maxTrans (fuel + 1) data i ctu ltu
            = filterGo good size false maxTrans fuel
                (lzms_maybe_do_x86_translation good data i
                  (lzms_may_x86_translate maxTrans data i).1 ctu ltu
                  (lzms_may_x86_translate maxTrans data i).2 false).1
                (lzms_maybe_do_x86_translation good data i
                  (lzms_may_x86_translate maxTrans data i).1 ctu ltu
                  (lzms_may_x86_translate maxTrans data i).2 false).2.2.2
                (lzms_maybe_do_x86_translation good data i
                  (lzms_may_x86_translate maxTrans data i).1 ctu ltu
                  (lzms_may_x86_translate maxTrans data i).2 false).2.1
                (lzms_maybe_do_x86_translation good data i
                  (lzms_may_x86_translate maxTrans data i).1 ctu ltu
                  (lzms_may_x86_translate maxTrans data i).2 false).2.2.1 := by
          simp only [filterGo]
          rw [if_pos hg, if_pos hc]
        have hri : (lzms_maybe_do_x86_translation good data i
            (lzms_may_x86_translate maxTrans data i).1 ctu ltu
            (lzms_may_x86_translate maxTrans data i).2 false).2.2.2
          = i + (lzms_may_x86_translate maxTrans data i).1 + 4 := mdxt_i _ _ _ _ _ _ _ _
        have hlenr : (lzms_maybe_do_x86_translation good data i
            (lzms_may_x86_translate maxTrans data i).1 ctu ltu
            (lzms_may_x86_translate maxTrans data i).2 false).1.length
          = data.length := mdxt_length _ _ _ _ _ _ _ _
        have hbr := mdxt_bound good data i
          (lzms_may_x86_translate maxTrans data i).1 ctu ltu
          (lzms_may_x86_translate maxTrans data i).2 false hb
        rw [hfwd]
        have hlenF : (filterGo good size false maxTrans fuel
            (lzms_maybe_do_x86_translation good data i
              (lzms_may_x86_translate maxTrans data i).1 ctu ltu
              (lzms_may_x86_translate maxTrans data i).2 false).1
            (lzms_maybe_do_x86_translation good data i
              (lzms_may_x86_translate maxTrans data i).1 ctu ltu
              (lzms_may_x86_translate maxTrans data i).2 false).2.2.2
            (lzms_maybe_do_x86_translation good data i
              (lzms_may_x86_translate maxTrans data i).1 ctu ltu
              (lzms_may_x86_translate maxTrans data i).2 false).2.1
            (lzms_maybe_do_x86_translation good data i
              (lzms_may_x86_translate maxTrans data i).1 ctu ltu
              (lzms_may_x86_translate maxTrans data i).2 false).2.2.1).length
          = data.length := by
          rw [filterGo_length, hlenr]
        have hFagree : ∀ j, j ≤ i + (lzms_may_x86_translate maxTrans data i).1 + 4 →
            (filterGo good size false maxTrans fuel
              (lzms_maybe_do_x86_translation good data i
                (lzms_may_x86_translate maxTrans data i).1 ctu ltu
                (lzms_may_x86_translate maxTrans data i).2 false).1
              (lzms_maybe_do_x86_translation good data i
                (lzms_may_x86_translate maxTrans data i).1 ctu ltu
                (lzms_may_x86_translate maxTrans data i).2 false).2.2.2
              (lzms_maybe_do_x86_translation good data i
                (lzms_may_x86_translate maxTrans data i).1 ctu ltu
                (lzms_may_x86_translate maxTrans data i).2 false).2.1
              (lzms_maybe_do_x86_translation good data i
                (lzms_may_x86_translate maxTrans data i).1 ctu ltu
                (lzms_may_x86_translate maxTrans data i).2 false).2.2.1).getD j 0
            = (lzms_maybe_do_x86_translation good data i
                (lzms_may_x86_translate maxTrans data i).1 ctu ltu
                (lzms_may_x86_translate maxTrans data i).2 false).1.getD j 0 := by
          intro j hj
          exact filterGo_frame good size false maxTrans fuel _ _ _ _ j
            (by rw [hri]; omega)
        obtain ⟨hstate, hbuf, hlenU⟩ := mdxt_step_undo good data _ i
          (lzms_may_x86_translate maxTrans data i).1 ctu ltu
          (lzms_may_x86_translate maxTrans data i).2 hp3 hb hlenF hFagree
        have hcls : lzms_may_x86_translate maxTrans
            (filterGo good size false maxTrans fuel
              (lzms_maybe_do_x86_translation good data i
                (lzms_may_x86_translate maxTrans data i).1 ctu ltu
                (lzms_may_x86_translate maxTrans data i).2 false).1
              (lzms_maybe_do_x86_translation good data i
                (lzms_may_x86_translate maxTrans data i).1 ctu ltu
                (lzms_may_x86_translate maxTrans data i).2 false).2.2.2
              (lzms_maybe_do_x86_translation good data i
                (lzms_may_x86_translate maxTrans data i).1 ctu ltu
                (lzms_may_x86_translate maxTrans data i).2 false).2.1
              (lzms_maybe_do_x86_translation good data i
                (lzms_may_x86_translate maxTrans data i).1 ctu ltu
                (lzms_may_x86_translate maxTrans data i).2 false).2.2.1) i
            = lzms_may_x86_translate maxTrans data i := by
          apply cls_cong
          · rw [hFagree i (by omega)]
            exact mdxt_out good data i _ ctu ltu _ false i (Or.inl (by omega))
          · intro hne
            have hnop2 : 2 ≤ (lzms_may_x86_translate maxTrans data i).1 := by
              rcases hshape with ⟨h1, h2⟩ | ⟨h1, _⟩ | ⟨h1, _⟩
              · exact absurd h2 hne
              · omega
              · omega
            rw [hFagree (i + 1) (by omega)]
            exact mdxt_out good data i _ ctu ltu _ false (i + 1) (Or.inl (by omega))
          · intro hpre
            have hnop3' : (lzms_may_x86_translate maxTrans data i).1 = 3 := by
              rcases hshape with ⟨h1, h2⟩ | ⟨h1, h2⟩ | ⟨h1, h2⟩
              · rcases hpre with ⟨hp, _⟩ | ⟨hp, _⟩ | ⟨hp, _⟩ <;> omega
              · rcases hpre with ⟨hp, _⟩ | ⟨hp, _⟩ | ⟨hp, _⟩ <;> omega
              · exact h1
            rw [hFagree (i + 2) (by omega)]
            exact mdxt_out good data i _ ctu ltu _ false (i + 2)
              (Or.inl (by omega))
        simp only [filterGo]
        rw [if_pos hg, hcls, if_pos hc, hstate]
        apply list_eq_of_getD
        · rw [filterGo_length, hlenU, hlenF]
        · intro j
          by_cases hji : j < i + (lzms_may_x86_translate maxTrans data i).1 + 4
          · rw [filterGo_frame good size true maxTrans fuel _ _ _ _ j
              (by rw [hri]; omega), hbuf j]
            by_cases hjp : i + (lzms_may_x86_translate maxTrans data i).1 ≤ j
              ∧ j ≤ i + (lzms_may_x86_translate maxTrans data i).1 + 3
            · rw [if_pos hjp]
            · rw [if_neg hjp, hFagree j (by omega)]
              exact mdxt_out good data i _ ctu ltu _ false j (Or.inl (by omega))
          · have hAg : ∀ j', i + (lzms_may_x86_translate maxTrans data i).1 + 4 ≤ j' →
                (lzms_maybe_do_x86_translation good
                  (filterGo good size false maxTrans fuel
                    (lzms_maybe_do_x86_translation good data i
                      (lzms_may_x86_translate maxTrans data i).1 ctu ltu
                      (lzms_may_x86_translate maxTrans data i).2 false).1
                    (lzms_maybe_do_x86_translation good data i
                      (lzms_may_x86_translate maxTrans data i).1 ctu ltu
                      (lzms_may_x86_translate maxTrans data i).2 false).2.2.2
                    (lzms_maybe_do_x86_translation good data i
                      (lzms_may_x86_translate maxTrans data i).1 ctu ltu
                      (lzms_may_x86_translate maxTrans data i).2 false).2.1
                    (lzms_maybe_do_x86_translation good data i
                      (lzms_may_x86_translate maxTrans data i).1 ctu ltu
                      (lzms_may_x86_translate maxTrans data i).2 false).2.2.1) i
                  (lzms_may_x86_translate maxTrans data i).1 ctu ltu
                  (lzms_may_x86_translate maxTrans data i).2 true).1.getD j' 0
                = (filterGo good size false maxTrans fuel
                    (lzms_maybe_do_x86_translation good data i
                      (lzms_may_x86_translate maxTrans data i).1 ctu ltu
                      (lzms_may_x86_translate maxTrans data i).2 false).1
                    (lzms_maybe_do_x86_translation good data i
                      (lzms_may_x86_translate maxTrans data i).1 ctu ltu
                      (lzms_may_x86_translate maxTrans data i).2 false).2.2.2
                    (lzms_maybe_do_x86_translation good data i
                      (lzms_may_x86_translate maxTrans data i).1 ctu ltu
                      (lzms_may_x86_translate maxTrans data i).2 false).2.1
                    (lzms_maybe_do_x86_translation good data i
                      (lzms_may_x86_translate maxTrans data i).1 ctu ltu
                      (lzms_may_x86_translate maxTrans data i).2 false).2.2.1).getD j' 0 := by
              intro j' hj'
              rw [hbuf j', if_neg (by omega)]
            rw [filterGo_cong good size true maxTrans fuel _ _ _ _ _
              (i + (lzms_may_x86_translate maxTrans data i).1 + 4)
              (by rw [hri]) (by rw [hlenU]) hAg j (by omega)]
            rw [filter_inverse good maxTrans size fuel
              (lzms_maybe_do_x86_translation good data i
                (lzms_may_x86_translate maxTrans data i).1 ctu ltu
                (lzms_may_x86_translate maxTrans data i).2 false).1
              (lzms_maybe_do_x86_translation good data i
                (lzms_may_x86_translate maxTrans data i).1 ctu ltu
                (lzms_may_x86_translate maxTrans data i).2 false).2.2.2
              (lzms_maybe_do_x86_translation good data i
                (lzms_may_x86_translate maxTrans data i).1 ctu ltu
                (lzms_may_x86_translate maxTrans data i).2 false).2.1
              (lzms_maybe_do_x86_translation good data i
                (lzms_may_x86_translate maxTrans data i).1 ctu ltu
                (lzms_may_x86_translate maxTrans data i).2 false).2.2.1
              (by rw [hlenr]; exact hsz) hbr]
            exact mdxt_out good data i _ ctu ltu _ false j (Or.inr (by omega))
      · -- not a translated position: the index just advances
        have hfwd : filterGo good size false maxTrans (fuel + 1) data i ctu ltu
            = filterGo good size false maxTrans fuel data
                (i + (lzms_may_x86_translate maxTrans data i).1) ctu ltu := by
          simp only [filterGo]
          rw [if_pos hg, if_neg hc]
        have hnop1 := cls_pos maxTrans data i
        have hcls : lzms_may_x86_translate maxTrans
            (filterGo good size false maxTrans fuel data
              (i + (lzms_may_x86_translate maxTrans data i).1) ctu ltu) i
            = lzms_may_x86_translate maxTrans data i := by
          apply cls_cong
          · exact filterGo_frame good size false maxTrans fuel data _ ctu ltu i
              (by omega)
          · intro _
            exact filterGo_frame good size false maxTrans fuel data _ ctu ltu
              (i + 1) (by omega)
          · intro hpre
            by_cases hc2 : 2 ≤ (lzms_may_x86_translate maxTrans data i).1
            · exact filterGo_frame good size false maxTrans fuel data _ ctu ltu
                (i + 2) (by omega)
            · have hc1 : (lzms_may_x86_translate maxTrans data i).1 = 1 := by
                omega
              rw [hc1]
              have hp1v : data.getD (i + 1) 0 = 139 ∨ data.getD (i + 1) 0 = 141
                  ∨ data.getD (i + 1) 0 = 131 := by
                rcases hpre with ⟨_, h⟩ | ⟨_, h⟩ | ⟨_, h⟩
                · rcases h with h | h
                  · exact Or.inl h
                  · exact Or.inr (Or.inl h)
                · exact Or.inr (Or.inl h)
                · exact Or.inr (Or.inr h)
              exact filterGo_frame2 good size false maxTrans fuel data (i + 1)
                ctu ltu ⟨by omega, by omega, by omega, by omega, by omega,
                  by omega⟩
        rw [hfwd]
        simp only [filterGo]
        rw [if_pos hg, hcls, if_neg hc]
        exact filter_inverse good maxTrans size fuel data
          (i + (lzms_may_x86_translate maxTrans data i).1) ctu ltu hsz hb
    · -- the loop never runs
      have h1 : filterGo good size false maxTrans (fuel + 1) data i ctu ltu
          = data := by
        simp only [filterGo]
        rw [if_neg hg]
      rw [h1]
      simp only [filterGo]
      rw [if_neg hg]

end LzmsCommon

namespace LzmsCommon

/-- C3: the LZMS x86 filter is an involution.  For every byte buffer
(entries below 256) and all values of the two header constants,
running `lzms_x86_filter` with `undo = false` and then running it
again with `undo = true` — each call starting from
`closest_target_usage = -maxTrans - 1` and
`last_target_usages[*] = -good - 1` — restores the buffer exactly. -/
theorem C3_lzms_x86_filter_involution (maxTrans good : Int)
    (data : List Nat) (hb : ∀ b ∈ data, b < 256) :
    lzms_x86_filter maxTrans good (lzms_x86_filter maxTrans good data false)
        true
      = data := by
  have hb' := byteBound data hb
  unfold lzms_x86_filter
  rw [filterGo_length]
  exact filter_inverse good maxTrans data.length data.length data 0 _ _
    le_rfl hb'

/-- Witness for C3: on `c3Data` (with the real header constants 1023
and 65535) the forward filter translates the third call opcode, and
the undo pass restores the buffer. -/
theorem C3_lzms_x86_filter_involution_witness :
    lzms_x86_filter 1023 65535 (lzms_x86_filter 1023 65535 c3Data false) true
      = c3Data
    ∧ lzms_x86_filter 1023 65535 c3Data false ≠ c3Data := by
  refine ⟨C3_lzms_x86_filter_involution 1023 65535 c3Data (by decide), ?_⟩
  decide

end LzmsCommon

namespace DecompressCommon

theorem getD_replicate {α : Type} (e d : α) :
    ∀ (n k : Nat), k < n → (List.replicate n e).getD k d = e
  | 0, k, h => by omega
  | n + 1, 0, _ => rfl
  | n + 1, k + 1, h => by
    simp only [List.replicate_succ, List.getD_cons_succ]
    exact getD_replicate e d n k (by omega)

theorem flatMap_replicate_length {α : Type} (m : Nat) (f : Nat → α) :
    ∀ L : List Nat,
      (L.flatMap (fun s => List.replicate m (f s))).length = L.length * m
  | [] => by simp
  | s :: L => by
    simp only [List.flatMap_cons, List.length_append, List.length_replicate,
      flatMap_replicate_length m f L, List.length_cons]
    ring

theorem rootFillUpTo_succ (lens : List Nat) (tb l : Nat) :
    rootFillUpTo lens tb (l + 1)
      = rootFillUpTo lens tb l
        ++ (lenGroup lens (l + 1)).flatMap (fun s =>
            List.replicate (2 ^ (tb - (l + 1))) (⟨s, l + 1⟩ : DecodeEntry)) := by
  unfold rootFillUpTo
  rw [List.range'_concat, List.flatMap_append]
  simp [Nat.add_comm]

theorem rootFillUpTo_len (lens : List Nat) (tb : Nat) :
    ∀ l, (rootFillUpTo lens tb l).length = wsum lens tb l
  | 0 => by simp [rootFillUpTo, wsum]
  | l + 1 => by
    rw [rootFillUpTo_succ, List.length_append, rootFillUpTo_len lens tb l,
      flatMap_replicate_length]
    rw [show (lenGroup lens (l + 1)).length = len_counts lens (l + 1) from rfl]
    rfl

theorem remAt_wsum (lens : List Nat) (mx : Nat) :
    ∀ l, l ≤ mx →
      remAt lens l * 2 ^ (mx - l) + (wsum lens mx l : Int) = 2 ^ mx
  | 0, _ => by simp [remAt, wsum]
  | l + 1, h => by
    have ih := remAt_wsum lens mx l (by omega)
    have h2 : (2 : Int) ^ (mx - l) = 2 * 2 ^ (mx - (l + 1)) := by
      rw [← pow_succ']
      congr 1
      omega
    have ih' : remAt lens l * (2 * 2 ^ (mx - (l + 1)))
        + (wsum lens mx l : Int) = 2 ^ mx := by
      rw [← h2]; exact ih
    simp only [remAt, wsum]
    push_cast
    linear_combination ih'

theorem nextCW_wsum (lens : List Nat) (tb : Nat) :
    ∀ l, l + 1 ≤ tb →
      nextCW lens (l + 1) * 2 ^ (tb - (l + 1)) = wsum lens tb l
  | 0, _ => by simp [nextCW, wsum]
  | l + 1, h => by
    have ih := nextCW_wsum lens tb l (by omega)
    have h2 : 2 * 2 ^ (tb - (l + 2)) = 2 ^ (tb - (l + 1)) := by
      rw [← pow_succ']
      congr 1
      omega
    calc nextCW lens (l + 2) * 2 ^ (tb - (l + 2))
        = (nextCW lens (l + 1) + len_counts lens (l + 1)) * 2
            * 2 ^ (tb - (l + 2)) := by
          rw [show nextCW lens (l + 2)
            = (nextCW lens (l + 1) + len_counts lens (l + 1)) * 2 from rfl]
      _ = (nextCW lens (l + 1) + len_counts lens (l + 1))
            * (2 * 2 ^ (tb - (l + 2))) := by ring
      _ = (nextCW lens (l + 1) + len_counts lens (l + 1))
            * 2 ^ (tb - (l + 1)) := by rw [h2]
      _ = nextCW lens (l + 1) * 2 ^ (tb - (l + 1))
            + len_counts lens (l + 1) * 2 ^ (tb - (l + 1)) := by ring
      _ = wsum lens tb l + len_counts lens (l + 1) * 2 ^ (tb - (l + 1)) := by
          rw [ih]
      _ = wsum lens tb (l + 1) := rfl

theorem range_split (n s : Nat) (h : s ≤ n) :
    List.range n = List.range s ++ List.range' s (n - s) := by
  rw [List.range_eq_range', List.range_eq_range']
  have hap := List.range'_append 0 s (n - s) 1
  simp only [Nat.zero_add, Nat.one_mul] at hap
  rw [hap]
  congr 1
  omega

theorem lenGroup_split (lens : List Nat) (l s : Nat) (hs : s < lens.length)
    (hl : lens.getD s 0 = l) :
    lenGroup lens l
      = ((List.range s).filter (fun t => lens.getD t 0 = l))
        ++ s :: ((List.range' (s + 1) (lens.length - (s + 1))).filter
            (fun t => lens.getD t 0 = l)) := by
  unfold lenGroup
  rw [range_split lens.length s (by omega), List.filter_append]
  congr 1
  rw [show lens.length - s = (lens.length - (s + 1)) + 1 by omega,
    List.range'_succ, List.filter_cons,
    if_pos (show (decide (lens.getD s 0 = l)) = true from decide_eq_true hl)]

theorem getD_mid (A : List DecodeEntry) (n : Nat) (e : DecodeEntry)
    (B : List DecodeEntry) (v : Nat) (h1 : A.length ≤ v)
    (h2 : v < A.length + n) :
    (A ++ (List.replicate n e ++ B)).getD v ⟨0, 0⟩ = e := by
  rw [List.getD_append_right _ _ _ _ h1,
    List.getD_append _ _ _ _ (by simp only [List.length_replicate]; omega),
    getD_replicate _ _ n _ (by omega)]

theorem assoc5 {α : Type} (P G1 R G2 T : List α) :
    P ++ ((G1 ++ (R ++ G2)) ++ T) = (P ++ G1) ++ (R ++ (G2 ++ T)) := by
  simp [List.append_assoc]

theorem rootFill_lookup (lens : List Nat) (tb s : Nat)
    (hs : s < lens.length) (hl1 : 1 ≤ lens.getD s 0)
    (hl2 : lens.getD s 0 ≤ tb) (v : Nat)
    (hv1 : wsum lens tb (lens.getD s 0 - 1)
      + ((List.range s).filter
          (fun t => lens.getD t 0 = lens.getD s 0)).length
        * 2 ^ (tb - lens.getD s 0) ≤ v)
    (hv2 : v < wsum lens tb (lens.getD s 0 - 1)
      + ((List.range s).filter
          (fun t => lens.getD t 0 = lens.getD s 0)).length
        * 2 ^ (tb - lens.getD s 0) + 2 ^ (tb - lens.getD s 0)) :
    (rootFill lens tb).getD v ⟨0, 0⟩ = ⟨s, lens.getD s 0⟩ := by
  obtain ⟨l', hl'⟩ : ∃ l', lens.getD s 0 = l' + 1 :=
    ⟨lens.getD s 0 - 1, by omega⟩
  rw [hl'] at hv1 hv2 ⊢
  simp only [Nat.add_sub_cancel] at hv1 hv2
  have hsplit : List.range' 1 tb
      = List.range' 1 l' ++ ((l' + 1) :: List.range' (l' + 2) (tb - (l' + 1))) := by
    have hap := List.range'_append 1 l' (tb - (l' + 1) + 1) 1
    simp only [Nat.one_mul] at hap
    rw [show 1 + l' = l' + 1 by omega] at hap
    rw [show (tb - (l' + 1) + 1) + l' = tb by omega] at hap
    rw [← hap, List.range'_succ]
  unfold rootFill
  rw [hsplit, List.flatMap_append, List.flatMap_cons,
    lenGroup_split lens (l' + 1) s hs hl', List.flatMap_append,
    List.flatMap_cons, assoc5]
  rw [getD_mid _ _ _ _ v ?h1 ?h2]
  case h1 =>
    rw [List.length_append, flatMap_replicate_length]
    rw [show ((List.range' 1 l').flatMap (fun l'' =>
        (lenGroup lens l'').flatMap (fun s' =>
          List.replicate (2 ^ (tb - l'')) (⟨s', l''⟩ : DecodeEntry)))).length
      = wsum lens tb l' from rootFillUpTo_len lens tb l']
    exact hv1
  case h2 =>
    rw [List.length_append, flatMap_replicate_length]
    rw [show ((List.range' 1 l').flatMap (fun l'' =>
        (lenGroup lens l'').flatMap (fun s' =>
          List.replicate (2 ^ (tb - l'')) (⟨s', l''⟩ : DecodeEntry)))).length
      = wsum lens tb l' from rootFillUpTo_len lens tb l']
    omega

end DecompressCommon

namespace DecompressCommon

theorem wsum_complete (lens : List Nat) (mx : Nat) (hc : remAt lens mx = 0) :
    wsum lens mx mx = 2 ^ mx := by
  have h := remAt_wsum lens mx mx le_rfl
  rw [hc] at h
  simp only [zero_mul, zero_add] at h
  exact_mod_cast h

theorem make_eq_rootFill (lens : List Nat) (mx : Nat)
    (hnn : remNonneg lens mx = true) (hc : remAt lens mx = 0) :
    make_huffman_decode_table lens mx mx = .ok (rootFill lens mx) := by
  unfold make_huffman_decode_table
  rw [if_neg (not_not_intro hnn), if_neg (fun hx => hx hc)]
  have hrest : restSyms lens mx mx = [] := by
    unfold restSyms
    rw [show mx - mx = 0 by omega]
    rfl
  dsimp only
  rw [hrest, if_pos rfl]

/-- C1: decode-table round trip at `table_bits = max_codeword_len`.
For lengths that pass validation as a complete nonempty prefix code,
the table is the full root fill of `2^max` entries, and every index
whose leading `lens[s]` bits equal the canonical codeword of a used
symbol `s` holds exactly the entry `(s, lens[s])`. -/
theorem C1_decode_table_round_trip (lens : List Nat) (mx : Nat)
    (hlenb : ∀ l ∈ lens, l ≤ mx)
    (hnn : remNonneg lens mx = true)
    (hc : remAt lens mx = 0) :
    make_huffman_decode_table lens mx mx = .ok (rootFill lens mx)
    ∧ (rootFill lens mx).length = 2 ^ mx
    ∧ ∀ s, s < lens.length → 0 < lens.getD s 0 →
      ∀ v, v < 2 ^ mx →
        v / 2 ^ (mx - lens.getD s 0) = canonical_codeword lens s →
        (rootFill lens mx).getD v ⟨0, 0⟩ = ⟨s, lens.getD s 0⟩ := by
  refine ⟨make_eq_rootFill lens mx hnn hc, ?_, ?_⟩
  · rw [show rootFill lens mx = rootFillUpTo lens mx mx from rfl,
      rootFillUpTo_len]
    exact wsum_complete lens mx hc
  · intro s hs hl0 v hv hdiv
    have hmem : lens.getD s 0 ∈ lens := by
      rw [List.getD_eq_getElem lens 0 hs]
      exact List.getElem_mem hs
    have hlmx : lens.getD s 0 ≤ mx := hlenb _ hmem
    have hD0 : 0 < 2 ^ (mx - lens.getD s 0) := Nat.pos_pow_of_pos _ (by omega)
    have hmod := Nat.div_add_mod v (2 ^ (mx - lens.getD s 0))
    have hmlt : v % 2 ^ (mx - lens.getD s 0) < 2 ^ (mx - lens.getD s 0) :=
      Nat.mod_lt v hD0
    rw [hdiv] at hmod
    unfold canonical_codeword at hmod
    rw [Nat.mul_add] at hmod
    have hl' : lens.getD s 0 = (lens.getD s 0 - 1) + 1 := by omega
    have hncw := nextCW_wsum lens mx (lens.getD s 0 - 1) (by omega)
    rw [← hl'] at hncw
    have hw : 2 ^ (mx - lens.getD s 0) * nextCW lens (lens.getD s 0)
        = wsum lens mx (lens.getD s 0 - 1) := by
      rw [Nat.mul_comm]
      exact hncw
    rw [hw] at hmod
    have he2 : ((List.range s).filter
        (fun t => lens.getD t 0 = lens.getD s 0)).length
          * 2 ^ (mx - lens.getD s 0)
      = 2 ^ (mx - lens.getD s 0) * ((List.range s).filter
        (fun t => lens.getD t 0 = lens.getD s 0)).length := Nat.mul_comm _ _
    exact rootFill_lookup lens mx s hs (by omega) hlmx v (by omega) (by omega)

/-- Witness for C1 on the code with lengths `[1, 2, 3, 3]` and
`max_codeword_len = 3`: index 6 = binary 110 decodes to symbol 2 of
length 3 (canonical codewords 0, 10, 110, 111). -/
theorem C1_decode_table_round_trip_witness :
    make_huffman_decode_table [1, 2, 3, 3] 3 3
      = .ok (rootFill [1, 2, 3, 3] 3)
    ∧ (rootFill [1, 2, 3, 3] 3).getD 6 ⟨0, 0⟩ = ⟨2, 3⟩ := by
  have h := C1_decode_table_round_trip [1, 2, 3, 3] 3 (by decide) (by decide)
    (by decide)
  exact ⟨h.1, h.2.2 2 (by decide) (by decide) 6 (by decide) (by decide)⟩

end DecompressCommon

namespace DecompressCommon

theorem rsum_stop (counts : Nat → Nat) (mx lo : Nat) (h : mx < lo) :
    rsum counts mx lo = 0 := by
  unfold rsum
  rw [show mx + 1 - lo = 0 by omega]
  simp

theorem rsum_succ (counts : Nat → Nat) (mx lo : Nat) (h : lo ≤ mx) :
    rsum counts mx lo = counts lo * 2 ^ (mx - lo) + rsum counts mx (lo + 1) := by
  unfold rsum
  rw [show mx + 1 - lo = (mx + 1 - (lo + 1)) + 1 by omega, List.range'_succ]
  simp only [List.map_cons, List.sum_cons]

theorem rsum_congr_ge (c1 c2 : Nat → Nat) (mx : Nat) :
    ∀ n lo, mx + 1 - lo ≤ n → (∀ l, lo ≤ l → c1 l = c2 l) →
      rsum c1 mx lo = rsum c2 mx lo
  | 0, lo, hn, _ => by
    rw [rsum_stop c1 mx lo (by omega), rsum_stop c2 mx lo (by omega)]
  | n + 1, lo, hn, hagree => by
    by_cases hlo : lo ≤ mx
    · rw [rsum_succ c1 mx lo hlo, rsum_succ c2 mx lo hlo, hagree lo le_rfl,
        rsum_congr_ge c1 c2 mx n (lo + 1) (by omega)
          (fun l hl => hagree l (by omega))]
    · rw [rsum_stop c1 mx lo (by omega), rsum_stop c2 mx lo (by omega)]

theorem rsum_zeros (counts : Nat → Nat) (mx : Nat) :
    ∀ k lo, (∀ l, lo ≤ l → l < lo + k → counts l = 0) →
      rsum counts mx lo = rsum counts mx (lo + k)
  | 0, lo, _ => rfl
  | k + 1, lo, hz => by
    by_cases hlo : lo ≤ mx
    · rw [rsum_succ counts mx lo hlo, hz lo le_rfl (by omega)]
      simp only [Nat.zero_mul, Nat.zero_add]
      rw [rsum_zeros counts mx k (lo + 1) (fun l h1 h2 => hz l (by omega) (by omega))]
      congr 1
      omega
    · rw [rsum_stop counts mx lo (by omega), rsum_stop counts mx (lo + (k + 1)) (by omega)]

theorem rsum_dec (counts : Nat → Nat) (mx cl' : Nat) (hcl : cl' ≤ mx)
    (hnz : counts cl' ≠ 0) :
    ∀ n lo, mx + 1 - lo ≤ n → lo ≤ cl' →
      rsum (fun l => if l = cl' then counts cl' - 1 else counts l) mx lo
          + 2 ^ (mx - cl')
        = rsum counts mx lo
  | 0, lo, hn, hlo => by omega
  | n + 1, lo, hn, hlo => by
    by_cases heq : lo = cl'
    · subst heq
      rw [rsum_succ _ mx lo (by omega), rsum_succ counts mx lo (by omega)]
      simp only []
      rw [if_true]
      have hcong : rsum (fun l => if l = lo then counts lo - 1 else counts l) mx (lo + 1)
          = rsum counts mx (lo + 1) :=
        rsum_congr_ge _ _ mx (mx + 1) (lo + 1) (by omega)
          (fun l hl => if_neg (by omega))
      rw [hcong]
      have h1 : (counts lo - 1) * 2 ^ (mx - lo) + 2 ^ (mx - lo)
          = counts lo * 2 ^ (mx - lo) := by
        have h2 : (counts lo - 1) * 2 ^ (mx - lo) + 2 ^ (mx - lo)
            = (counts lo - 1 + 1) * 2 ^ (mx - lo) := by ring
        rw [h2, Nat.sub_add_cancel (Nat.pos_of_ne_zero hnz)]
      omega
    · rw [rsum_succ _ mx lo (by omega), rsum_succ counts mx lo (by omega),
        if_neg heq]
      have := rsum_dec counts mx cl' hcl hnz n (lo + 1) (by omega) (by omega)
      omega

theorem ffl_spec (counts : Nat → Nat) :
    ∀ n lo hi, hi + 1 - lo ≤ n →
      (∃ l, lo ≤ l ∧ l ≤ hi ∧ counts l ≠ 0) →
      ∃ cl', findFirstLen counts lo hi = some cl'
        ∧ lo ≤ cl' ∧ cl' ≤ hi ∧ counts cl' ≠ 0
        ∧ ∀ l, lo ≤ l → l < cl' → counts l = 0
  | 0, lo, hi, hn, ⟨l, h1, h2, _⟩ => by omega
  | n + 1, lo, hi, hn, ⟨l, h1, h2, h3⟩ => by
    have hle : lo ≤ hi := le_trans h1 h2
    rw [findFirstLen]
    rw [dif_neg (by omega : ¬ lo > hi)]
    by_cases hc : counts lo ≠ 0
    · rw [if_pos hc]
      exact ⟨lo, rfl, le_rfl, hle, hc, fun l' _ hl2 => by omega⟩
    · rw [if_neg hc]
      have hc0 : counts lo = 0 := not_not.mp hc
      have hlne : lo ≠ l := fun he => h3 (he ▸ hc0)
      obtain ⟨cl', e1, e2, e3, e4, e5⟩ := ffl_spec counts n (lo + 1) hi (by omega)
        ⟨l, by omega, h2, h3⟩
      refine ⟨cl', e1, by omega, e3, e4, fun l' hl1 hl2 => ?_⟩
      rcases Nat.eq_or_lt_of_le hl1 with he | hlt
      · exact he ▸ hc0
      · exact e5 l' (by omega) hl2

theorem sizeLoop_top (counts : Nat → Nat) (tb mx sb : Nat) (rem : Int)
    (he : tb + sb = mx)
    (hI : rem * 2 ^ (mx - (tb + sb)) ≤ (rsum counts mx (tb + sb) : Int))
    (hstop : 0 < rem - counts (tb + sb)) : False := by
  rw [he] at hI hstop
  rw [show mx - mx = 0 by omega] at hI
  have hr : rsum counts mx mx = counts mx := by
    rw [rsum_succ counts mx mx le_rfl, rsum_stop counts mx (mx + 1) (by omega),
      show mx - mx = 0 by omega]
    simp
  rw [hr] at hI
  simp only [pow_zero, mul_one] at hI
  omega

theorem sizeLoop_halts (counts : Nat → Nat) (tb mx : Nat) :
    ∀ n sb (rem : Int), mx - (tb + sb) ≤ n → tb + sb ≤ mx →
      rem * 2 ^ (mx - (tb + sb)) ≤ (rsum counts mx (tb + sb) : Int) →
      ∃ sb', sizeLoop counts tb mx sb rem = some sb'
        ∧ sb ≤ sb' ∧ tb + sb' ≤ mx
  | 0, sb, rem, hn, hsbmx, hI => by
    by_cases hstop : rem - (counts (tb + sb) : Int) ≤ 0
    · refine ⟨sb, ?_, le_rfl, hsbmx⟩
      rw [sizeLoop]
      simp only [if_pos hstop]
    · exact absurd (sizeLoop_top counts tb mx sb rem (by omega) hI (by omega)) id
  | n + 1, sb, rem, hn, hsbmx, hI => by
    by_cases hstop : rem - (counts (tb + sb) : Int) ≤ 0
    · refine ⟨sb, ?_, le_rfl, hsbmx⟩
      rw [sizeLoop]
      simp only [if_pos hstop]
    · by_cases hg : tb + sb ≥ mx
      · exact absurd
          (sizeLoop_top counts tb mx sb rem (by omega) hI (by omega)) id
      · have hIstep : 2 * (rem - (counts (tb + sb) : Int))
            * 2 ^ (mx - (tb + (sb + 1)))
            ≤ (rsum counts mx (tb + (sb + 1)) : Int) := by
          have hs := rsum_succ counts mx (tb + sb) (by omega)
          rw [hs] at hI
          push_cast at hI
          have h2p : (2 : Int) ^ (mx - (tb + sb))
              = 2 * 2 ^ (mx - (tb + (sb + 1))) := by
            rw [show mx - (tb + sb) = (mx - (tb + (sb + 1))) + 1 by omega]
            ring
          rw [h2p] at hI
          rw [show tb + sb + 1 = tb + (sb + 1) by omega] at hI
          nlinarith [hI]
        obtain ⟨sb', h1, h2, h3⟩ := sizeLoop_halts counts tb mx n (sb + 1)
          (2 * (rem - counts (tb + sb))) (by omega) (by omega) hIstep
        refine ⟨sb', ?_, by omega, h3⟩
        rw [sizeLoop]
        simp only [if_neg hstop, dif_neg hg]
        exact h1

theorem remAt_le (lens : List Nat) : ∀ l, remAt lens l ≤ 2 ^ l
  | 0 => by simp [remAt]
  | l + 1 => by
    have ih := remAt_le lens l
    simp only [remAt]
    have hc : (0 : Int) ≤ (len_counts lens (l + 1) : Int) := Int.natCast_nonneg _
    have h2 : (2 : Int) ^ (l + 1) = 2 * 2 ^ l := by ring
    omega

theorem remAt_full (lens : List Nat) (mx : Nat) (h : remAt lens mx = 2 ^ mx) :
    ∀ k, k ≤ mx → remAt lens (mx - k) = 2 ^ (mx - k)
  | 0, _ => by simpa using h
  | k + 1, hk => by
    have ih := remAt_full lens mx h k (by omega)
    have e : mx - k = (mx - (k + 1)) + 1 := by omega
    rw [e] at ih
    have hs : remAt lens ((mx - (k + 1)) + 1)
        = 2 * remAt lens (mx - (k + 1)) - len_counts lens ((mx - (k + 1)) + 1) :=
      rfl
    rw [hs] at ih
    have hle := remAt_le lens (mx - (k + 1))
    have hcpos : (0 : Int) ≤ (len_counts lens ((mx - (k + 1)) + 1) : Int) :=
      Int.natCast_nonneg _
    have h2 : (2 : Int) ^ ((mx - (k + 1)) + 1) = 2 * 2 ^ (mx - (k + 1)) := by ring
    omega

theorem remNonneg_of_full (lens : List Nat) (mx : Nat)
    (h : remAt lens mx = 2 ^ mx) : remNonneg lens mx = true := by
  unfold remNonneg
  rw [List.all_eq_true]
  intro k hk
  have hk' := List.mem_range.mp hk
  have hfull := remAt_full lens mx h (mx - (k + 1)) (by omega)
  rw [show mx - (mx - (k + 1)) = k + 1 by omega] at hfull
  apply decide_eq_true
  rw [hfull]
  positivity

end DecompressCommon
namespace DecompressCommon

theorem lenGroup_mem (lens : List Nat) (l x : Nat) (h : x ∈ lenGroup lens l) :
    lens.getD x 0 = l ∧ x < lens.length := by
  unfold lenGroup at h
  obtain ⟨h1, h2⟩ := List.mem_filter.mp h
  exact ⟨of_decide_eq_true h2, List.mem_range.mp h1⟩

theorem lenGroup_filter (lens : List Nat) (g l : Nat) :
    (lenGroup lens g).filter (fun x => lens.getD x 0 = l)
      = if g = l then lenGroup lens g else [] := by
  by_cases he : g = l
  · subst he
    rw [if_pos rfl]
    apply List.filter_eq_self.mpr
    intro x hx
    exact decide_eq_true (lenGroup_mem lens g x hx).1
  · rw [if_neg he]
    apply List.filter_eq_nil_iff.mpr
    intro x hx
    have hxg := (lenGroup_mem lens g x hx).1
    intro hd
    exact he (hxg.symm.trans (of_decide_eq_true hd))

theorem flatMap_groups_filter (lens : List Nat) (l : Nat) :
    ∀ L : List Nat, List.Pairwise (fun a b => a < b) L →
      (L.flatMap (lenGroup lens)).filter (fun x => lens.getD x 0 = l)
        = if l ∈ L then lenGroup lens l else []
  | [], _ => by simp
  | g :: L, hp => by
    rw [List.flatMap_cons, List.filter_append, lenGroup_filter,
      flatMap_groups_filter lens l L (List.pairwise_cons.mp hp).2]
    by_cases he : g = l
    · subst he
      have hnotm : ¬ g ∈ L :=
        fun hm => absurd ((List.pairwise_cons.mp hp).1 g hm) (lt_irrefl g)
      rw [if_pos rfl, if_neg hnotm, if_pos (List.mem_cons_self g L),
        List.append_nil]
    · rw [if_neg he, List.nil_append]
      by_cases hm : l ∈ L
      · rw [if_pos hm, if_pos (List.mem_cons_of_mem g hm)]
      · rw [if_neg hm, if_neg ?_]
        intro hmm
        rcases List.mem_cons.mp hmm with h | h
        · exact he h.symm
        · exact hm h

theorem len_counts_gt (lens : List Nat) (mx : Nat)
    (hlenb : ∀ x ∈ lens, x ≤ mx) (l : Nat) (h : mx < l) :
    len_counts lens l = 0 := by
  unfold len_counts
  rw [List.filter_eq_nil_iff.mpr ?_]
  · rfl
  · intro s hs
    have hslt := List.mem_range.mp hs
    have hmem : lens.getD s 0 ∈ lens := by
      rw [List.getD_eq_getElem lens 0 hslt]
      exact List.getElem_mem hslt
    intro hd
    have h1 := hlenb _ hmem
    have h2 := of_decide_eq_true hd
    omega

theorem restSyms_mem (lens : List Nat) (tb mx x : Nat)
    (h : x ∈ restSyms lens tb mx) :
    tb + 1 ≤ lens.getD x 0 ∧ lens.getD x 0 ≤ mx := by
  unfold restSyms at h
  obtain ⟨g, hg, hx⟩ := List.mem_flatMap.mp h
  have h1 := List.mem_range'_1.mp hg
  have h2 := (lenGroup_mem lens g x hx).1
  omega

theorem restSyms_counts (lens : List Nat) (tb mx : Nat)
    (hlenb : ∀ x ∈ lens, x ≤ mx) (l : Nat) (hl : tb < l) :
    len_counts lens l
      = ((restSyms lens tb mx).filter (fun x => lens.getD x 0 = l)).length := by
  by_cases hlmx : l ≤ mx
  · unfold restSyms
    rw [flatMap_groups_filter lens l _ (List.pairwise_lt_range' _ _),
      if_pos (List.mem_range'_1.mpr ⟨by omega, by omega⟩)]
    rfl
  · rw [len_counts_gt lens mx hlenb l (by omega),
      List.filter_eq_nil_iff.mpr ?_]
    · rfl
    · intro x hx
      have := restSyms_mem lens tb mx x hx
      intro hd
      have h2 := of_decide_eq_true hd
      omega

theorem pairwise_flatMap_groups (lens : List Nat) :
    ∀ L : List Nat, List.Pairwise (fun a b => a ≤ b) L →
      List.Pairwise (fun a b => lens.getD a 0 ≤ lens.getD b 0)
        (L.flatMap (lenGroup lens))
  | [], _ => by simp
  | g :: L, hp => by
    rw [List.flatMap_cons, List.pairwise_append]
    refine ⟨?_, pairwise_flatMap_groups lens L (List.pairwise_cons.mp hp).2, ?_⟩
    · apply List.pairwise_of_forall_mem_list
      intro a ha b hb
      rw [(lenGroup_mem lens g a ha).1, (lenGroup_mem lens g b hb).1]
    · intro a ha b hb
      obtain ⟨g', hg', hb'⟩ := List.mem_flatMap.mp hb
      have h1 := (List.pairwise_cons.mp hp).1 g' hg'
      rw [(lenGroup_mem lens g a ha).1, (lenGroup_mem lens g' b hb').1]
      exact h1

theorem restSyms_sorted (lens : List Nat) (tb mx : Nat) :
    List.Pairwise (fun a b => lens.getD a 0 ≤ lens.getD b 0)
      (restSyms lens tb mx) :=
  pairwise_flatMap_groups lens _
    ((List.pairwise_lt_range' _ _).imp (fun h => le_of_lt h))

theorem wsum_scale (lens : List Nat) (tb mx : Nat) (htbmx : tb ≤ mx) :
    ∀ l, l ≤ tb → wsum lens tb l * 2 ^ (mx - tb) = wsum lens mx l
  | 0, _ => by simp [wsum]
  | l + 1, h => by
    simp only [wsum]
    rw [Nat.add_mul, wsum_scale lens tb mx htbmx l (by omega)]
    congr 1
    rw [mul_assoc, ← pow_add, show (tb - (l + 1)) + (mx - tb) = mx - (l + 1) by omega]

theorem wsum_split (lens : List Nat) (mx tb : Nat) :
    ∀ k, wsum lens mx (tb + k)
      = wsum lens mx tb
        + ((List.range' (tb + 1) k).map
            (fun l => len_counts lens l * 2 ^ (mx - l))).sum
  | 0 => by simp
  | k + 1 => by
    rw [show tb + (k + 1) = (tb + k) + 1 by omega]
    simp only [wsum]
    rw [wsum_split lens mx tb k, List.range'_concat]
    rw [List.map_append, List.sum_append]
    simp only [List.map_cons, List.map_nil, List.sum_cons, List.sum_nil, one_mul]
    rw [show tb + 1 + k = tb + k + 1 by omega]
    omega

theorem init_conservation (lens : List Nat) (tb mx : Nat) (htlt : tb < mx)
    (hc : remAt lens mx = 0) :
    2 * (rootFill lens tb).length * 2 ^ (mx - (tb + 1))
        + rsum (len_counts lens) mx (tb + 1) = 2 ^ mx := by
  have hroot : (rootFill lens tb).length = wsum lens tb tb :=
    rootFillUpTo_len lens tb tb
  have hscale := wsum_scale lens tb mx (by omega) tb le_rfl
  have hsplit := wsum_split lens mx tb (mx - tb)
  have hfull : wsum lens mx mx = 2 ^ mx := wsum_complete lens mx hc
  rw [show tb + (mx - tb) = mx by omega] at hsplit
  have hrs : rsum (len_counts lens) mx (tb + 1)
      = ((List.range' (tb + 1) (mx - tb)).map
          (fun l => len_counts lens l * 2 ^ (mx - l))).sum := by
    unfold rsum
    rw [show mx + 1 - (tb + 1) = mx - tb by omega]
  rw [hroot, hrs]
  have h2 : 2 * wsum lens tb tb * 2 ^ (mx - (tb + 1))
      = wsum lens tb tb * 2 ^ (mx - tb) := by
    rw [show mx - tb = (mx - (tb + 1)) + 1 by omega, pow_succ]
    ring
  rw [h2, hscale]
  omega

end DecompressCommon
namespace DecompressCommon

theorem stPhase_total (lens : List Nat) (tb mx : Nat) :
    ∀ (rest : List Nat) (st : STState),
      tb + 1 ≤ st.cl → st.cl ≤ mx →
      (∀ l, tb < l →
        st.counts l = (rest.filter (fun x => lens.getD x 0 = l)).length) →
      (∀ x ∈ rest, st.cl ≤ lens.getD x 0 ∧ lens.getD x 0 ≤ mx) →
      List.Pairwise (fun a b => lens.getD a 0 ≤ lens.getD b 0) rest →
      st.c * 2 ^ (mx - st.cl) + rsum st.counts mx (tb + 1) = 2 ^ mx →
      (∀ p, st.spfx = some p →
        p * 2 ^ (mx - tb) ≤ st.c * 2 ^ (mx - st.cl)
          ∧ st.c * 2 ^ (mx - st.cl) ≤ (p + 1) * 2 ^ (mx - tb)) →
      (st.spfx = none → st.c * 2 ^ (mx - st.cl) % 2 ^ (mx - tb) = 0) →
      ∃ r, stPhase tb mx rest st = some r
  | [], st, _, _, _, _, _, _, _, _ => ⟨(st.root, st.subs), rfl⟩
  | s :: rest', st, hcl1, hcl2, hcounts, hmem, hsort, hcons, hsome, hnone => by
    have hs := hmem s (List.mem_cons_self s rest')
    have hslo : st.cl ≤ lens.getD s 0 := hs.1
    have hshi : lens.getD s 0 ≤ mx := hs.2
    -- the head symbol's length has a nonzero count
    have hcnz : st.counts (lens.getD s 0) ≠ 0 := by
      rw [hcounts _ (by omega)]
      intro h0
      have h0' := List.length_eq_zero.mp h0
      have hmemf : s ∈ List.filter
          (fun x => decide (lens.getD x 0 = lens.getD s 0)) (s :: rest') :=
        List.mem_filter.mpr ⟨List.mem_cons_self s rest', by simp⟩
      rw [h0'] at hmemf
      exact (List.not_mem_nil s) hmemf
    -- the inner codeword-length search
    obtain ⟨cl', hffl, hlo', hhi', hnz', hzero'⟩ :=
      ffl_spec st.counts (mx + 1 - st.cl) st.cl mx le_rfl
        ⟨lens.getD s 0, hslo, hshi, hcnz⟩
    -- the head symbol's length is exactly cl'
    have hhead : lens.getD s 0 = cl' := by
      have h1 : cl' ≤ lens.getD s 0 := by
        by_contra hlt
        exact hcnz (hzero' _ hslo (by omega))
      rcases Nat.eq_or_lt_of_le h1 with he | hlt2
      · exact he.symm
      · exfalso
        have hmemf := hcounts cl' (by omega)
        rw [hmemf] at hnz'
        cases hf : List.filter (fun x => decide (lens.getD x 0 = cl'))
            (s :: rest') with
        | nil => rw [hf] at hnz'; simp at hnz'
        | cons y ys =>
          have hy : y ∈ List.filter (fun x => decide (lens.getD x 0 = cl'))
              (s :: rest') := by
            rw [hf]; exact List.mem_cons_self y ys
          obtain ⟨hymem, hylen⟩ := List.mem_filter.mp hy
          have hylen' : lens.getD y 0 = cl' := of_decide_eq_true hylen
          rcases List.mem_cons.mp hymem with he2 | hyr
          · rw [he2] at hylen'; omega
          · have hle2 := (List.pairwise_cons.mp hsort).1 y hyr
            omega
    -- arithmetic facts about the codeword position
    have hC : st.c * 2 ^ (cl' - st.cl) * 2 ^ (mx - cl')
        = st.c * 2 ^ (mx - st.cl) := by
      rw [mul_assoc, ← pow_add, show (cl' - st.cl) + (mx - cl') = mx - st.cl by omega]
    have hz2 : ∀ l, tb + 1 ≤ l → l < cl' → st.counts l = 0 := by
      intro l h1 h2
      by_cases hcl : l < st.cl
      · rw [hcounts l (by omega)]
        rw [List.filter_eq_nil_iff.mpr ?_]
        · rfl
        · intro x hx
          have hxb := hmem x hx
          intro hd
          have := of_decide_eq_true hd
          omega
      · exact hzero' l (by omega) h2
    have hrs_cl : rsum st.counts mx (tb + 1) = rsum st.counts mx cl' := by
      have hzz := rsum_zeros st.counts mx (cl' - (tb + 1)) (tb + 1)
        (fun l ha hb => hz2 l ha (by omega))
      rw [hzz, show tb + 1 + (cl' - (tb + 1)) = cl' by omega]
    have hcons' : st.c * 2 ^ (mx - st.cl) + rsum st.counts mx cl' = 2 ^ mx := by
      rw [← hrs_cl]; exact hcons
    have hrs_lb : 2 ^ (mx - cl') ≤ rsum st.counts mx cl' := by
      rw [rsum_succ st.counts mx cl' hhi']
      have h1 : 0 < st.counts cl' := Nat.pos_of_ne_zero hnz'
      have h2 : 2 ^ (mx - cl') ≤ st.counts cl' * 2 ^ (mx - cl') :=
        Nat.le_mul_of_pos_left _ h1
      exact le_trans h2 (Nat.le_add_right _ _)
    have hbpos : 0 < 2 ^ (mx - tb) := Nat.pos_pow_of_pos _ (by omega)
    have hc'eq : st.c <<< (cl' - st.cl) = st.c * 2 ^ (cl' - st.cl) :=
      Nat.shiftLeft_eq _ _
    have hpfxeq : st.c <<< (cl' - st.cl) >>> (cl' - tb)
        = st.c * 2 ^ (mx - st.cl) / 2 ^ (mx - tb) := by
      rw [hc'eq, Nat.shiftRight_eq_div_pow, ← hC,
        show mx - tb = (cl' - tb) + (mx - cl') by omega, pow_add]
      exact (Nat.mul_div_mul_right _ _ (Nat.pos_pow_of_pos _ (by omega))).symm
    have hdivlb : (st.c * 2 ^ (mx - st.cl) / 2 ^ (mx - tb)) * 2 ^ (mx - tb)
        ≤ st.c * 2 ^ (mx - st.cl) := Nat.div_mul_le_self _ _
    have hdivub : st.c * 2 ^ (mx - st.cl)
        < (st.c * 2 ^ (mx - st.cl) / 2 ^ (mx - tb) + 1) * 2 ^ (mx - tb) :=
      (Nat.div_lt_iff_lt_mul hbpos).mp (Nat.lt_succ_self _)
    -- invariant obligations shared by the two subtable branches
    have hob1 : tb + 1 ≤ cl' := by omega
    have hob3 : ∀ l, tb < l →
        (if l = cl' then st.counts cl' - 1 else st.counts l)
          = (rest'.filter (fun x => decide (lens.getD x 0 = l))).length := by
      intro l hl
      by_cases he : l = cl'
      · rw [if_pos he, he, hcounts cl' (by omega),
          List.filter_cons_of_pos ?_]
        · simp
        · exact decide_eq_true hhead
      · rw [if_neg he, hcounts l hl,
          List.filter_cons_of_neg ?_]
        intro hd
        have := of_decide_eq_true hd
        omega
    have hob4 : ∀ x ∈ rest', cl' ≤ lens.getD x 0 ∧ lens.getD x 0 ≤ mx := by
      intro x hx
      have h1 := (List.pairwise_cons.mp hsort).1 x hx
      have h2 := hmem x (List.mem_cons_of_mem s hx)
      exact ⟨by omega, h2.2⟩
    have hob5 : List.Pairwise (fun a b => lens.getD a 0 ≤ lens.getD b 0) rest' :=
      (List.pairwise_cons.mp hsort).2
    have hdec := rsum_dec st.counts mx cl' hhi' hnz' (mx + 1 - (tb + 1)) (tb + 1)
      le_rfl (by omega)
    have hob6 : (st.c <<< (cl' - st.cl) + 1) * 2 ^ (mx - cl')
        + rsum (fun l => if l = cl' then st.counts cl' - 1 else st.counts l)
            mx (tb + 1) = 2 ^ mx := by
      rw [hc'eq]
      have hx1 : (st.c * 2 ^ (cl' - st.cl) + 1) * 2 ^ (mx - cl')
          = st.c * 2 ^ (mx - st.cl) + 2 ^ (mx - cl') := by
        rw [Nat.add_mul, one_mul, hC]
      rw [hx1]
      linarith [hdec, hcons]
    have hRB : (st.c * 2 ^ (mx - st.cl) / 2 ^ (mx - tb) + 1) * 2 ^ (mx - tb)
        = ((st.c * 2 ^ (mx - st.cl) / 2 ^ (mx - tb) + 1) * 2 ^ (cl' - tb))
            * 2 ^ (mx - cl') := by
      rw [mul_assoc, ← pow_add, show (cl' - tb) + (mx - cl') = mx - tb by omega]
    have hob7 : (st.c <<< (cl' - st.cl) >>> (cl' - tb)) * 2 ^ (mx - tb)
          ≤ (st.c <<< (cl' - st.cl) + 1) * 2 ^ (mx - cl')
        ∧ (st.c <<< (cl' - st.cl) + 1) * 2 ^ (mx - cl')
          ≤ ((st.c <<< (cl' - st.cl) >>> (cl' - tb)) + 1) * 2 ^ (mx - tb) := by
      constructor
      · rw [hpfxeq, hc'eq]
        have hx1 : (st.c * 2 ^ (cl' - st.cl) + 1) * 2 ^ (mx - cl')
            = st.c * 2 ^ (mx - st.cl) + 2 ^ (mx - cl') := by
          rw [Nat.add_mul, one_mul, hC]
        calc st.c * 2 ^ (mx - st.cl) / 2 ^ (mx - tb) * 2 ^ (mx - tb)
            ≤ st.c * 2 ^ (mx - st.cl) := hdivlb
          _ ≤ st.c * 2 ^ (mx - st.cl) + 2 ^ (mx - cl') := Nat.le_add_right _ _
          _ = (st.c * 2 ^ (cl' - st.cl) + 1) * 2 ^ (mx - cl') := hx1.symm
      · rw [hpfxeq, hc'eq, hRB]
        have h5 : st.c * 2 ^ (cl' - st.cl) * 2 ^ (mx - cl')
            < ((st.c * 2 ^ (mx - st.cl) / 2 ^ (mx - tb) + 1) * 2 ^ (cl' - tb))
                * 2 ^ (mx - cl') := by
          rw [hC, ← hRB]
          exact hdivub
        have h6 : st.c * 2 ^ (cl' - st.cl)
            < (st.c * 2 ^ (mx - st.cl) / 2 ^ (mx - tb) + 1) * 2 ^ (cl' - tb) :=
          lt_of_mul_lt_mul_right h5 (Nat.zero_le _)
        exact Nat.mul_le_mul_right _ (Nat.succ_le_of_lt h6)
    -- unfold one step of the loop
    simp only [stPhase]
    rw [hffl]
    dsimp only
    by_cases hbr : st.spfx = some (st.c <<< (cl' - st.cl) >>> (cl' - tb))
    · -- staying in the current subtable
      rw [if_neg (not_not_intro hbr)]
      refine stPhase_total lens tb mx rest' _ hob1 hhi' hob3 hob4 hob5 hob6 ?_ ?_
      · intro p hp
        have hpe : st.c <<< (cl' - st.cl) >>> (cl' - tb) = p :=
          Option.some.inj (hbr.symm.trans hp)
        rw [← hpe]
        exact hob7
      · intro hno
        rw [hbr] at hno
        exact Option.noConfusion hno
    · -- starting a new subtable
      rw [if_pos hbr]
      -- the running codeword start is aligned to the subtable granularity
      have hAmult : st.c * 2 ^ (mx - st.cl) % 2 ^ (mx - tb) = 0 := by
        cases hsp : st.spfx with
        | none => exact hnone hsp
        | some p₀ =>
          have hb := hsome p₀ hsp
          have hne : p₀ ≠ st.c * 2 ^ (mx - st.cl) / 2 ^ (mx - tb) := by
            intro he
            apply hbr
            rw [hsp, hpfxeq, he]
          have hAeq : st.c * 2 ^ (mx - st.cl) = (p₀ + 1) * 2 ^ (mx - tb) := by
            rcases Nat.lt_or_ge (st.c * 2 ^ (mx - st.cl))
                ((p₀ + 1) * 2 ^ (mx - tb)) with hlt | hge
            · exact absurd (Nat.div_eq_of_lt_le hb.1 hlt).symm hne
            · exact le_antisymm hb.2 hge
          rw [hAeq]
          exact Nat.mul_mod_left _ _
      obtain ⟨q, hq⟩ := Nat.dvd_of_mod_eq_zero hAmult
      have hABle : st.c * 2 ^ (mx - st.cl) + 2 ^ (mx - tb) ≤ 2 ^ mx := by
        have hBexp : 2 ^ mx = 2 ^ tb * 2 ^ (mx - tb) := by
          rw [← pow_add, show tb + (mx - tb) = mx by omega]
        have hApos : st.c * 2 ^ (mx - st.cl) < 2 ^ mx := by
          have hD : 0 < 2 ^ (mx - cl') := Nat.pos_pow_of_pos _ (by omega)
          linarith [hcons', hrs_lb]
        have hqlt : q < 2 ^ tb := by
          by_contra hge
          push_neg at hge
          have hgg : 2 ^ tb * 2 ^ (mx - tb) ≤ 2 ^ (mx - tb) * q := by
            calc 2 ^ tb * 2 ^ (mx - tb) = 2 ^ (mx - tb) * 2 ^ tb :=
                  Nat.mul_comm _ _
              _ ≤ 2 ^ (mx - tb) * q := Nat.mul_le_mul_left _ hge
          rw [← hBexp] at hgg
          rw [hq] at hApos
          exact absurd hApos (not_lt.mpr hgg)
        calc st.c * 2 ^ (mx - st.cl) + 2 ^ (mx - tb)
            = 2 ^ (mx - tb) * q + 2 ^ (mx - tb) := by rw [hq]
          _ = 2 ^ (mx - tb) * (q + 1) := by ring
          _ ≤ 2 ^ (mx - tb) * 2 ^ tb := Nat.mul_le_mul_left _ (by omega)
          _ = 2 ^ mx := by rw [Nat.mul_comm]; exact hBexp.symm
      -- the sizing loop halts
      have hIinit : ((2 : Int) ^ (cl' - tb)) * 2 ^ (mx - (tb + (cl' - tb)))
          ≤ (rsum st.counts mx (tb + (cl' - tb)) : Int) := by
        rw [show tb + (cl' - tb) = cl' by omega]
        have h7 : ((2 : Int) ^ (cl' - tb)) * 2 ^ (mx - cl') = 2 ^ (mx - tb) := by
          rw [← pow_add, show (cl' - tb) + (mx - cl') = mx - tb by omega]
        rw [h7]
        have h8 : 2 ^ (mx - tb) ≤ rsum st.counts mx cl' := by
          linarith [hcons', hABle]
        exact_mod_cast h8
      obtain ⟨sb', hsz, hsb1, hsb2⟩ := sizeLoop_halts st.counts tb mx
        (mx - (tb + (cl' - tb))) (cl' - tb) ((2 : Int) ^ (cl' - tb)) le_rfl
        (by omega) hIinit
      rw [hsz]
      dsimp only
      refine stPhase_total lens tb mx rest' _ hob1 hhi' hob3 hob4 hob5 hob6 ?_ ?_
      · intro p hp
        have hpe : st.c <<< (cl' - st.cl) >>> (cl' - tb) = p :=
          Option.some.inj hp
        rw [← hpe]
        exact hob7
      · intro hno
        exact Option.noConfusion hno

end DecompressCommon
namespace DecompressCommon

theorem restSyms_ne_lt (lens : List Nat) (tb mx : Nat)
    (hne : restSyms lens tb mx ≠ []) : tb < mx := by
  by_contra hge
  push_neg at hge
  apply hne
  unfold restSyms
  rw [show mx - tb = 0 by omega]
  rfl

theorem make_complete_ok (lens : List Nat) (tb mx : Nat)
    (hlenb : ∀ l ∈ lens, l ≤ mx) (hnn : remNonneg lens mx = true)
    (hc : remAt lens mx = 0) :
    ∃ T, make_huffman_decode_table lens tb mx = .ok T := by
  unfold make_huffman_decode_table
  rw [if_neg (not_not_intro hnn), if_neg (not_not_intro hc)]
  dsimp only
  by_cases hre : restSyms lens tb mx = []
  · rw [if_pos hre]
    exact ⟨_, rfl⟩
  · rw [if_neg hre]
    have htlt : tb < mx := restSyms_ne_lt lens tb mx hre
    obtain ⟨r, hr⟩ := stPhase_total lens tb mx (restSyms lens tb mx)
      { cl := tb + 1, c := 2 * (rootFill lens tb).length,
        counts := len_counts lens, spfx := none, sb := tb,
        root := rootFill lens tb
          ++ List.replicate (2 ^ tb - (rootFill lens tb).length) ⟨0, 0⟩,
        subs := [] }
      le_rfl (show tb + 1 ≤ mx by omega)
      (fun l hl => restSyms_counts lens tb mx hlenb l hl)
      (fun x hx => restSyms_mem lens tb mx x hx)
      (restSyms_sorted lens tb mx)
      (init_conservation lens tb mx htlt hc)
      (fun p hp => Option.noConfusion hp)
      (fun _ => by
        have he : 2 * (rootFill lens tb).length * 2 ^ (mx - (tb + 1))
            = (rootFill lens tb).length * 2 ^ (mx - tb) := by
          rw [show mx - tb = (mx - (tb + 1)) + 1 by omega, pow_succ]
          ring
        rw [he]
        exact Nat.mul_mod_left _ _)
    refine ⟨r.1 ++ r.2, ?_⟩
    rw [hr]

theorem make_empty_ok (lens : List Nat) (tb mx : Nat)
    (h2 : remAt lens mx = 2 ^ mx) :
    make_huffman_decode_table lens tb mx
      = .ok (List.replicate (2 ^ tb) ⟨0, 0⟩) := by
  have hne0 : remAt lens mx ≠ 0 := by
    rw [h2]
    positivity
  unfold make_huffman_decode_table
  rw [if_neg (not_not_intro (remNonneg_of_full lens mx h2)), if_pos hne0,
    if_neg (not_not_intro h2)]

/-- **C2.** `make_huffman_decode_table` succeeds (returns a table) iff the
remainder recurrence (`remainder := 1`; for each length `1 .. max`,
`remainder := 2*remainder - len_counts[len]`) never goes negative and ends
at `0` (complete code) or `2^max_codeword_len` (empty code); in every
other case it returns the error value (-1 in C); and in the empty-code
case the whole `2^table_bits`-entry table is zero-filled, so any lookup
yields symbol 0 with length 0. -/
theorem C2_table_validation (lens : List Nat) (tb mx : Nat)
    (hlenb : ∀ l ∈ lens, l ≤ mx) :
    ((∃ T, make_huffman_decode_table lens tb mx = .ok T)
        ↔ remNonneg lens mx = true
          ∧ (remAt lens mx = 0 ∨ remAt lens mx = 2 ^ mx))
    ∧ ((remNonneg lens mx = false
          ∨ (remAt lens mx ≠ 0 ∧ remAt lens mx ≠ 2 ^ mx)) →
        make_huffman_decode_table lens tb mx = .error .invalidCode)
    ∧ (remAt lens mx = 2 ^ mx →
        make_huffman_decode_table lens tb mx
            = .ok (List.replicate (2 ^ tb) ⟨0, 0⟩)
          ∧ ∀ v, (List.replicate (2 ^ tb) (⟨0, 0⟩ : DecodeEntry)).getD v ⟨0, 0⟩
              = ⟨0, 0⟩) := by
  have herr : ∀ (h : remNonneg lens mx = false
      ∨ (remAt lens mx ≠ 0 ∧ remAt lens mx ≠ 2 ^ mx)),
      make_huffman_decode_table lens tb mx = .error .invalidCode := by
    intro h
    unfold make_huffman_decode_table
    rcases h with h | ⟨h1, h2⟩
    · rw [if_pos (by intro he; rw [h] at he; exact Bool.false_ne_true he)]
    · by_cases hnn : remNonneg lens mx = true
      · rw [if_neg (not_not_intro hnn), if_pos h1, if_pos h2]
      · rw [if_pos hnn]
  refine ⟨⟨?_, ?_⟩, herr, ?_⟩
  · rintro ⟨T, hT⟩
    cases hb : remNonneg lens mx with
    | false =>
      rw [herr (Or.inl hb)] at hT
      exact Except.noConfusion hT
    | true =>
      refine ⟨rfl, ?_⟩
      by_cases h0 : remAt lens mx = 0
      · exact Or.inl h0
      · by_cases h2 : remAt lens mx = 2 ^ mx
        · exact Or.inr h2
        · rw [herr (Or.inr ⟨h0, h2⟩)] at hT
          exact Except.noConfusion hT
  · rintro ⟨hnn, h0 | h2⟩
    · exact make_complete_ok lens tb mx hlenb hnn h0
    · exact ⟨_, make_empty_ok lens tb mx h2⟩
  · intro h2
    refine ⟨make_empty_ok lens tb mx h2, ?_⟩
    intro v
    by_cases hv : v < 2 ^ tb
    · exact getD_replicate _ _ _ _ hv
    · exact List.getD_eq_default _ _ (by simpa using not_lt.mp hv)

/-- Witness for C2 on the complete code with lengths `[2, 2, 2, 2]`
(`table_bits = 1`, `max_codeword_len = 2`): the validation remainder runs
1 → 2 → 0, so the build succeeds, and neither failure arm fires. -/
theorem C2_table_validation_witness :
    ((∃ T, make_huffman_decode_table [2, 2, 2, 2] 1 2 = .ok T)
        ↔ remNonneg [2, 2, 2, 2] 2 = true
          ∧ (remAt [2, 2, 2, 2] 2 = 0 ∨ remAt [2, 2, 2, 2] 2 = 2 ^ 2))
    ∧ ((remNonneg [2, 2, 2, 2] 2 = false
          ∨ (remAt [2, 2, 2, 2] 2 ≠ 0 ∧ remAt [2, 2, 2, 2] 2 ≠ 2 ^ 2)) →
        make_huffman_decode_table [2, 2, 2, 2] 1 2 = .error .invalidCode)
    ∧ (remAt [2, 2, 2, 2] 2 = 2 ^ 2 →
        make_huffman_decode_table [2, 2, 2, 2] 1 2
            = .ok (List.replicate (2 ^ 1) ⟨0, 0⟩)
          ∧ ∀ v, (List.replicate (2 ^ 1) (⟨0, 0⟩ : DecodeEntry)).getD v ⟨0, 0⟩
              = ⟨0, 0⟩) :=
  C2_table_validation [2, 2, 2, 2] 1 2 (by decide)

end DecompressCommon
